import Mathlib

/-!
# Verification of the `eu4-ideas-multiplier` repository

Shallow embedding of `src/paradox_parser.py` and `src/eu4_multiplier.py`.

Conventions of the embedding:
* Python text is modelled as `List Char`; Python `str` values stored in AST
  nodes are Lean `String`s.
* Python `int` is `Int`.  Python `float` is idealised as an exact rational
  (`Rat`): decimal literals denote their exact decimal value, arithmetic is
  exact, and `repr` prints the (finite) decimal expansion.  Every arithmetic
  step appearing in the verified claims (`1.5 * 10 = 15.0`) is exact in
  binary floating point as well, so the idealisation is faithful there.
* `pyparsing` combinators are modelled as total functions
  `List Char → Option (α × List Char)` returning the parsed value and the
  unconsumed suffix.  Each terminal first skips whitespace and `#`-comments,
  as `pyparsing` does with `.ignore(pp.python_style_comment)`.
  The `^` ("Or") combinator takes all alternatives and keeps the one that
  consumed the most characters, ties resolved in favour of the earlier
  alternative, exactly as `pyparsing.Or` does.
* Recursion through nested braces is fuel-bounded; the top level entry point
  `parse_file` uses `input.length + 1` fuel, which never runs out because
  every recursive descent consumes at least one character.
-/

namespace Pdx

/-- Model of the value stored in a Python `Number` dataclass: the
`int | float` union.  The `float` payload is an exact rational. -/
inductive PdxNumber where
  | int (n : Int)
  | float (q : Rat)
  deriving DecidableEq, Repr

/-- An element of a `Listing`: `Identifier | String` (the stored payload is
the bare word resp. the quoted text including the quotes). -/
inductive ListElem where
  | ident (s : String)
  | str (s : String)
  deriving DecidableEq, Repr

mutual

/-- The right-hand-side union of `Expression.rhs` in `paradox_parser.py`:
`Identifier | String | Number | Color | Listing | Block`.  `Color` keeps its
three components as the digit strings matched by `pp.Word(pp.nums)` (the
source attaches no parse action converting them to `int`). -/
inductive Value where
  | ident (s : String)
  | str (s : String)
  | num (v : PdxNumber)
  | color (red green blue : String)
  | listing (elements : List ListElem)
  | block (entries : List Expression)
  deriving Repr

/-- The `Expression` dataclass: `lhs : Identifier`, `rhs : Value`. -/
inductive Expression where
  | mk (lhs : String) (rhs : Value)
  deriving Repr

end

/-- `Expression.lhs` accessor (the identifier's stored string). -/
def Expression.lhs : Expression → String
  | .mk l _ => l

/-- `Expression.rhs` accessor. -/
def Expression.rhs : Expression → Value
  | .mk _ r => r

/-! ## Decimal printing of numbers

`Number.print_pdx_script` writes `f"{self.value}"`, i.e. Python's default
number-to-text conversion: decimal digits for `int`; for `float` the decimal
expansion with at least one fractional digit (`15.0`, `1.5`, `-0.05`). -/

/-- Little-endian base-10 digits of a natural number (fuel-structural so the
kernel can evaluate it; fuel `n` always suffices). -/
def natDigitsAux : Nat → Nat → List Nat
  | 0, _ => []
  | _ + 1, 0 => []
  | fuel + 1, n => (n % 10) :: natDigitsAux fuel (n / 10)

/-- Little-endian base-10 digits, empty for `0`. -/
def natDigits (n : Nat) : List Nat := natDigitsAux n n

/-- The character of one decimal digit. -/
def digitChar (d : Nat) : Char := Char.ofNat (48 + d)

/-- Value of a little-endian digit list (specification helper for
`natDigits`). -/
def valDigits : List Nat → Nat
  | [] => 0
  | d :: ds => d + 10 * valDigits ds

/-- Decimal text of a natural number, as Python prints it. -/
def printNat (n : Nat) : List Char :=
  if n = 0 then ['0'] else ((natDigits n).reverse).map digitChar

/-- Decimal text of an integer, as Python prints it. -/
def printInt (n : Int) : List Char :=
  if n < 0 then '-' :: printNat n.natAbs else printNat n.natAbs

/-- Smallest exponent `k ≤ den` with `den ∣ 10 ^ k`, `0` when none exists.
For the denominator of any Python float (a dyadic rational) such a `k`
exists. -/
def decExpAux (den : Nat) : Nat → Nat → Nat
  | 0, k => k
  | fuel + 1, k => if 10 ^ k % den == 0 then k else decExpAux den fuel (k + 1)

def decExp (den : Nat) : Nat := decExpAux den (den + 1) 0

/-- Fixed-notation text of a float value `q` (the decimal-finite rational
it denotes exactly): the decimal expansion with `k` fractional digits
where `k` is minimal, and a forced `.0` when `q` is an integer. -/
def printFloatFixed (q : Rat) : List Char :=
  let k := decExp q.den
  let m := q.num * ((10 ^ k : Nat) / q.den)
  let digits := printNat m.natAbs
  let digits := List.replicate (k + 1 - digits.length) '0' ++ digits
  let body :=
    if k = 0 then digits ++ ['.', '0']
    else digits.take (digits.length - k) ++ '.' :: digits.drop (digits.length - k)
  if m < 0 then '-' :: body else body

/-- Whether Python's `str()` prints this float in fixed notation:
`x == 0 or 1e-4 <= abs(x) < 1e16`; outside that range `str()` switches to
scientific notation. -/
def fixedRange (q : Rat) : Bool :=
  q.num == 0 ||
    (decide (q.den ≤ q.num.natAbs * 10 ^ 4) && decide (q.num.natAbs < q.den * 10 ^ 16))

/-- Scientific-notation text of a nonzero decimal-finite float: the
shortest mantissa `d` or `d.dd…d`, then `e`, then a signed exponent
zero-padded to at least two digits — `str(1e-05) == '1e-05'`,
`str(1e16) == '1e+16'`, `str(-1.23e+17) == '-1.23e+17'`. -/
def printFloatSci (q : Rat) : List Char :=
  let k := decExp q.den
  let m := q.num * ((10 ^ k : Nat) / q.den)
  let digits := printNat m.natAbs
  let mant := (digits.reverse.dropWhile (fun c => c = '0')).reverse
  let mantBody :=
    match mant with
    | [] => ['0']
    | [d] => [d]
    | d :: ds => d :: '.' :: ds
  let e : Int := (digits.length : Int) - 1 - (k : Int)
  let eDigits := printNat e.natAbs
  let eDigits := if eDigits.length < 2 then '0' :: eDigits else eDigits
  let body := mantBody ++ 'e' :: (if e < 0 then '-' else '+') :: eDigits
  if m < 0 then '-' :: body else body

/-- `str()` of a float (the exact rational it denotes): fixed notation for
zero and for magnitudes in `[1e-4, 1e16)`, scientific notation outside. -/
def printFloat (q : Rat) : List Char :=
  if fixedRange q then printFloatFixed q else printFloatSci q

/-- `Number.print_pdx_script`: `f"{self.value}"`. -/
def PdxNumber.print_pdx_script : PdxNumber → List Char
  | .int n => printInt n
  | .float q => printFloat q

/-- A run of `depth` tab characters. -/
def tabs (depth : Nat) : List Char := List.replicate depth '\t'

/-- `print_pdx_script` of a listing element (`Identifier`/`String` print
their stored value verbatim). -/
def ListElem.print_pdx_script : ListElem → List Char
  | .ident s => s.data
  | .str s => s.data

mutual

/-- `print_pdx_script` of a `Value` at a given depth, following each
dataclass's method in `paradox_parser.py`. -/
def Value.print_pdx_script : Value → Nat → List Char
  | .ident s, _ => s.data
  | .str s, _ => s.data
  | .num v, _ => v.print_pdx_script
  | .color r g b, _ =>
      '{' :: ' ' :: r.data ++ ' ' :: g.data ++ ' ' :: b.data ++ [' ', '}']
  | .listing [], _ => ['{', ' ', '}']
  | .listing [e], _ => '{' :: ' ' :: e.print_pdx_script ++ [' ', '}']
  | .listing (e1 :: e2 :: es), depth =>
      '{' :: '\n' :: printElems (e1 :: e2 :: es) depth ++ tabs depth ++ ['}']
  | .block [], _ => ['{', ' ', '}']
  | .block [.mk lhs rhs], depth =>
      match rhs with
      | .block es =>
          '{' :: '\n' :: printEntries [.mk lhs (Value.block es)] depth ++
            tabs depth ++ ['}']
      | .listing es =>
          '{' :: '\n' :: printEntries [.mk lhs (Value.listing es)] depth ++
            tabs depth ++ ['}']
      | rhs =>
          '{' :: ' ' :: lhs.data ++ ' ' :: '=' :: ' ' ::
            rhs.print_pdx_script 0 ++ [' ', '}']
  | .block (e1 :: e2 :: es), depth =>
      '{' :: '\n' :: printEntries (e1 :: e2 :: es) depth ++ tabs depth ++ ['}']

/-- The body of `Listing.print_pdx_script`'s multi-line branch: each element
indented one level deeper on its own line. -/
def printElems : List ListElem → Nat → List Char
  | [], _ => []
  | e :: es, depth =>
      tabs (depth + 1) ++ e.print_pdx_script ++ '\n' :: printElems es depth

/-- The body of `Block.print_pdx_script`'s multi-line branch: each child
expression printed at `depth + 1`. -/
def printEntries : List Expression → Nat → List Char
  | [], _ => []
  | e :: es, depth => e.print_pdx_script (depth + 1) ++ printEntries es depth

/-- `Expression.print_pdx_script`: `<tabs>lhs = rhs\n`. -/
def Expression.print_pdx_script : Expression → Nat → List Char
  | .mk lhs rhs, depth =>
      tabs depth ++ lhs.data ++ ' ' :: '=' :: ' ' ::
        rhs.print_pdx_script depth ++ ['\n']

end

/-- Serialisation of a whole parse forest at depth 0, as the
`process_target` writer emits it (one `print_pdx_script` call per
top-level expression). -/
def printForest (es : List Expression) : List Char :=
  match es with
  | [] => []
  | e :: es => e.print_pdx_script 0 ++ printForest es

/-! ## The parser

Model of the `pyparsing` grammar at the bottom of `paradox_parser.py`. -/

/-- `pyparsing`'s default skippable whitespace characters. -/
def isWs (c : Char) : Bool := c = ' ' || c = '\t' || c = '\n'

/-- Skip whitespace and `#`-comments (`.ignore(pp.python_style_comment)`),
the flag records whether we are inside a comment. -/
def skipWsAux : Bool → List Char → List Char
  | _, [] => []
  | true, c :: rest => if c = '\n' then skipWsAux false rest else skipWsAux true rest
  | false, c :: rest =>
      if isWs c then skipWsAux false rest
      else if c = '#' then skipWsAux true rest
      else c :: rest

/-- Leading whitespace/comment skipping applied before every terminal. -/
def skipWs (s : List Char) : List Char := skipWsAux false s

/-- First-character class of `_IDENTIFIER = pp.Word(alphanums + "_-", ...)`. -/
def isWordInit (c : Char) : Bool := c.isAlphanum || c = '_' || c = '-'

/-- Body-character class of `_IDENTIFIER` (`alphanums + "_.:-"`). -/
def isWordBody (c : Char) : Bool := c.isAlphanum || c = '_' || c = '.' || c = ':' || c = '-'

/-- `_IDENTIFIER`: a `pp.Word` with distinct initial and body classes,
greedy.  Returns the matched word. -/
def parseIdentRaw (s : List Char) : Option (String × List Char) :=
  match skipWs s with
  | [] => none
  | c :: rest =>
      if isWordInit c then
        some (⟨c :: rest.takeWhile isWordBody⟩, rest.dropWhile isWordBody)
      else none

/-- `_STRING = pp.QuotedString('"', multiline=True, unquote_results=False)`:
the stored value keeps its quotes, the content may span lines, there is no
escape character. -/
def parseStringRaw (s : List Char) : Option (String × List Char) :=
  match skipWs s with
  | '"' :: rest =>
      match rest.dropWhile (· ≠ '"') with
      | '"' :: rem => some (⟨'"' :: rest.takeWhile (· ≠ '"') ++ ['"']⟩, rem)
      | _ => none
  | _ => none

/-- `_NUMBER = pp.Regex(r"[-+]?\d+\.?\d*")`, greedy; returns the matched
text. -/
def parseNumberRaw (s : List Char) : Option (List Char × List Char) :=
  let s0 := skipWs s
  let (sign, s1) :=
    match s0 with
    | c :: rest => if c = '-' || c = '+' then ([c], rest) else (([] : List Char), s0)
    | [] => ([], s0)
  let ds := s1.takeWhile Char.isDigit
  if ds = [] then none
  else
    match s1.dropWhile Char.isDigit with
    | '.' :: s3 =>
        some (sign ++ ds ++ '.' :: s3.takeWhile Char.isDigit, s3.dropWhile Char.isDigit)
    | s2 => some (sign ++ ds, s2)

/-- Value of a digit character. -/
def charDigit (c : Char) : Nat := c.toNat - 48

/-- Numeric value of a digit run (most significant first). -/
def digitsToNat (ds : List Char) : Nat := ds.foldl (fun acc c => acc * 10 + charDigit c) 0

/-- The parse action of `_NUMBER`: `float(text) if '.' in text else int(text)`,
on the exact-rational idealisation of `float`. -/
def numberOfToken (tok : List Char) : PdxNumber :=
  let (neg, tok') :=
    match tok with
    | '-' :: t => (true, t)
    | '+' :: t => (false, t)
    | t => (false, t)
  let intPart := tok'.takeWhile (· ≠ '.')
  if tok.contains '.' then
    let fracPart := (tok'.dropWhile (· ≠ '.')).drop 1
    let mag : Rat := mkRat (digitsToNat intPart * 10 ^ fracPart.length + digitsToNat fracPart)
      (10 ^ fracPart.length)
    .float (if neg then -mag else mag)
  else
    let mag : Int := digitsToNat intPart
    .int (if neg then -mag else mag)

/-- A single-character terminal (`pp.Char`/`pp.Literal`), suppressed. -/
def parseLit (c : Char) (s : List Char) : Option (List Char) :=
  match skipWs s with
  | c' :: rest => if c' = c then some rest else none
  | _ => none

/-- `pp.Word(pp.nums)`: a greedy digit run, kept as its text (the `_COLOR`
components carry no converting parse action). -/
def parseWordNums (s : List Char) : Option (String × List Char) :=
  match skipWs s with
  | c :: rest =>
      if c.isDigit then some (⟨c :: rest.takeWhile Char.isDigit⟩, rest.dropWhile Char.isDigit)
      else none
  | [] => none

/-- The `^` ("Or") choice of `pyparsing` over two candidates: keep the one
consuming more characters (smaller remainder), ties to the first. -/
def orLongest {α : Type} : Option (α × List Char) → Option (α × List Char) →
    Option (α × List Char)
  | none, b => b
  | some a, none => some a
  | some a, some b => if b.2.length < a.2.length then some b else some a

/-- `pyparsing.Or` over a list of alternatives in priority order. -/
def pickLongest {α : Type} (l : List (Option (α × List Char))) : Option (α × List Char) :=
  l.foldl orLongest none

/-- One listing element: `_IDENTIFIER ^ _STRING`. -/
def parseListElem (s : List Char) : Option (ListElem × List Char) :=
  orLongest
    ((parseIdentRaw s).map (fun r => (ListElem.ident r.1, r.2)))
    ((parseStringRaw s).map (fun r => (ListElem.str r.1, r.2)))

/-- The `OneOrMore` tail of `_LISTING` (fuel-bounded; each element consumes
at least one character, so fuel `input.length` suffices). -/
def parseListElemsAux : Nat → List Char → List ListElem × List Char
  | 0, s => ([], s)
  | fuel + 1, s =>
      match parseListElem s with
      | none => ([], s)
      | some (e, s') =>
          let (es, s'') := parseListElemsAux fuel s'
          (e :: es, s'')

/-- `_LISTING = '{' + OneOrMore(_IDENTIFIER ^ _STRING) + '}'` with its parse
action building a `Listing`. -/
def parseListing (s : List Char) : Option (Value × List Char) :=
  match parseLit '{' s with
  | none => none
  | some s1 =>
      match parseListElem s1 with
      | none => none
      | some (e, s2) =>
          let (es, s3) := parseListElemsAux s2.length s2
          match parseLit '}' s3 with
          | none => none
          | some s4 => some (.listing (e :: es), s4)

/-- `_COLOR = '{' + pp.Word(pp.nums)[3] + '}'` with its parse action. -/
def parseColor (s : List Char) : Option (Value × List Char) :=
  match parseLit '{' s with
  | none => none
  | some s1 =>
      match parseWordNums s1 with
      | none => none
      | some (r, s2) =>
          match parseWordNums s2 with
          | none => none
          | some (g, s3) =>
              match parseWordNums s3 with
              | none => none
              | some (b, s4) =>
                  match parseLit '}' s4 with
                  | none => none
                  | some s5 => some (.color r g b, s5)

/-- `_NUMBER` as a `Value` alternative (parse action applied). -/
def parseNumber (s : List Char) : Option (Value × List Char) :=
  (parseNumberRaw s).map (fun r => (Value.num (numberOfToken r.1), r.2))

/-- `_IDENTIFIER` as a `Value` alternative. -/
def parseIdentValue (s : List Char) : Option (Value × List Char) :=
  (parseIdentRaw s).map (fun r => (Value.ident r.1, r.2))

/-- `_STRING` as a `Value` alternative. -/
def parseStringValue (s : List Char) : Option (Value × List Char) :=
  (parseStringRaw s).map (fun r => (Value.str r.1, r.2))

/-- `_EXPRESSION = _LHS + _RHS` where `_LHS = _IDENTIFIER + '='`,
parameterised by the `_RHS` parser (for the fuel-indexed knot below). -/
def parseExpressionWith (rhs : List Char → Option (Value × List Char))
    (s : List Char) : Option (Expression × List Char) :=
  match parseIdentRaw s with
  | none => none
  | some (lhs, s1) =>
      match parseLit '=' s1 with
      | none => none
      | some s2 =>
          match rhs s2 with
          | none => none
          | some (v, s3) => some (.mk lhs v, s3)

/-- `ZeroOrMore(_EXPRESSION)`, parameterised by the `_RHS` parser.  Each
iteration consumes at least one character, so fuel bounds the count. -/
def parseExpressionsWith (rhs : List Char → Option (Value × List Char)) :
    Nat → List Char → List Expression × List Char
  | 0, s => ([], s)
  | fuel + 1, s =>
      match parseExpressionWith rhs s with
      | none => ([], s)
      | some (e, s') =>
          let (es, s'') := parseExpressionsWith rhs fuel s'
          (e :: es, s'')

/-- `_BLOCK = pp.nested_expr('{', '}', _EXPRESSION)` with its parse action.
(The `nested_expr` helper would additionally accept bare nested brace
groups and bare quoted strings between entries; those alternatives can
only fire on inputs whose entry positions do not start with an identifier
character, and such parses produce values outside the dataclass model, so
they are not represented.) -/
def parseBlockWith (rhs : List Char → Option (Value × List Char)) (fuel : Nat)
    (s : List Char) : Option (Value × List Char) :=
  match parseLit '{' s with
  | none => none
  | some s1 =>
      let (es, s2) := parseExpressionsWith rhs fuel s1
      match parseLit '}' s2 with
      | none => none
      | some s3 => some (.block es, s3)

/-- `_RHS = _NUMBER ^ _COLOR ^ _LISTING ^ _BLOCK ^ _IDENTIFIER ^ _STRING`:
all six alternatives are attempted and the longest match wins, ties broken
by this fixed order.  Fuel bounds the brace-nesting depth and the entry
counts; `parse_file` supplies fuel that never runs out. -/
def parseValue : Nat → List Char → Option (Value × List Char)
  | 0, _ => none
  | fuel + 1, s =>
      pickLongest
        [parseNumber s, parseColor s, parseListing s,
         parseBlockWith (parseValue fuel) fuel s,
         parseIdentValue s, parseStringValue s]

/-- `_EXPRESSION` at a given fuel. -/
def parseExpression (fuel : Nat) (s : List Char) : Option (Expression × List Char) :=
  parseExpressionWith (parseValue fuel) s

/-- `parse_file`: `_EXPRESSION[...]` with `parse_all=True` — the whole input
must be consumed up to trailing whitespace/comments, otherwise the parse
fails. -/
def parse_file (s : List Char) : Option (List Expression) :=
  let (es, rest) := parseExpressionsWith (parseValue (s.length + 1)) (s.length + 1) s
  if skipWs rest = [] then some es else none

/-! ## Grammatical well-formedness of trees

The dataclasses accept arbitrary strings, but only trees whose stored
strings are lexically valid for their node kind print to re-parseable
text.  `wfValue` captures exactly the side conditions the serializer's
output needs in order to be tokenised the same way again:

* identifiers are nonempty `_IDENTIFIER` words; an identifier in rhs
  position must additionally not be a complete `_NUMBER` match (otherwise
  the `Number` production consumes the same span and wins the tie, exactly
  as it did when the tree was first parsed);
* strings are quote-delimited with no interior quote;
* color components are nonempty digit runs;
* a listing is nonempty (an empty one prints as `{ }`, which re-parses as
  an empty `Block`) and is not a triple of bare digit runs (which prints
  to a span that the higher-priority `Color` production also consumes). -/

/-- Lexically valid `_IDENTIFIER` word. -/
def wfWord (s : String) : Bool :=
  match s.data with
  | [] => false
  | c :: cs => isWordInit c && cs.all isWordBody

/-- Whether `_NUMBER`'s greedy match consumes this entire text. -/
def fullNumberShape (l : List Char) : Bool :=
  match parseNumberRaw l with
  | some (_, rem) => rem.isEmpty
  | none => false

/-- Tail of a well-formed quoted string: ends at the first `"`. -/
def wfStringTail : List Char → Bool
  | [] => false
  | [c] => c = '"'
  | c :: rest => c ≠ '"' && wfStringTail rest

/-- Lexically valid stored `_STRING` value (quotes kept, no interior quote). -/
def wfQuoted (s : String) : Bool :=
  match s.data with
  | c :: rest => c = '"' && wfStringTail rest
  | [] => false

/-- Nonempty digit run (a valid `pp.Word(pp.nums)` token). -/
def wfDigits (s : String) : Bool :=
  !s.data.isEmpty && s.data.all Char.isDigit

/-- Well-formed listing element. -/
def wfElem : ListElem → Bool
  | .ident s => wfWord s
  | .str s => wfQuoted s

/-- A listing element that is a bare digit run (can feed `_COLOR`). -/
def elemDigits : ListElem → Bool
  | .ident s => wfDigits s
  | .str _ => false

/-- Well-formed number: any `int`; a `float` must be decimal-finite (every
Python float is a dyadic rational, whose denominator divides `10 ^ den`)
and in the fixed-notation range of `str()` — outside it the serialized
scientific literal (`1e-05`) is not a `_NUMBER` token and re-parses as an
`Identifier`. -/
def wfNumber : PdxNumber → Bool
  | .int _ => true
  | .float q => decide (q.den ∣ 10 ^ q.den) && fixedRange q

mutual

/-- Well-formedness of a value in rhs position (see the section comment). -/
def wfValue : Value → Bool
  | .ident s => wfWord s && !fullNumberShape s.data
  | .str s => wfQuoted s
  | .num v => wfNumber v
  | .color r g b => wfDigits r && wfDigits g && wfDigits b
  | .listing es =>
      !es.isEmpty && es.all wfElem && !(es.length == 3 && es.all elemDigits)
  | .block es => wfEntries es

/-- Well-formedness of a list of block entries. -/
def wfEntries : List Expression → Bool
  | [] => true
  | e :: es => wfExpression e && wfEntries es

/-- Well-formedness of an expression. -/
def wfExpression : Expression → Bool
  | .mk lhs rhs => wfWord lhs && wfValue rhs

end

mutual

/-- Fuel needed by `parseValue` to re-parse a printed value: one unit per
brace level plus one per block entry. -/
def neededV : Value → Nat
  | .block es => 1 + neededEs es
  | _ => 1

/-- Fuel needed by the expression loop for a printed entry list. -/
def neededEs : List Expression → Nat
  | [] => 0
  | .mk _ r :: es => 1 + neededV r + neededEs es

end

/-- Each expression of a list printed at one fixed depth, concatenated
(`printEntries` shifted by one, `printForest` at depth 0). -/
def printsAt : List Expression → Nat → List Char
  | [], _ => []
  | e :: es, d => e.print_pdx_script d ++ printsAt es d

end Pdx

namespace EU4

open Pdx

/-! ## Model of `src/eu4_multiplier.py`

Python dicts (`Mapping[str, int | float]`) are modelled as association
lists; `dict.get` is the first hit of `lookupMod`, `dict[k] = v` is
`dictInsert` (overwrite when present, append when fresh).  Iteration over
the discovered `set[str]`s is modelled by iterating a list in its given
order.  Diagnostics printed by `process_expression` are collected in a
list. -/

/-- The `IGNORE_BLOCKS` set literal. -/
def IGNORE_BLOCKS : List String :=
  ["ai_will_do", "ai", "allow", "can_end", "can_select", "can_start",
   "can_stop", "chance", "on_monthly", "potential", "progress",
   "target_province_weights", "trigger"]

/-- `Mapping.get`: first value stored under the key, if any. -/
def lookupMod (m : List (String × PdxNumber)) (k : String) : Option PdxNumber :=
  match m.find? (fun p => p.1 = k) with
  | some p => some p.2
  | none => none

/-- `dict[k] = v`: overwrite an existing binding, else append. -/
def dictInsert (m : List (String × PdxNumber)) (k : String) (v : PdxNumber) :
    List (String × PdxNumber) :=
  if m.any (fun p => p.1 = k) then
    m.map (fun p => if p.1 = k then (p.1, v) else p)
  else m ++ [(k, v)]

/-- Exact-rational multiplication, written through `mkRat` so that the
kernel can evaluate it (see `ratMul_eq_mul`: it agrees with `Rat`
multiplication). -/
def ratMul (a b : Rat) : Rat := mkRat (a.num * b.num) (a.den * b.den)

/-- `ratMul` is ordinary rational multiplication. -/
theorem ratMul_eq_mul (a b : Rat) : ratMul a b = a * b := by
  rw [ratMul, Rat.mul_def, Rat.normalize_eq_mkRat]

/-- Python's `*` on the `int | float` union: `int * int` stays `int`, any
`float` operand promotes the result to `float`. -/
def pyMul : PdxNumber → PdxNumber → PdxNumber
  | .int a, .int b => .int (a * b)
  | .int a, .float b => .float (ratMul a b)
  | .float a, .int b => .float (ratMul a b)
  | .float a, .float b => .float (ratMul a b)

mutual

/-- `process_expression`: returns the (in-place mutated) expression, the
dirty flag it reports, and the diagnostics it prints.  The branch order
follows the source: ignore-set test, `Block` descent, modifier lookup,
non-`Number` defensive case. -/
def process_expression (m : List (String × PdxNumber)) :
    Expression → Expression × Bool × List Expression
  | .mk lhs rhs =>
      if lhs ∈ IGNORE_BLOCKS then (.mk lhs rhs, false, [])
      else
        match rhs with
        | .block entries =>
            let (entries', dirty, logs) := process_children m entries
            (.mk lhs (.block entries'), dirty, logs)
        | rhs =>
            match lookupMod m lhs with
            | some mult =>
                match rhs with
                | .num v => (.mk lhs (.num (pyMul v mult)), true, [])
                | rhs => (.mk lhs rhs, false, [.mk lhs rhs])
            | none => (.mk lhs rhs, false, [])

/-- The `for child_expression in expression.rhs.entries` loop:
`res = process_expression(child_expression, modifiers) or res`. -/
def process_children (m : List (String × PdxNumber)) :
    List Expression → List Expression × Bool × List Expression
  | [] => ([], false, [])
  | e :: es =>
      let (e', d, logs) := process_expression m e
      let (es', d', logs') := process_children m es
      (e' :: es', d || d', logs ++ logs')

end

/-- One top-level step of `process_static_file`'s loop: `none` models the
`assert isinstance(expression.rhs, pdx.Block)` failing. -/
def static_step (m : List (String × PdxNumber)) (ignore : List String)
    (e : Expression) : Option (Expression × Bool × List Expression) :=
  match e with
  | .mk lhs rhs =>
      match rhs with
      | .block entries =>
          if lhs ∈ ignore then some (.mk lhs (.block entries), false, [])
          else
            let (entries', dirty, logs) := process_children m entries
            some (.mk lhs (.block entries'), dirty, logs)
      | _ => none

/-- The loop of `process_static_file` over the parsed top-level tree. -/
def process_static (m : List (String × PdxNumber)) (ignore : List String) :
    List Expression → Option (List Expression × Bool × List Expression)
  | [] => some ([], false, [])
  | e :: es =>
      match static_step m ignore e with
      | none => none
      | some (e', d, logs) =>
          match process_static m ignore es with
          | none => none
          | some (es', d', logs') => some (e' :: es', d || d', logs ++ logs')

/-- `process_static_file` on an already-parsed tree: `tree if changed else
[]` (the `assert` failure is `none`). -/
def process_static_file (m : List (String × PdxNumber)) (ignore : List String)
    (tree : List Expression) : Option (List Expression) :=
  match process_static m ignore tree with
  | none => none
  | some (tree', changed, _) => some (if changed then tree' else [])

/-- `process_file` on an already-parsed tree, generic (non-static) branch:
the loop `changed = process_expression(expression, modifiers) or changed`
over the top level, returning `tree if changed else []`. -/
def process_file (m : List (String × PdxNumber)) (tree : List Expression) :
    List Expression :=
  let (tree', changed, _) := process_children m tree
  if changed then tree' else []

/-- `process_target`'s write condition for one eligible file: the walker
opens a destination file exactly when `process_file` returned a truthy
(non-empty) list. -/
def writes_output (m : List (String × PdxNumber)) (tree : List Expression) : Bool :=
  !(process_file m tree).isEmpty

/-- `process_file` including its first branch: a file whose containing
directory is named `static_modifiers` is dispatched to
`process_static_file` (whose assert may fail, hence `Option`); any other
file runs the generic loop. -/
def process_file_full (parent : String) (m : List (String × PdxNumber))
    (ignore_static : List String) (tree : List Expression) : Option (List Expression) :=
  if parent = "static_modifiers" then process_static_file m ignore_static tree
  else some (process_file m tree)

/-- `process_target`'s write condition for one eligible file, both modes:
the destination file is opened exactly when `process_file` returned a
truthy (non-empty) list (`none` models the static assert failing). -/
def writes_output_full (parent : String) (m : List (String × PdxNumber))
    (ignore_static : List String) (tree : List Expression) : Option Bool :=
  (process_file_full parent m ignore_static tree).map (fun t => !t.isEmpty)

/-! ### `load_modifiers` -/

/-- Python `str.rstrip()`: remove trailing whitespace. -/
def rstrip (s : String) : String :=
  ⟨(s.data.reverse.dropWhile (fun c => c = ' ' || c = '\t' || c = '\n' || c = '\r')).reverse⟩

/-- Whether `pat` occurs in `l` starting at its head. -/
def startsWithChars : List Char → List Char → Bool
  | [], _ => true
  | _ :: _, [] => false
  | c :: cs, d :: ds => c = d && startsWithChars cs ds

/-- `re.fullmatch(r"(?P<before>.*)PAT(?P<after>.*)", s)`: both `.*` are
greedy, so the split happens at the last occurrence of `PAT`; `none` when
`PAT` does not occur. -/
def regexSplit (pat s : String) : Option (String × String) :=
  match ((List.range (s.data.length + 1)).filter
      (fun i => startsWithChars pat.data (s.data.drop i))).getLast? with
  | some i => some (⟨s.data.take i⟩, ⟨s.data.drop (i + pat.data.length)⟩)
  | none => none

/-- The placeholder expansion of one stripped modifier line, following the
`elif` chain of `load_modifiers`; in every branch the override is looked up
under `ident`, the pre-expansion template. -/
def expandLine (multiplier : PdxNumber) (alternatives : List (String × PdxNumber))
    (tech_types estates factions government_powers : List String)
    (ident : String) : List (String × PdxNumber) :=
  match regexSplit "<estate>" ident with
  | some (b, a) =>
      estates.map (fun e => (b ++ e ++ a, (lookupMod alternatives ident).getD multiplier))
  | none =>
  match regexSplit "<faction>" ident with
  | some (b, a) =>
      factions.map (fun f => (b ++ f ++ a, (lookupMod alternatives ident).getD multiplier))
  | none =>
  match regexSplit "<government_power_type_id>" ident with
  | some (b, a) =>
      government_powers.map
        (fun p => (b ++ p ++ a, (lookupMod alternatives ident).getD multiplier))
  | none =>
  match regexSplit "<tech>" ident with
  | some (b, a) =>
      tech_types.map (fun t => (b ++ t ++ a, (lookupMod alternatives ident).getD multiplier))
  | none => [(ident, (lookupMod alternatives ident).getD multiplier)]

/-- `load_modifiers`: fold the (already line-split, newline-free) input;
lines whose `rstrip` is in `ignores` are skipped, every other line's
expansion is written into the result dict. -/
def load_modifiers (modifiers : List String) (multiplier : PdxNumber)
    (ignores : List String) (alternatives : List (String × PdxNumber))
    (tech_types estates factions government_powers : List String) :
    List (String × PdxNumber) :=
  modifiers.foldl
    (fun res line =>
      let stripped := rstrip line
      if stripped ∈ ignores then res
      else
        (expandLine multiplier alternatives tech_types estates factions
            government_powers stripped).foldl
          (fun res kv => dictInsert res kv.1 kv.2) res)
    []

/-! ### Structural erasure (for the frame property)

`eraseNums` zeroes every numeric payload while keeping everything else:
two trees with equal erasures agree on node count, order, kinds, every
lhs, and the contents of every non-`Number` leaf. -/

mutual

/-- A `Value` with every `Number` payload replaced by `0`. -/
def eraseNumsV : Value → Value
  | .num _ => .num (.int 0)
  | .block es => .block (eraseNumsEs es)
  | .ident s => .ident s
  | .str s => .str s
  | .color r g b => .color r g b
  | .listing ls => .listing ls

/-- `eraseNumsV` applied under every expression of a list. -/
def eraseNumsEs : List Expression → List Expression
  | [] => []
  | .mk lhs rhs :: es => .mk lhs (eraseNumsV rhs) :: eraseNumsEs es

end

end EU4

/-! # Theorems -/

namespace Pdx

/-! ## List and whitespace plumbing -/

theorem takeWhile_append_not {p : Char → Bool} {c : Char} (h : p c = false)
    (a r : List Char) : (a ++ c :: r).takeWhile p = a.takeWhile p := by
  induction a with
  | nil => simp [List.takeWhile_cons, h]
  | cons x xs ih => by_cases hx : p x <;> simp [List.takeWhile_cons, hx, ih]

theorem dropWhile_append_not {p : Char → Bool} {c : Char} (h : p c = false)
    (a r : List Char) : (a ++ c :: r).dropWhile p = a.dropWhile p ++ c :: r := by
  induction a with
  | nil => simp [List.dropWhile_cons, h]
  | cons x xs ih => by_cases hx : p x <;> simp [List.dropWhile_cons, hx, ih]

theorem skipWs_cons_of_ws {c : Char} (h : isWs c = true) (s : List Char) :
    skipWs (c :: s) = skipWs s := by
  simp [skipWs, skipWsAux, h]

theorem skipWs_cons_of_other {c : Char} (h1 : isWs c = false) (h2 : c ≠ '#')
    (s : List Char) : skipWs (c :: s) = c :: s := by
  simp [skipWs, skipWsAux, h1, h2]

theorem skipWs_append_ws {pre : List Char} (h : ∀ x ∈ pre, isWs x = true)
    (s : List Char) : skipWs (pre ++ s) = skipWs s := by
  induction pre with
  | nil => rfl
  | cons x xs ih =>
      rw [List.cons_append, skipWs_cons_of_ws (h x (by simp))]
      exact ih (fun y hy => h y (by simp [hy]))

theorem skipWsAux_shape (s : List Char) : ∀ b, skipWsAux b s = [] ∨
    ∃ c r, skipWsAux b s = c :: r ∧ isWs c = false ∧ c ≠ '#' := by
  induction s with
  | nil => intro b; cases b <;> exact Or.inl rfl
  | cons x xs ih =>
      intro b
      cases b with
      | true =>
          by_cases hx : x = '\n'
          · simpa [skipWsAux, hx] using ih false
          · simpa [skipWsAux, hx] using ih true
      | false =>
          by_cases hw : isWs x
          · simpa [skipWsAux, hw] using ih false
          · by_cases hh : x = '#'
            · simpa [skipWsAux, hw, hh] using ih true
            · exact Or.inr ⟨x, xs, by simp [skipWsAux, hw, hh], by simpa using hw, hh⟩

theorem skipWs_idem (s : List Char) : skipWs (skipWs s) = skipWs s := by
  rcases skipWsAux_shape s false with h | ⟨c, r, h, hw, hh⟩
  · have hs : skipWs s = [] := h
    rw [hs]; rfl
  · have hs : skipWs s = c :: r := h
    rw [hs, skipWs_cons_of_other hw hh]

/-- The characters of the whitespace class, for case analysis. -/
theorem ws_cases {c : Char} (h : isWs c = true) : c = ' ' ∨ c = '\t' ∨ c = '\n' := by
  simpa [isWs, decide_eq_true_eq, or_assoc] using h

theorem ws_facts {c : Char} (h : isWs c = true) :
    isWordBody c = false ∧ Char.isDigit c = false ∧ isWordInit c = false ∧
      c ≠ '.' ∧ c ≠ '-' ∧ c ≠ '+' ∧ c ≠ '{' ∧ c ≠ '}' ∧ c ≠ '"' ∧ c ≠ '=' ∧ c ≠ '#' := by
  rcases ws_cases h with rfl | rfl | rfl <;> exact ⟨rfl, rfl, rfl, by decide, by decide,
    by decide, by decide, by decide, by decide, by decide, by decide⟩

theorem wordInit_facts {c : Char} (h : isWordInit c = true) :
    isWs c = false ∧ c ≠ '#' ∧ c ≠ '{' ∧ c ≠ '}' ∧ c ≠ '"' ∧ c ≠ '=' := by
  refine ⟨?_, ?_, ?_, ?_, ?_, ?_⟩
  · by_contra hw
    have hw' : isWs c = true := by simpa using hw
    rcases ws_cases hw' with rfl | rfl | rfl <;> exact absurd h (by decide)
  all_goals rintro rfl; exact absurd h (by decide)

theorem digit_facts {c : Char} (h : Char.isDigit c = true) :
    isWs c = false ∧ c ≠ '#' ∧ isWordInit c = true ∧ isWordBody c = true := by
  refine ⟨?_, ?_, ?_, ?_⟩
  · by_contra hw
    have hw' : isWs c = true := by simpa using hw
    rcases ws_cases hw' with rfl | rfl | rfl <;> exact absurd h (by decide)
  · rintro rfl; exact absurd h (by decide)
  · simp [isWordInit, Char.isAlphanum, h]
  · simp [isWordBody, Char.isAlphanum, h]

theorem digit_ne {c : Char} (h : Char.isDigit c = true) :
    c ≠ '-' ∧ c ≠ '+' ∧ c ≠ '.' ∧ c ≠ '"' ∧ c ≠ '{' ∧ c ≠ '}' ∧ c ≠ '=' := by
  refine ⟨?_, ?_, ?_, ?_, ?_, ?_, ?_⟩ <;> rintro rfl <;> exact absurd h (by decide)

/-! ## Every terminal is a function of the whitespace-skipped input -/

theorem parseIdentRaw_skip (s : List Char) : parseIdentRaw s = parseIdentRaw (skipWs s) := by
  simp only [parseIdentRaw, skipWs_idem]

theorem parseIdentRaw_congr {s t : List Char} (h : skipWs s = skipWs t) :
    parseIdentRaw s = parseIdentRaw t := by
  rw [parseIdentRaw_skip s, parseIdentRaw_skip t, h]

theorem parseStringRaw_skip (s : List Char) : parseStringRaw s = parseStringRaw (skipWs s) := by
  simp only [parseStringRaw, skipWs_idem]

theorem parseStringRaw_congr {s t : List Char} (h : skipWs s = skipWs t) :
    parseStringRaw s = parseStringRaw t := by
  rw [parseStringRaw_skip s, parseStringRaw_skip t, h]

theorem parseNumberRaw_skip (s : List Char) : parseNumberRaw s = parseNumberRaw (skipWs s) := by
  simp only [parseNumberRaw, skipWs_idem]

theorem parseNumberRaw_congr {s t : List Char} (h : skipWs s = skipWs t) :
    parseNumberRaw s = parseNumberRaw t := by
  rw [parseNumberRaw_skip s, parseNumberRaw_skip t, h]

theorem parseLit_skip (c : Char) (s : List Char) : parseLit c s = parseLit c (skipWs s) := by
  simp only [parseLit, skipWs_idem]

theorem parseLit_congr (c : Char) {s t : List Char} (h : skipWs s = skipWs t) :
    parseLit c s = parseLit c t := by
  rw [parseLit_skip c s, parseLit_skip c t, h]

theorem parseWordNums_skip (s : List Char) : parseWordNums s = parseWordNums (skipWs s) := by
  simp only [parseWordNums, skipWs_idem]

theorem parseWordNums_congr {s t : List Char} (h : skipWs s = skipWs t) :
    parseWordNums s = parseWordNums t := by
  rw [parseWordNums_skip s, parseWordNums_skip t, h]

theorem parseListElem_congr {s t : List Char} (h : skipWs s = skipWs t) :
    parseListElem s = parseListElem t := by
  simp only [parseListElem, parseIdentRaw_congr h, parseStringRaw_congr h]

theorem parseListing_congr {s t : List Char} (h : skipWs s = skipWs t) :
    parseListing s = parseListing t := by
  simp only [parseListing, parseLit_congr '{' h]

theorem parseColor_congr {s t : List Char} (h : skipWs s = skipWs t) :
    parseColor s = parseColor t := by
  simp only [parseColor, parseLit_congr '{' h]

theorem parseBlockWith_congr (rhs : List Char → Option (Value × List Char)) (fuel : Nat)
    {s t : List Char} (h : skipWs s = skipWs t) :
    parseBlockWith rhs fuel s = parseBlockWith rhs fuel t := by
  simp only [parseBlockWith, parseLit_congr '{' h]

theorem parseValue_congr (fuel : Nat) {s t : List Char} (h : skipWs s = skipWs t) :
    parseValue fuel s = parseValue fuel t := by
  cases fuel with
  | zero => rfl
  | succ fuel =>
      simp only [parseValue, pickLongest, parseNumber, parseIdentValue, parseStringValue,
        parseNumberRaw_congr h, parseColor_congr h, parseListing_congr h,
        parseBlockWith_congr (parseValue fuel) fuel h, parseIdentRaw_congr h,
        parseStringRaw_congr h]

theorem parseExpressionWith_congr (rhs : List Char → Option (Value × List Char))
    {s t : List Char} (h : skipWs s = skipWs t) :
    parseExpressionWith rhs s = parseExpressionWith rhs t := by
  simp only [parseExpressionWith, parseIdentRaw_congr h]

/-! ## Evaluating terminals on serialized tokens -/

theorem skipWs_head_facts {s : List Char} {d : Char} {r : List Char}
    (h : skipWs s = d :: r) : isWs d = false ∧ d ≠ '#' := by
  rcases skipWsAux_shape s false with h2 | ⟨c', r', h2, hw, hh⟩
  · have h3 : (d :: r : List Char) = [] := by rw [← h]; exact h2
    simp at h3
  · have hc : skipWs s = c' :: r' := h2
    rw [h] at hc
    injection hc with e1 e2
    subst e1; exact ⟨hw, hh⟩

theorem parseIdentRaw_eval {s : List Char} {d : Char} {r : List Char}
    (h : skipWs s = d :: r) :
    parseIdentRaw s = if isWordInit d then
      some (⟨d :: r.takeWhile isWordBody⟩, r.dropWhile isWordBody) else none := by
  obtain ⟨hw, hh⟩ := skipWs_head_facts h
  rw [parseIdentRaw_skip, h]
  simp only [parseIdentRaw, skipWs_cons_of_other hw hh]

theorem parseIdentRaw_print {s : String} {c : Char} {rest : List Char}
    (hs : wfWord s = true) (hc : isWordBody c = false) :
    parseIdentRaw (s.data ++ c :: rest) = some (s, c :: rest) := by
  rcases hdata : s.data with _ | ⟨d, cs⟩
  · rw [wfWord, hdata] at hs; simp at hs
  · have h1 : isWordInit d = true ∧ cs.all isWordBody = true := by
      rw [wfWord, hdata] at hs; simpa using hs
    obtain ⟨hd, hcs⟩ := h1
    obtain ⟨hnw, hnh, _, _, _, _⟩ := wordInit_facts hd
    have hskip : skipWs (d :: (cs ++ c :: rest)) = d :: (cs ++ c :: rest) :=
      skipWs_cons_of_other hnw hnh _
    rw [List.cons_append, parseIdentRaw_eval hskip]
    rw [takeWhile_append_not hc, dropWhile_append_not hc,
      List.takeWhile_eq_self_iff.mpr (by simpa [List.all_eq_true] using hcs),
      List.dropWhile_eq_nil_iff.mpr (by simpa [List.all_eq_true] using hcs)]
    have he : (⟨d :: cs⟩ : String) = s := by rw [← hdata]
    simp [hd, he]

theorem parseIdentRaw_fail {s : List Char} {d : Char} {r : List Char}
    (h : skipWs s = d :: r) (hd : isWordInit d = false) : parseIdentRaw s = none := by
  rw [parseIdentRaw_eval h]; simp [hd]

theorem parseIdentRaw_fail_nil {s : List Char} (h : skipWs s = []) :
    parseIdentRaw s = none := by
  rw [parseIdentRaw_skip, h]; rfl

theorem parseLit_eval {s : List Char} {d : Char} {r : List Char} (c : Char)
    (h : skipWs s = d :: r) :
    parseLit c s = if d = c then some r else none := by
  obtain ⟨hw, hh⟩ := skipWs_head_facts h
  rw [parseLit_skip, h]
  simp only [parseLit, skipWs_cons_of_other hw hh]

theorem parseLit_fail_nil {s : List Char} (c : Char) (h : skipWs s = []) :
    parseLit c s = none := by
  rw [parseLit_skip, h]; rfl

theorem parseStringRaw_eval {s : List Char} {d : Char} {r : List Char}
    (h : skipWs s = d :: r) :
    parseStringRaw s =
      (if d = '"' then
        match r.dropWhile (· ≠ '"') with
        | '"' :: rem => some (⟨'"' :: r.takeWhile (· ≠ '"') ++ ['"']⟩, rem)
        | _ => none
      else none) := by
  obtain ⟨hw, hh⟩ := skipWs_head_facts h
  rw [parseStringRaw_skip, h]
  by_cases hd : d = '"'
  · subst hd
    simp only [parseStringRaw, skipWs_cons_of_other hw hh]
    simp
  · have hsk : skipWs (d :: r) = d :: r := skipWs_cons_of_other hw hh _
    rw [if_neg hd]
    simp only [parseStringRaw, hsk]
    split
    · rename_i rem heq
      injection heq with e1 e2
      exact absurd e1 hd
    · rfl

theorem wfStringTail_split {l : List Char} (h : wfStringTail l = true) :
    ∃ mid, l = mid ++ ['"'] ∧ ∀ x ∈ mid, (x ≠ '"') := by
  induction l with
  | nil => simp [wfStringTail] at h
  | cons c rest ih =>
      cases rest with
      | nil =>
          have hc : c = '"' := by simpa [wfStringTail] using h
          exact ⟨[], by simp [hc], by simp⟩
      | cons c2 rest2 =>
          have h2 : (c ≠ '"') ∧ wfStringTail (c2 :: rest2) = true := by
            simpa [wfStringTail] using h
          obtain ⟨mid, hmid, hfree⟩ := ih h2.2
          refine ⟨c :: mid, by simp [hmid], ?_⟩
          intro x hx
          rcases List.mem_cons.mp hx with rfl | hx
          · exact h2.1
          · exact hfree x hx

theorem parseStringRaw_print {s : String} {rest : List Char} (hs : wfQuoted s = true) :
    parseStringRaw (s.data ++ rest) = some (s, rest) := by
  rcases hdata : s.data with _ | ⟨d, tl⟩
  · rw [wfQuoted, hdata] at hs; simp at hs
  · have h1 : d = '"' ∧ wfStringTail tl = true := by
      rw [wfQuoted, hdata] at hs; simpa using hs
    obtain ⟨rfl, htl⟩ := h1
    obtain ⟨mid, rfl, hfree⟩ := wfStringTail_split htl
    have hskip : skipWs ('"' :: ((mid ++ ['"']) ++ rest)) = '"' :: ((mid ++ ['"']) ++ rest) :=
      skipWs_cons_of_other (by decide) (by decide) _
    rw [List.cons_append, parseStringRaw_eval hskip, if_pos rfl]
    have hq : (fun x => decide (x ≠ '"')) '"' = false := by decide
    have hassoc : (mid ++ ['"']) ++ rest = mid ++ '"' :: rest := by simp
    rw [hassoc, dropWhile_append_not hq, takeWhile_append_not hq,
      List.takeWhile_eq_self_iff.mpr (by intro x hx; simpa using hfree x hx),
      List.dropWhile_eq_nil_iff.mpr (by intro x hx; simpa using hfree x hx)]
    simp only [List.nil_append]
    refine congrArg (fun t => some (t, rest)) ?_
    apply String.ext
    simp [hdata]

theorem parseStringRaw_fail {s : List Char} {d : Char} {r : List Char}
    (h : skipWs s = d :: r) (hd : d ≠ '"') : parseStringRaw s = none := by
  rw [parseStringRaw_eval h, if_neg hd]

theorem parseWordNums_eval {s : List Char} {d : Char} {r : List Char}
    (h : skipWs s = d :: r) :
    parseWordNums s = if d.isDigit then
      some (⟨d :: r.takeWhile Char.isDigit⟩, r.dropWhile Char.isDigit) else none := by
  obtain ⟨hw, hh⟩ := skipWs_head_facts h
  rw [parseWordNums_skip, h]
  simp only [parseWordNums, skipWs_cons_of_other hw hh]

theorem parseWordNums_print {s : String} {c : Char} {rest : List Char}
    (hs : wfDigits s = true) (hc : Char.isDigit c = false) :
    parseWordNums (s.data ++ c :: rest) = some (s, c :: rest) := by
  rcases hdata : s.data with _ | ⟨d, cs⟩
  · rw [wfDigits, hdata] at hs; simp at hs
  · have h1 : d.isDigit = true ∧ cs.all Char.isDigit = true := by
      rw [wfDigits, hdata] at hs
      simp only [List.all_cons, List.isEmpty_cons] at hs ⊢
      simpa using hs
    obtain ⟨hd, hcs⟩ := h1
    obtain ⟨hnw, hnh, _, _⟩ := digit_facts hd
    have hskip : skipWs (d :: (cs ++ c :: rest)) = d :: (cs ++ c :: rest) :=
      skipWs_cons_of_other hnw hnh _
    rw [List.cons_append, parseWordNums_eval hskip]
    rw [takeWhile_append_not hc, dropWhile_append_not hc,
      List.takeWhile_eq_self_iff.mpr (by simpa [List.all_eq_true] using hcs),
      List.dropWhile_eq_nil_iff.mpr (by simpa [List.all_eq_true] using hcs)]
    have he : (⟨d :: cs⟩ : String) = s := by rw [← hdata]
    simp [hd, he]

theorem parseWordNums_fail {s : List Char} {d : Char} {r : List Char}
    (h : skipWs s = d :: r) (hd : Char.isDigit d = false) : parseWordNums s = none := by
  rw [parseWordNums_eval h]; simp [hd]

theorem parseWordNums_fail_nil {s : List Char} (h : skipWs s = []) :
    parseWordNums s = none := by
  rw [parseWordNums_skip, h]; rfl

theorem parseNumberRaw_eval {s : List Char} {d : Char} {r : List Char}
    (h : skipWs s = d :: r) :
    parseNumberRaw s =
      (let (sign, s1) :=
        if d = '-' || d = '+' then ([d], r) else (([] : List Char), d :: r)
       let ds := s1.takeWhile Char.isDigit
       if ds = [] then none
       else
         match s1.dropWhile Char.isDigit with
         | '.' :: s3 =>
             some (sign ++ ds ++ '.' :: s3.takeWhile Char.isDigit, s3.dropWhile Char.isDigit)
         | s2 => some (sign ++ ds, s2)) := by
  obtain ⟨hw, hh⟩ := skipWs_head_facts h
  rw [parseNumberRaw_skip, h]
  simp only [parseNumberRaw, skipWs_cons_of_other hw hh]

theorem parseNumberRaw_fail {s : List Char} {d : Char} {r : List Char}
    (h : skipWs s = d :: r) (h1 : d ≠ '-') (h2 : d ≠ '+') (h3 : Char.isDigit d = false) :
    parseNumberRaw s = none := by
  rw [parseNumberRaw_eval h]
  simp only [h1, h2, decide_eq_false, Bool.or_self, if_false]
  have : (d :: r).takeWhile Char.isDigit = [] := by simp [List.takeWhile_cons, h3]
  simp [this]

theorem parseNumberRaw_fail_nil {s : List Char} (h : skipWs s = []) :
    parseNumberRaw s = none := by
  rw [parseNumberRaw_skip, h]; rfl

/-! ## Decimal digits round-trip -/

theorem natDigitsAux_zero (f : Nat) : natDigitsAux f 0 = [] := by
  cases f <;> rfl

theorem natDigitsAux_eq_of_le (n : Nat) : ∀ f1 f2, n ≤ f1 → n ≤ f2 →
    natDigitsAux f1 n = natDigitsAux f2 n := by
  induction n using Nat.strong_induction_on with
  | _ n ih =>
      intro f1 f2 h1 h2
      cases n with
      | zero => rw [natDigitsAux_zero, natDigitsAux_zero]
      | succ m =>
          cases f1 with
          | zero => omega
          | succ a =>
              cases f2 with
              | zero => omega
              | succ b =>
                  simp only [natDigitsAux]
                  congr 1
                  exact ih ((m + 1) / 10) (by omega) a b (by omega) (by omega)

theorem natDigits_succ (m : Nat) :
    natDigits (m + 1) = (m + 1) % 10 :: natDigits ((m + 1) / 10) := by
  rw [natDigits, natDigits]
  show natDigitsAux (m + 1) (m + 1) = _
  cases hm : m + 1 with
  | zero => omega
  | succ m' =>
      simp only [natDigitsAux]
      rw [← hm]
      congr 1
      exact natDigitsAux_eq_of_le _ _ _ (by omega) (le_refl _)

theorem valDigits_natDigits (n : Nat) : valDigits (natDigits n) = n := by
  induction n using Nat.strong_induction_on with
  | _ n ih =>
      cases n with
      | zero => rfl
      | succ m =>
          rw [natDigits_succ, valDigits, ih ((m + 1) / 10) (by omega)]
          omega

theorem natDigits_lt (n : Nat) : ∀ d ∈ natDigits n, d < 10 := by
  induction n using Nat.strong_induction_on with
  | _ n ih =>
      cases n with
      | zero => intro d hd; simp [natDigits, natDigitsAux] at hd
      | succ m =>
          rw [natDigits_succ]
          intro d hd
          rcases List.mem_cons.mp hd with rfl | hd
          · omega
          · exact ih ((m + 1) / 10) (by omega) d hd

theorem charDigit_digitChar {d : Nat} (h : d < 10) : charDigit (digitChar d) = d := by
  interval_cases d <;> rfl

theorem digitChar_isDigit {d : Nat} (h : d < 10) : (digitChar d).isDigit = true := by
  interval_cases d <;> rfl

theorem printNat_all_digits (n : Nat) : ∀ c ∈ printNat n, c.isDigit = true := by
  intro c hc
  rw [printNat] at hc
  by_cases h : n = 0
  · simp [h] at hc; subst hc; rfl
  · simp only [h, if_neg, if_false] at hc
    obtain ⟨d, hd, rfl⟩ := List.mem_map.mp hc
    exact digitChar_isDigit (natDigits_lt n d (List.mem_reverse.mp hd))

theorem printNat_ne_nil (n : Nat) : printNat n ≠ [] := by
  rw [printNat]
  by_cases h : n = 0
  · simp [h]
  · simp only [h, if_false]
    intro hc
    have h0 : natDigits n ≠ [] := by
      cases n with
      | zero => omega
      | succ m => rw [natDigits_succ]; simp
    simp only [List.map_eq_nil_iff, List.reverse_eq_nil_iff] at hc
    exact h0 hc

theorem digitsToNat_aux (b : List Char) : ∀ acc, (∀ c ∈ b, c.isDigit = true) →
    b.foldl (fun acc c => acc * 10 + charDigit c) acc =
      acc * 10 ^ b.length + digitsToNat b := by
  induction b with
  | nil => intro acc _; simp [digitsToNat]
  | cons c cs ih =>
      intro acc hall
      have hcs : ∀ x ∈ cs, x.isDigit = true := fun x hx => hall x (by simp [hx])
      simp only [List.foldl_cons, digitsToNat]
      rw [ih _ hcs, ih (0 * 10 + charDigit c) hcs]
      simp [List.length_cons, pow_succ]
      ring

theorem digitsToNat_append (a b : List Char) (hb : ∀ c ∈ b, c.isDigit = true) :
    digitsToNat (a ++ b) = digitsToNat a * 10 ^ b.length + digitsToNat b := by
  rw [digitsToNat, List.foldl_append, digitsToNat_aux b _ hb]
  rfl

theorem digitsToNat_printNat (n : Nat) : digitsToNat (printNat n) = n := by
  by_cases h : n = 0
  · subst h; rfl
  · rw [printNat]
    simp only [h, if_false]
    have key : ∀ ds acc, (∀ d ∈ ds, d < 10) →
        (ds.reverse.map digitChar).foldl (fun acc c => acc * 10 + charDigit c) acc =
          acc * 10 ^ ds.length + valDigits ds := by
      intro ds
      induction ds with
      | nil => intro acc _; simp [valDigits]
      | cons d ds ih =>
          intro acc hall
          have hds : ∀ x ∈ ds, x < 10 := fun x hx => hall x (by simp [hx])
          rw [List.reverse_cons, List.map_append, List.foldl_append, ih acc hds]
          simp only [List.map_cons, List.map_nil, List.foldl_cons, List.foldl_nil,
            valDigits, List.length_cons]
          rw [charDigit_digitChar (hall d (by simp))]
          rw [pow_succ]
          ring
    rw [digitsToNat, key (natDigits n) 0 (natDigits_lt n), valDigits_natDigits]
    simp

theorem digitsToNat_replicate_zero (z : Nat) (l : List Char)
    (hl : ∀ c ∈ l, c.isDigit = true) :
    digitsToNat (List.replicate z '0' ++ l) = digitsToNat l := by
  rw [digitsToNat_append _ _ hl]
  have h0 : digitsToNat (List.replicate z '0') = 0 := by
    induction z with
    | zero => rfl
    | succ m ih =>
        rw [List.replicate_succ, digitsToNat, List.foldl_cons]
        have : (0 : Nat) * 10 + charDigit '0' = 0 := by rfl
        rw [this]
        exact ih
  rw [h0]
  simp

/-! ## Number tokens round-trip -/

theorem parseNumberRaw_eval_nosign {s : List Char} {d : Char} {r : List Char}
    (h : skipWs s = d :: r) (hm : d ≠ '-') (hp : d ≠ '+') :
    parseNumberRaw s =
      (if (d :: r).takeWhile Char.isDigit = [] then none
       else
         match (d :: r).dropWhile Char.isDigit with
         | '.' :: s3 =>
             some ((d :: r).takeWhile Char.isDigit ++ '.' :: s3.takeWhile Char.isDigit,
               s3.dropWhile Char.isDigit)
         | s2 => some ((d :: r).takeWhile Char.isDigit, s2)) := by
  rw [parseNumberRaw_eval h]
  have hcond : ¬((d = '-' || d = '+') = true) := by simp [hm, hp]
  simp only [if_neg hcond, List.nil_append]

theorem parseNumberRaw_eval_sign {s : List Char} {d : Char} {r : List Char}
    (h : skipWs s = d :: r) (hd : d = '-' ∨ d = '+') :
    parseNumberRaw s =
      (if r.takeWhile Char.isDigit = [] then none
       else
         match r.dropWhile Char.isDigit with
         | '.' :: s3 =>
             some (d :: (r.takeWhile Char.isDigit ++ '.' :: s3.takeWhile Char.isDigit),
               s3.dropWhile Char.isDigit)
         | s2 => some (d :: r.takeWhile Char.isDigit, s2)) := by
  rw [parseNumberRaw_eval h]
  have hcond : (d = '-' || d = '+') = true := by
    rcases hd with rfl | rfl <;> simp
  simp only [if_pos hcond, List.cons_append, List.singleton_append, List.nil_append]

theorem takeWhile_digits_all {ds : List Char} {c : Char} {rest : List Char}
    (hall : ∀ x ∈ ds, x.isDigit = true) (hc : Char.isDigit c = false) :
    (ds ++ c :: rest).takeWhile Char.isDigit = ds := by
  rw [takeWhile_append_not hc,
    List.takeWhile_eq_self_iff.mpr (by intro x hx; exact hall x hx)]

theorem dropWhile_digits_all {ds : List Char} {c : Char} {rest : List Char}
    (hall : ∀ x ∈ ds, x.isDigit = true) (hc : Char.isDigit c = false) :
    (ds ++ c :: rest).dropWhile Char.isDigit = c :: rest := by
  rw [dropWhile_append_not hc,
    List.dropWhile_eq_nil_iff.mpr (by intro x hx; exact hall x hx)]
  simp

theorem parseNumberRaw_digits {ds : List Char} {c : Char} {rest : List Char}
    (hds : ds ≠ []) (hall : ∀ x ∈ ds, x.isDigit = true)
    (hc1 : Char.isDigit c = false) (hc2 : c ≠ '.') :
    parseNumberRaw (ds ++ c :: rest) = some (ds, c :: rest) := by
  rcases ds with _ | ⟨d, dt⟩
  · exact absurd rfl hds
  · have hd : d.isDigit = true := hall d (by simp)
    obtain ⟨hnw, hnh, _, _⟩ := digit_facts hd
    obtain ⟨hm, hp, _, _, _, _, _⟩ := digit_ne hd
    have hskip : skipWs (d :: (dt ++ c :: rest)) = d :: (dt ++ c :: rest) :=
      skipWs_cons_of_other hnw hnh _
    rw [List.cons_append, parseNumberRaw_eval_nosign hskip hm hp]
    have htw : (d :: (dt ++ c :: rest)).takeWhile Char.isDigit = d :: dt := by
      rw [show d :: (dt ++ c :: rest) = (d :: dt) ++ c :: rest by simp]
      exact takeWhile_digits_all hall hc1
    have hdw : (d :: (dt ++ c :: rest)).dropWhile Char.isDigit = c :: rest := by
      rw [show d :: (dt ++ c :: rest) = (d :: dt) ++ c :: rest by simp]
      exact dropWhile_digits_all hall hc1
    rw [htw, hdw, if_neg (by simp : ¬(d :: dt : List Char) = [])]
    split
    · rename_i s3 heq
      injection heq with e1 e2
      exact absurd e1 hc2
    · rfl

theorem parseNumberRaw_neg_digits {ds : List Char} {c : Char} {rest : List Char}
    (hds : ds ≠ []) (hall : ∀ x ∈ ds, x.isDigit = true)
    (hc1 : Char.isDigit c = false) (hc2 : c ≠ '.') :
    parseNumberRaw (('-' :: ds) ++ c :: rest) = some ('-' :: ds, c :: rest) := by
  have hskip : skipWs ('-' :: (ds ++ c :: rest)) = '-' :: (ds ++ c :: rest) :=
    skipWs_cons_of_other (by decide) (by decide) _
  rw [List.cons_append, parseNumberRaw_eval_sign hskip (Or.inl rfl)]
  rw [takeWhile_digits_all hall hc1, dropWhile_digits_all hall hc1,
    if_neg hds]
  split
  · rename_i s3 heq
    injection heq with e1 e2
    exact absurd e1 hc2
  · rfl

theorem contains_dot_false {ds : List Char} (hall : ∀ x ∈ ds, x.isDigit = true) :
    ds.contains '.' = false := by
  rw [Bool.eq_false_iff]
  intro hc
  have hmem : '.' ∈ ds := by
    simpa using hc
  exact absurd (hall '.' hmem) (by decide)

theorem takeWhile_ne_dot {ds : List Char} (hall : ∀ x ∈ ds, x.isDigit = true) :
    ds.takeWhile (fun c => c ≠ '.') = ds := by
  apply List.takeWhile_eq_self_iff.mpr
  intro x hx
  simpa using (digit_ne (hall x hx)).2.2.1

theorem numberOfToken_digits {ds : List Char} (hds : ds ≠ [])
    (hall : ∀ x ∈ ds, x.isDigit = true) :
    numberOfToken ds = .int (digitsToNat ds) := by
  rcases ds with _ | ⟨d, dt⟩
  · exact absurd rfl hds
  · have hd : d.isDigit = true := hall d (by simp)
    obtain ⟨hm, hp, _, _, _, _, _⟩ := digit_ne hd
    rw [numberOfToken, contains_dot_false hall]
    simp only [Bool.false_eq_true, if_false]
    rw [takeWhile_ne_dot hall]
    · intro t heq; injection heq with e1 e2; exact hm e1
    · intro t heq; injection heq with e1 e2; exact hp e1

theorem numberOfToken_neg_digits {ds : List Char} (hds : ds ≠ [])
    (hall : ∀ x ∈ ds, x.isDigit = true) :
    numberOfToken ('-' :: ds) = .int (-(digitsToNat ds : Int)) := by
  rw [numberOfToken]
  have hcont : ('-' :: ds).contains '.' = false := by
    rw [Bool.eq_false_iff]
    intro hc
    have hmem : '.' ∈ '-' :: ds := by simpa using hc
    rcases List.mem_cons.mp hmem with h | h
    · exact absurd h (by decide)
    · exact absurd (hall '.' h) (by decide)
  rw [hcont]
  simp only [Bool.false_eq_true, if_false]
  rw [takeWhile_ne_dot hall]
  rfl

theorem parse_print_nonneg_int {m : Nat} {c : Char} {rest : List Char}
    (hc : isWs c = true) :
    parseNumberRaw (printNat m ++ c :: rest) = some (printNat m, c :: rest) ∧
      numberOfToken (printNat m) = .int m := by
  obtain ⟨_, hdig, _, hdot, _, _, _, _, _, _, _⟩ := ws_facts hc
  constructor
  · exact parseNumberRaw_digits (printNat_ne_nil m) (printNat_all_digits m) hdig hdot
  · rw [numberOfToken_digits (printNat_ne_nil m) (printNat_all_digits m),
      digitsToNat_printNat]

theorem parse_print_int (n : Int) {c : Char} {rest : List Char} (hc : isWs c = true) :
    parseNumberRaw (printInt n ++ c :: rest) = some (printInt n, c :: rest) ∧
      numberOfToken (printInt n) = .int n := by
  obtain ⟨_, hdig, _, hdot, _, _, _, _, _, _, _⟩ := ws_facts hc
  by_cases hn : n < 0
  · rw [printInt, if_pos hn]
    constructor
    · exact parseNumberRaw_neg_digits (printNat_ne_nil _) (printNat_all_digits _) hdig hdot
    · rw [numberOfToken_neg_digits (printNat_ne_nil _) (printNat_all_digits _),
        digitsToNat_printNat]
      congr 1
      omega
  · rw [printInt, if_neg hn]
    obtain ⟨h1, h2⟩ := @parse_print_nonneg_int n.natAbs c rest hc
    refine ⟨h1, ?_⟩
    rw [h2]
    congr 1
    omega

theorem parseNumberRaw_float_digits {intp frac : List Char} {c : Char} {rest : List Char}
    (hi : intp ≠ []) (hid : ∀ x ∈ intp, x.isDigit = true)
    (hfd : ∀ x ∈ frac, x.isDigit = true)
    (hc1 : Char.isDigit c = false) (hc2 : c ≠ '.') :
    parseNumberRaw ((intp ++ '.' :: frac) ++ c :: rest) =
      some (intp ++ '.' :: frac, c :: rest) := by
  rcases intp with _ | ⟨d, dt⟩
  · exact absurd rfl hi
  · have hd : d.isDigit = true := hid d (by simp)
    obtain ⟨hnw, hnh, _, _⟩ := digit_facts hd
    obtain ⟨hm, hp, _, _, _, _, _⟩ := digit_ne hd
    have hshape : ((d :: dt ++ '.' :: frac) ++ c :: rest : List Char)
        = d :: (dt ++ '.' :: (frac ++ c :: rest)) := by simp
    have hskip : skipWs (d :: (dt ++ '.' :: (frac ++ c :: rest)))
        = d :: (dt ++ '.' :: (frac ++ c :: rest)) :=
      skipWs_cons_of_other hnw hnh _
    rw [hshape, parseNumberRaw_eval_nosign hskip hm hp]
    have hdt : ∀ x ∈ dt, x.isDigit = true := fun x hx => hid x (by simp [hx])
    have hdot : Char.isDigit '.' = false := by decide
    have htw : (d :: (dt ++ '.' :: (frac ++ c :: rest))).takeWhile Char.isDigit
        = d :: dt := by
      rw [show d :: (dt ++ '.' :: (frac ++ c :: rest))
            = (d :: dt) ++ '.' :: (frac ++ c :: rest) by simp]
      exact takeWhile_digits_all hid hdot
    have hdw : (d :: (dt ++ '.' :: (frac ++ c :: rest))).dropWhile Char.isDigit
        = '.' :: (frac ++ c :: rest) := by
      rw [show d :: (dt ++ '.' :: (frac ++ c :: rest))
            = (d :: dt) ++ '.' :: (frac ++ c :: rest) by simp]
      exact dropWhile_digits_all hid hdot
    rw [htw, hdw, if_neg (by simp : ¬(d :: dt : List Char) = [])]
    simp [takeWhile_digits_all hfd hc1, dropWhile_digits_all hfd hc1]

theorem parseNumberRaw_neg_float_digits {intp frac : List Char} {c : Char}
    {rest : List Char}
    (hi : intp ≠ []) (hid : ∀ x ∈ intp, x.isDigit = true)
    (hfd : ∀ x ∈ frac, x.isDigit = true)
    (hc1 : Char.isDigit c = false) (hc2 : c ≠ '.') :
    parseNumberRaw (('-' :: (intp ++ '.' :: frac)) ++ c :: rest) =
      some ('-' :: (intp ++ '.' :: frac), c :: rest) := by
  have hshape : (('-' :: (intp ++ '.' :: frac)) ++ c :: rest : List Char)
      = '-' :: ((intp ++ '.' :: frac) ++ c :: rest) := by simp
  have hskip : skipWs ('-' :: ((intp ++ '.' :: frac) ++ c :: rest))
      = '-' :: ((intp ++ '.' :: frac) ++ c :: rest) :=
    skipWs_cons_of_other (by decide) (by decide) _
  rw [hshape, parseNumberRaw_eval_sign hskip (Or.inl rfl)]
  have hdot : Char.isDigit '.' = false := by decide
  have hshape2 : ((intp ++ '.' :: frac) ++ c :: rest : List Char)
      = intp ++ '.' :: (frac ++ c :: rest) := by simp
  have htw : ((intp ++ '.' :: frac) ++ c :: rest).takeWhile Char.isDigit = intp := by
    rw [hshape2]; exact takeWhile_digits_all hid hdot
  have hdw : ((intp ++ '.' :: frac) ++ c :: rest).dropWhile Char.isDigit
      = '.' :: (frac ++ c :: rest) := by
    rw [hshape2]; exact dropWhile_digits_all hid hdot
  rw [htw, hdw, if_neg hi]
  simp [takeWhile_digits_all hfd hc1, dropWhile_digits_all hfd hc1]

theorem numberOfToken_float {intp frac : List Char} (hi : intp ≠ [])
    (hid : ∀ x ∈ intp, x.isDigit = true) (hfd : ∀ x ∈ frac, x.isDigit = true) :
    numberOfToken (intp ++ '.' :: frac) =
      .float (mkRat ((digitsToNat intp * 10 ^ frac.length + digitsToNat frac : Nat) : Int)
        (10 ^ frac.length)) := by
  rcases intp with _ | ⟨d, dt⟩
  · exact absurd rfl hi
  · have hd : d.isDigit = true := hid d (by simp)
    obtain ⟨hm, hp, _, _, _, _, _⟩ := digit_ne hd
    have hcont : ((d :: dt) ++ '.' :: frac).contains '.' = true := by
      simp
    rw [numberOfToken, hcont]
    simp only [if_pos]
    have hpne : (fun x => decide (x ≠ '.')) '.' = false := by decide
    have hdt : ∀ x ∈ dt, x.isDigit = true := fun x hx => hid x (by simp [hx])
    have hdne : (fun x => decide (x ≠ '.')) d = true := by
      simpa using (digit_ne hd).2.2.1
    have htw : (d :: (dt ++ '.' :: frac)).takeWhile (fun x => decide (x ≠ '.'))
        = d :: dt := by
      rw [List.takeWhile_cons, if_pos hdne, takeWhile_append_not hpne,
        takeWhile_ne_dot hdt]
    have hdw : (d :: (dt ++ '.' :: frac)).dropWhile (fun x => decide (x ≠ '.'))
        = '.' :: frac := by
      rw [List.dropWhile_cons, if_pos hdne, dropWhile_append_not hpne,
        List.dropWhile_eq_nil_iff.mpr
          (by intro x hx; simpa using (digit_ne (hdt x hx)).2.2.1)]
      simp
    try simp only [List.cons_append]
    rw [htw, hdw]
    · simp
    · intro t heq; injection heq with e1 e2; exact hm e1
    · intro t heq; injection heq with e1 e2; exact hp e1

theorem numberOfToken_neg_float {intp frac : List Char} (hi : intp ≠ [])
    (hid : ∀ x ∈ intp, x.isDigit = true) (hfd : ∀ x ∈ frac, x.isDigit = true) :
    numberOfToken ('-' :: (intp ++ '.' :: frac)) =
      .float (-(mkRat ((digitsToNat intp * 10 ^ frac.length + digitsToNat frac : Nat) : Int)
        (10 ^ frac.length))) := by
  have hcont : ('-' :: (intp ++ '.' :: frac)).contains '.' = true := by simp
  rw [numberOfToken, hcont]
  simp only [if_pos]
  have hpne : (fun x => decide (x ≠ '.')) '.' = false := by decide
  have htw : (intp ++ '.' :: frac).takeWhile (fun x => decide (x ≠ '.')) = intp := by
    rw [takeWhile_append_not hpne]
    exact takeWhile_ne_dot hid
  have hdw : (intp ++ '.' :: frac).dropWhile (fun x => decide (x ≠ '.'))
      = '.' :: frac := by
    rw [dropWhile_append_not hpne,
      List.dropWhile_eq_nil_iff.mpr
        (by intro x hx; simpa using (digit_ne (hid x hx)).2.2.1)]
    simp
  rw [htw, hdw]
  simp

theorem decExpAux_mod {den : Nat} : ∀ (fuel k : Nat),
    (∃ j, j < fuel ∧ 10 ^ (k + j) % den = 0) →
    10 ^ decExpAux den fuel k % den = 0 := by
  intro fuel
  induction fuel with
  | zero =>
      intro k h
      obtain ⟨j, hj, _⟩ := h
      omega
  | succ fuel ih =>
      intro k h
      rw [decExpAux]
      by_cases hk : 10 ^ k % den = 0
      · rw [if_pos (by simpa using hk)]
        exact hk
      · rw [if_neg (by simpa using hk)]
        obtain ⟨j, hj, hmod⟩ := h
        rcases j with _ | j
        · exact absurd (by simpa using hmod) hk
        · exact ih (k + 1) ⟨j, by omega, by rw [show k + 1 + j = k + (j + 1) by omega]; exact hmod⟩

theorem decExp_dvd {den : Nat} (h0 : den ≠ 0) (h : den ∣ 10 ^ den) :
    den ∣ 10 ^ decExp den := by
  rw [decExp]
  exact Nat.dvd_iff_mod_eq_zero.mpr
    (decExpAux_mod (den + 1) 0 ⟨den, by omega, by
      simpa using Nat.mod_eq_zero_of_dvd h⟩)

theorem mkRat_scaled (q : Rat) (hq : q.den ∣ 10 ^ decExp q.den) :
    mkRat (q.num * ((10 ^ decExp q.den : Nat) / q.den : Nat)) (10 ^ decExp q.den) = q := by
  have hc0 : (10 ^ decExp q.den : Nat) / q.den ≠ 0 := by
    intro h0
    have := Nat.div_mul_cancel hq
    rw [h0] at this
    simp at this
    exact absurd this (by positivity)
  calc mkRat (q.num * ((10 ^ decExp q.den : Nat) / q.den : Nat)) (10 ^ decExp q.den)
      = mkRat (q.num * ((10 ^ decExp q.den : Nat) / q.den : Nat))
          (q.den * ((10 ^ decExp q.den : Nat) / q.den)) := by
        rw [Nat.mul_comm, Nat.div_mul_cancel hq]
    _ = mkRat q.num q.den := Rat.mkRat_mul_right hc0
    _ = q := Rat.mkRat_self q

theorem parse_print_float (q : Rat) (hq : q.den ∣ 10 ^ q.den)
    (hr : fixedRange q = true) {c : Char} {rest : List Char} (hc : isWs c = true) :
    parseNumberRaw (printFloat q ++ c :: rest) = some (printFloat q, c :: rest) ∧
      numberOfToken (printFloat q) = .float q := by
  rw [show printFloat q = printFloatFixed q from by rw [printFloat, if_pos hr]]
  obtain ⟨_, hdig, _, hdot, _, _, _, _, _, _, _⟩ := ws_facts hc
  have hk : q.den ∣ 10 ^ decExp q.den := decExp_dvd q.den_nz hq
  set k := decExp q.den with hkdef
  set m : Int := q.num * ((10 ^ k : Nat) / q.den : Nat) with hmdef
  set d0 := printNat m.natAbs with hd0def
  set digits := List.replicate (k + 1 - d0.length) '0' ++ d0 with hdigitsdef
  have hscaled : mkRat m (10 ^ k) = q := mkRat_scaled q hk
  have hdall : ∀ x ∈ digits, x.isDigit = true := by
    intro x hx
    rw [hdigitsdef] at hx
    rcases List.mem_append.mp hx with hx | hx
    · rw [List.eq_of_mem_replicate hx]; rfl
    · exact printNat_all_digits _ x hx
  have hd0len : 1 ≤ d0.length := by
    rcases hd : d0 with _ | ⟨x, xs⟩
    · exact absurd (hd0def ▸ hd) (printNat_ne_nil m.natAbs)
    · simp
  have hdnn : digits ≠ [] := by
    rw [hdigitsdef]
    intro hnil
    rcases List.append_eq_nil.mp hnil with ⟨_, h2⟩
    exact absurd (hd0def ▸ h2) (printNat_ne_nil m.natAbs)
  have hdval : digitsToNat digits = m.natAbs := by
    rw [hdigitsdef, hd0def, digitsToNat_replicate_zero _ _ (printNat_all_digits _),
      digitsToNat_printNat]
  have hL : k + 1 ≤ digits.length := by
    rw [hdigitsdef]
    simp only [List.length_append, List.length_replicate]
    omega
  have habs : m < 0 → ((m.natAbs : Int) = -m) := fun _ => by omega
  have habs' : ¬(m < 0) → ((m.natAbs : Int) = m) := fun _ => by omega
  have hpf0 : printFloatFixed q =
      if m < 0 then
        '-' :: (if k = 0 then digits ++ ['.', '0']
          else digits.take (digits.length - k) ++ '.' :: digits.drop (digits.length - k))
      else (if k = 0 then digits ++ ['.', '0']
          else digits.take (digits.length - k) ++ '.' :: digits.drop (digits.length - k)) :=
    rfl
  by_cases hk0 : k = 0
  · -- denominator 1: `digits` followed by a forced ".0"
    have hpf : printFloatFixed q =
        if m < 0 then '-' :: (digits ++ '.' :: ['0']) else digits ++ '.' :: ['0'] := by
      rw [hpf0]
      simp only [hk0, eq_self_iff_true, if_true]
    have hfr : ∀ x ∈ (['0'] : List Char), x.isDigit = true := by
      intro x hx; simp at hx; subst hx; rfl
    have hnum0 : digitsToNat digits * 10 ^ (['0'] : List Char).length + digitsToNat ['0']
        = m.natAbs * 10 := by
      rw [hdval]; rfl
    have hmag : mkRat ((digitsToNat digits * 10 ^ (['0'] : List Char).length
          + digitsToNat ['0'] : Nat) : Int) (10 ^ (['0'] : List Char).length)
        = mkRat (m.natAbs : Int) (10 ^ k) := by
      rw [hnum0, hk0]
      have h1 : ((m.natAbs * 10 : Nat) : Int) = (m.natAbs : Int) * (10 : Nat) := by
        push_cast; ring
      have h2 : (10 : Nat) ^ 1 = 1 * 10 := by norm_num
      rw [show (['0'] : List Char).length = 1 from rfl, h1, h2,
        Rat.mkRat_mul_right (by norm_num), pow_zero]
    by_cases hm : m < 0
    · rw [hpf, if_pos hm]
      constructor
      · exact parseNumberRaw_neg_float_digits hdnn hdall hfr hdig hdot
      · rw [numberOfToken_neg_float hdnn hdall hfr, hmag, Rat.neg_mkRat,
          habs hm, neg_neg, hscaled]
    · rw [hpf, if_neg hm]
      constructor
      · exact parseNumberRaw_float_digits hdnn hdall hfr hdig hdot
      · rw [numberOfToken_float hdnn hdall hfr, hmag, habs' hm, hscaled]
  · -- k ≥ 1: split `digits` before the last k places
    set intp := digits.take (digits.length - k) with hintpdef
    set frac := digits.drop (digits.length - k) with hfracdef
    have hpf : printFloatFixed q =
        if m < 0 then '-' :: (intp ++ '.' :: frac) else intp ++ '.' :: frac := by
      rw [hpf0]
      simp only [hk0, if_false]
    have happ : intp ++ frac = digits := by
      rw [hintpdef, hfracdef, List.take_append_drop]
    have hiall : ∀ x ∈ intp, x.isDigit = true := by
      intro x hx
      exact hdall x (happ ▸ List.mem_append.mpr (Or.inl hx))
    have hfall : ∀ x ∈ frac, x.isDigit = true := by
      intro x hx
      exact hdall x (happ ▸ List.mem_append.mpr (Or.inr hx))
    have hfraclen : frac.length = k := by
      rw [hfracdef, List.length_drop]
      omega
    have hinn : intp ≠ [] := by
      rw [hintpdef]
      intro hnil
      have := congrArg List.length hnil
      simp only [List.length_take, List.length_nil] at this
      omega
    have hval : digitsToNat intp * 10 ^ frac.length + digitsToNat frac = m.natAbs := by
      rw [← digitsToNat_append _ _ hfall, happ, hdval]
    have hmag : mkRat ((digitsToNat intp * 10 ^ frac.length + digitsToNat frac : Nat) : Int)
        (10 ^ frac.length) = mkRat (m.natAbs : Int) (10 ^ k) := by
      rw [hval, hfraclen]
    by_cases hm : m < 0
    · rw [hpf, if_pos hm]
      constructor
      · exact parseNumberRaw_neg_float_digits hinn hiall hfall hdig hdot
      · rw [numberOfToken_neg_float hinn hiall hfall, hmag, Rat.neg_mkRat,
          habs hm, neg_neg, hscaled]
    · rw [hpf, if_neg hm]
      constructor
      · exact parseNumberRaw_float_digits hinn hiall hfall hdig hdot
      · rw [numberOfToken_float hinn hiall hfall, hmag, habs' hm, hscaled]

theorem parse_print_number (v : PdxNumber) (hv : wfNumber v = true) {c : Char}
    {rest : List Char} (hc : isWs c = true) :
    parseNumberRaw (v.print_pdx_script ++ c :: rest)
        = some (v.print_pdx_script, c :: rest) ∧
      numberOfToken v.print_pdx_script = v := by
  cases v with
  | int n => exact parse_print_int n hc
  | float q =>
      have hv2 : decide (q.den ∣ 10 ^ q.den) = true ∧ fixedRange q = true := by
        rw [wfNumber] at hv
        simpa [Bool.and_eq_true] using hv
      exact parse_print_float q (of_decide_eq_true hv2.1) hv2.2 hc

theorem dotMatch_eval {A : Type} (f : List Char → A) (g : List Char → A)
    (x : Char) (t : List Char) :
    (match x :: t with
     | '.' :: s3 => f s3
     | s2 => g s2) = if x = '.' then f t else g (x :: t) := by
  by_cases hx : x = '.'
  · subst hx; simp
  · rw [if_neg hx]
    split
    · rename_i s3 heq; injection heq with e1 e2; exact absurd e1 hx
    · rfl

theorem numCore_append {s1 : List Char} {c : Char} {rest : List Char}
    (hc : Char.isDigit c = false) (hdot : c ≠ '.') (f : List Char → List Char) :
    (if (s1 ++ c :: rest).takeWhile Char.isDigit = [] then none
     else
       match (s1 ++ c :: rest).dropWhile Char.isDigit with
       | '.' :: s3 =>
           some (f ((s1 ++ c :: rest).takeWhile Char.isDigit ++ '.' :: s3.takeWhile Char.isDigit),
             s3.dropWhile Char.isDigit)
       | s2 => some (f ((s1 ++ c :: rest).takeWhile Char.isDigit), s2))
    = (match (if s1.takeWhile Char.isDigit = [] then none
        else
          match s1.dropWhile Char.isDigit with
          | '.' :: s3 =>
              some (f (s1.takeWhile Char.isDigit ++ '.' :: s3.takeWhile Char.isDigit),
                s3.dropWhile Char.isDigit)
          | s2 => some (f (s1.takeWhile Char.isDigit), s2)) with
      | none => none
      | some (tok, rem) => some (tok, rem ++ c :: rest)) := by
  rw [takeWhile_append_not hc, dropWhile_append_not hc]
  by_cases hds : s1.takeWhile Char.isDigit = []
  · simp [hds]
  · simp only [hds, if_neg, if_false]
    rcases hdw : s1.dropWhile Char.isDigit with _ | ⟨x, xs⟩
    · simp only [List.nil_append, dotMatch_eval, if_neg hdot]
    · simp only [List.cons_append, dotMatch_eval]
      by_cases hx : x = '.'
      · simp only [if_pos hx]
        rw [takeWhile_append_not hc, dropWhile_append_not hc]
      · simp only [if_neg hx]
        rfl

theorem parseNumberRaw_append {d : Char} {dt : List Char} {c : Char} {rest : List Char}
    (hd : isWs d = false) (hh : d ≠ '#') (hc : Char.isDigit c = false)
    (hdot : c ≠ '.') :
    parseNumberRaw ((d :: dt) ++ c :: rest) =
      (match parseNumberRaw (d :: dt) with
       | none => none
       | some (tok, rem) => some (tok, rem ++ c :: rest)) := by
  have hskA : skipWs (d :: (dt ++ c :: rest)) = d :: (dt ++ c :: rest) :=
    skipWs_cons_of_other hd hh _
  have hskB : skipWs (d :: dt) = d :: dt := skipWs_cons_of_other hd hh _
  by_cases hsign : d = '-' ∨ d = '+'
  · rw [List.cons_append, parseNumberRaw_eval_sign hskA hsign,
      parseNumberRaw_eval_sign hskB hsign]
    exact numCore_append hc hdot (fun l => d :: l)
  · have hm : d ≠ '-' := fun h => hsign (Or.inl h)
    have hp : d ≠ '+' := fun h => hsign (Or.inr h)
    rw [List.cons_append, parseNumberRaw_eval_nosign hskA hm hp,
      parseNumberRaw_eval_nosign hskB hm hp]
    have := @numCore_append (d :: dt) c rest hc hdot (fun l => l)
    simpa using this

/-! ## Listing elements and small composite steps -/

theorem wfDigits_wfWord {s : String} (h : wfDigits s = true) : wfWord s = true := by
  rw [wfDigits] at h
  rw [wfWord]
  rcases hdata : s.data with _ | ⟨d, cs⟩
  · rw [hdata] at h; simp at h
  · rw [hdata] at h
    simp only [List.all_cons, List.isEmpty_cons, Bool.not_false, Bool.true_and,
      Bool.and_eq_true] at h
    simp only [Bool.and_eq_true]
    constructor
    · exact (digit_facts h.1).2.2.1
    · simp only [List.all_eq_true]
      intro x hx
      exact (digit_facts (by
        have := h.2
        simp only [List.all_eq_true] at this
        exact this x hx)).2.2.2

theorem wfWord_parts {s : String} {d : Char} {cs : List Char} (h : wfWord s = true)
    (hdata : s.data = d :: cs) : isWordInit d = true ∧ cs.all isWordBody = true := by
  rw [wfWord, hdata] at h
  simpa using h

theorem wfQuoted_head {s : String} {d : Char} {cs : List Char} (h : wfQuoted s = true)
    (hdata : s.data = d :: cs) : d = '"' := by
  rw [wfQuoted, hdata] at h
  have h2 : d = '"' ∧ wfStringTail cs = true := by simpa using h
  exact h2.1

theorem wfWord_ne_nil {s : String} (h : wfWord s = true) : s.data ≠ [] := by
  intro hnil
  rw [wfWord, hnil] at h
  simp at h

theorem wfQuoted_ne_nil {s : String} (h : wfQuoted s = true) : s.data ≠ [] := by
  intro hnil
  rw [wfQuoted, hnil] at h
  simp at h

theorem parseListElem_print {e : ListElem} {c : Char} {rest : List Char}
    (he : wfElem e = true) (hc : isWs c = true) :
    parseListElem (e.print_pdx_script ++ c :: rest) = some (e, c :: rest) := by
  obtain ⟨hwb, _, _, _, _, _, _, _, _, _, _⟩ := ws_facts hc
  cases e with
  | ident s =>
      have hwf : wfWord s = true := by simpa [wfElem] using he
      rw [ListElem.print_pdx_script, parseListElem, parseIdentRaw_print hwf hwb]
      rcases hdata : s.data with _ | ⟨d, cs⟩
      · exact absurd hdata (wfWord_ne_nil hwf)
      · obtain ⟨hd, _⟩ := wfWord_parts hwf hdata
        obtain ⟨hnw, hnh, _, _, hnq, _⟩ := wordInit_facts hd
        rw [List.cons_append]
        have hsk : skipWs (d :: (cs ++ c :: rest)) = d :: (cs ++ c :: rest) :=
          skipWs_cons_of_other hnw hnh _
        rw [parseStringRaw_fail hsk hnq]
        rfl
  | str s =>
      have hwf : wfQuoted s = true := by simpa [wfElem] using he
      rw [ListElem.print_pdx_script, parseListElem, parseStringRaw_print hwf]
      rcases hdata : s.data with _ | ⟨d, cs⟩
      · exact absurd hdata (wfQuoted_ne_nil hwf)
      · have hd : d = '"' := wfQuoted_head hwf hdata
        subst hd
        rw [List.cons_append]
        have hsk : skipWs ('"' :: (cs ++ c :: rest)) = '"' :: (cs ++ c :: rest) :=
          skipWs_cons_of_other (by decide) (by decide) _
        rw [parseIdentRaw_fail hsk (by decide)]
        rfl

theorem parseListElem_fail {s : List Char} {d : Char} {r : List Char}
    (h : skipWs s = d :: r) (h1 : isWordInit d = false) (h2 : d ≠ '"') :
    parseListElem s = none := by
  rw [parseListElem, parseIdentRaw_fail h h1, parseStringRaw_fail h h2]
  rfl

theorem parseExpressionsWith_stop (rhs : List Char → Option (Value × List Char))
    {s : List Char} (h : parseExpressionWith rhs s = none) :
    ∀ fuel, parseExpressionsWith rhs fuel s = ([], s) := by
  intro fuel
  cases fuel with
  | zero => rfl
  | succ fuel => rw [parseExpressionsWith, h]

theorem parseExpressionWith_fail_ident (rhs : List Char → Option (Value × List Char))
    {s : List Char} (h : parseIdentRaw s = none) :
    parseExpressionWith rhs s = none := by
  rw [parseExpressionWith, h]

theorem parseExpressionWith_fail_eq (rhs : List Char → Option (Value × List Char))
    {s : List Char} {x : String} {s1 : List Char}
    (h : parseIdentRaw s = some (x, s1)) (h2 : parseLit '=' s1 = none) :
    parseExpressionWith rhs s = none := by
  simp [parseExpressionWith, h, h2]

theorem wordBody_facts {x : Char} (h : isWordBody x = true) :
    isWs x = false ∧ x ≠ '#' ∧ x ≠ '}' ∧ x ≠ '"' ∧ x ≠ '=' ∧ x ≠ '{' := by
  refine ⟨?_, ?_, ?_, ?_, ?_, ?_⟩
  · by_contra hw
    have hw' : isWs x = true := by simpa using hw
    rcases ws_cases hw' with rfl | rfl | rfl <;> exact absurd h (by decide)
  all_goals rintro rfl; exact absurd h (by decide)

theorem dropWhile_head_not {p : Char → Bool} {l : List Char} {x : Char} {xs : List Char}
    (h : l.dropWhile p = x :: xs) : p x = false := by
  induction l with
  | nil => simp at h
  | cons c cs ih =>
      rw [List.dropWhile_cons] at h
      by_cases hc : p c
      · exact ih (by simpa [hc] using h)
      · simp only [hc, if_false] at h
        injection h with e1 e2
        subst e1
        simpa using hc

theorem tabs_ws (d : Nat) : ∀ x ∈ tabs d, isWs x = true := by
  intro x hx
  rw [tabs] at hx
  rw [List.eq_of_mem_replicate hx]
  rfl

theorem parseWordNums_elem {e : ListElem} {c : Char} {rest : List Char}
    (he : wfElem e = true) (hc : isWs c = true) :
    (elemDigits e = true →
      ∃ s, e = .ident s ∧
        parseWordNums (e.print_pdx_script ++ c :: rest) = some (s, c :: rest)) ∧
    (elemDigits e = false →
      parseWordNums (e.print_pdx_script ++ c :: rest) = none ∨
      ∃ w x xs, parseWordNums (e.print_pdx_script ++ c :: rest) = some (w, x :: xs) ∧
        isWs x = false ∧ x ≠ '#' ∧ Char.isDigit x = false ∧ x ≠ '}' ∧ x ≠ '"') := by
  obtain ⟨hwb, hcd, _, _, _, _, _, _, _, _, _⟩ := ws_facts hc
  cases e with
  | str s =>
      have hwf : wfQuoted s = true := by simpa [wfElem] using he
      refine ⟨fun h => by simp [elemDigits] at h, fun _ => Or.inl ?_⟩
      rcases hdata : s.data with _ | ⟨d, cs⟩
      · exact absurd hdata (wfQuoted_ne_nil hwf)
      · have hd : d = '"' := wfQuoted_head hwf hdata
        subst hd
        rw [ListElem.print_pdx_script, hdata, List.cons_append]
        exact parseWordNums_fail (skipWs_cons_of_other (by decide) (by decide) _) (by decide)
  | ident s =>
      have hwf : wfWord s = true := by simpa [wfElem] using he
      rcases hdata : s.data with _ | ⟨d, cs⟩
      · exact absurd hdata (wfWord_ne_nil hwf)
      · obtain ⟨hd, hcs⟩ := wfWord_parts hwf hdata
        by_cases hdd : d.isDigit
        · by_cases hall : cs.all Char.isDigit
          · have hdig : wfDigits s = true := by
              rw [wfDigits, hdata]
              simp only [List.all_cons, List.isEmpty_cons, Bool.not_false, Bool.true_and,
                Bool.and_eq_true]
              exact ⟨hdd, hall⟩
            constructor
            · intro _
              exact ⟨s, rfl, by
                rw [ListElem.print_pdx_script]
                exact parseWordNums_print hdig hcd⟩
            · intro hfalse
              rw [elemDigits] at hfalse
              rw [hdig] at hfalse
              cases hfalse
          · have hcsf : cs.all Char.isDigit = false := Bool.eq_false_iff.mpr hall
            have hnd : elemDigits (ListElem.ident s) = false := by
              rw [elemDigits, wfDigits, hdata]
              simp [List.all_cons, hcsf]
            refine ⟨fun h => absurd h (by simp [hnd]), fun _ => Or.inr ?_⟩
            have hdw : cs.dropWhile Char.isDigit ≠ [] := by
              intro hnil
              exact hall (by
                simpa [List.all_eq_true] using List.dropWhile_eq_nil_iff.mp hnil)
            rcases hdwe : cs.dropWhile Char.isDigit with _ | ⟨x, xs⟩
            · exact absurd hdwe hdw
            · have hx : x.isDigit = false := dropWhile_head_not hdwe
              have hxb : isWordBody x = true := by
                have hmem : x ∈ cs := by
                  have : x ∈ cs.dropWhile Char.isDigit := by simp [hdwe]
                  exact List.dropWhile_subset _ this
                exact List.all_eq_true.mp hcs x hmem
              obtain ⟨hxw, hxh, hxr, hxq, _, _⟩ := wordBody_facts hxb
              refine ⟨String.mk (d :: cs.takeWhile Char.isDigit), x, xs ++ c :: rest, ?_,
                hxw, hxh, hx, hxr, hxq⟩
              rw [ListElem.print_pdx_script, hdata, List.cons_append]
              obtain ⟨hnw, hnh, _, _⟩ := digit_facts hdd
              rw [parseWordNums_eval (skipWs_cons_of_other hnw hnh _)]
              rw [if_pos hdd, takeWhile_append_not hcd, dropWhile_append_not hcd, hdwe]
              simp
        · have hnd : elemDigits (ListElem.ident s) = false := by
            rw [elemDigits, wfDigits, hdata]
            simp [hdd]
          refine ⟨fun h => absurd h (by simp [hnd]), fun _ => Or.inl ?_⟩
          obtain ⟨hnw, hnh, _, _, _, _⟩ := wordInit_facts hd
          rw [ListElem.print_pdx_script, hdata, List.cons_append]
          exact parseWordNums_fail (skipWs_cons_of_other hnw hnh _) (by simpa using hdd)

theorem parseListElemsAux_stop {s : List Char} (h : parseListElem s = none) :
    ∀ fuel, parseListElemsAux fuel s = ([], s) := by
  intro fuel
  cases fuel with
  | zero => rfl
  | succ fuel => rw [parseListElemsAux, h]

theorem parseListElem_congr_ws {pre s : List Char} (hpre : ∀ x ∈ pre, isWs x = true) :
    parseListElem (pre ++ s) = parseListElem s :=
  parseListElem_congr (skipWs_append_ws hpre s)

theorem printElems_ne_short {es : List ListElem} {d : Nat} :
    es.length ≤ (printElems es d).length := by
  induction es with
  | nil => simp [printElems]
  | cons e es ih =>
      rw [printElems]
      simp only [List.length_append, List.length_cons]
      omega

theorem parseListElemsAux_print (es : List ListElem) (d : Nat) :
    ∀ (fuel : Nat) (pre rest : List Char), es.length ≤ fuel →
    (∀ x ∈ pre, isWs x = true) → (∀ e ∈ es, wfElem e = true) →
    ∃ rem, parseListElemsAux fuel (pre ++ (printElems es d ++ tabs d ++ '}' :: rest))
        = (es, rem) ∧ parseLit '}' rem = some rest := by
  induction es with
  | nil =>
      intro fuel pre rest _ hpre _
      have hsk : skipWs (pre ++ (printElems [] d ++ tabs d ++ '}' :: rest))
          = '}' :: rest := by
        rw [printElems, List.nil_append, skipWs_append_ws hpre, skipWs_append_ws (tabs_ws d)]
        exact skipWs_cons_of_other (by decide) (by decide) _
      have hfail : parseListElem (pre ++ (printElems [] d ++ tabs d ++ '}' :: rest)) = none :=
        parseListElem_fail hsk (by decide) (by decide)
      refine ⟨_, parseListElemsAux_stop hfail fuel, ?_⟩
      rw [parseLit_eval '}' hsk]
      simp
  | cons e es ih =>
      intro fuel pre rest hfuel hpre hwf
      cases fuel with
      | zero => simp at hfuel
      | succ fuel =>
          have hshape : pre ++ (printElems (e :: es) d ++ tabs d ++ '}' :: rest)
              = (pre ++ tabs (d + 1)) ++ (e.print_pdx_script ++
                  '\n' :: (printElems es d ++ tabs d ++ '}' :: rest)) := by
            rw [printElems]
            simp
          have hpre2 : ∀ x ∈ pre ++ tabs (d + 1), isWs x = true := by
            intro x hx
            rcases List.mem_append.mp hx with hx | hx
            · exact hpre x hx
            · exact tabs_ws _ x hx
          have helem : parseListElem (pre ++ (printElems (e :: es) d ++ tabs d ++ '}' :: rest))
              = some (e, '\n' :: (printElems es d ++ tabs d ++ '}' :: rest)) := by
            rw [hshape, parseListElem_congr_ws hpre2,
              parseListElem_print (hwf e (by simp)) (by decide)]
          rw [parseListElemsAux, helem]
          obtain ⟨rem, hrem, hlit⟩ := ih fuel ['\n'] rest (by simpa using hfuel)
            (by intro x hx; simp at hx; subst hx; rfl)
            (fun x hx => hwf x (by simp [hx]))
          rw [List.singleton_append] at hrem
          simp only [List.append_assoc] at hrem ⊢
          rw [hrem]
          exact ⟨rem, rfl, hlit⟩

theorem parseListing_print_single {e : ListElem} {rest : List Char}
    (he : wfElem e = true) (d : Nat) :
    parseListing (Value.print_pdx_script (.listing [e]) d ++ rest)
      = some (.listing [e], rest) := by
  have hshape : Value.print_pdx_script (.listing [e]) d ++ rest
      = '{' :: (' ' :: (e.print_pdx_script ++ ' ' :: '}' :: rest)) := by
    rw [Value.print_pdx_script]
    simp
  have hsk1 : skipWs ('{' :: (' ' :: (e.print_pdx_script ++ ' ' :: '}' :: rest)))
      = '{' :: (' ' :: (e.print_pdx_script ++ ' ' :: '}' :: rest)) :=
    skipWs_cons_of_other (by decide) (by decide) _
  have hlit : parseLit '{' ('{' :: (' ' :: (e.print_pdx_script ++ ' ' :: '}' :: rest)))
      = some (' ' :: (e.print_pdx_script ++ ' ' :: '}' :: rest)) := by
    rw [parseLit_eval '{' hsk1]
    simp
  have helem : parseListElem (' ' :: (e.print_pdx_script ++ ' ' :: '}' :: rest))
      = some (e, ' ' :: '}' :: rest) := by
    rw [show (' ' :: (e.print_pdx_script ++ ' ' :: '}' :: rest) : List Char)
        = [' '] ++ (e.print_pdx_script ++ ' ' :: '}' :: rest) from rfl,
      parseListElem_congr_ws (by intro x hx; simp at hx; subst hx; rfl)]
    exact parseListElem_print he (by decide)
  have hsk2 : skipWs (' ' :: '}' :: rest) = '}' :: rest := by
    rw [skipWs_cons_of_ws (by decide)]
    exact skipWs_cons_of_other (by decide) (by decide) _
  have hstop : parseListElem (' ' :: '}' :: rest) = none :=
    parseListElem_fail hsk2 (by decide) (by decide)
  have hcl : parseLit '}' (' ' :: '}' :: rest) = some rest := by
    rw [parseLit_eval '}' hsk2]
    simp
  rw [hshape, parseListing]
  simp only [hlit, helem, parseListElemsAux_stop hstop, hcl]

theorem parseListing_print_multi {e1 e2 : ListElem} {es : List ListElem}
    {rest : List Char} (hwf : ∀ e ∈ e1 :: e2 :: es, wfElem e = true) (d : Nat) :
    parseListing (Value.print_pdx_script (.listing (e1 :: e2 :: es)) d ++ rest)
      = some (.listing (e1 :: e2 :: es), rest) := by
  have hshape : Value.print_pdx_script (.listing (e1 :: e2 :: es)) d ++ rest
      = '{' :: ('\n' :: (printElems (e1 :: e2 :: es) d ++ tabs d ++ '}' :: rest)) := by
    rw [Value.print_pdx_script]
    simp
  have hsk1 : skipWs ('{' :: ('\n' :: (printElems (e1 :: e2 :: es) d ++ tabs d ++ '}' :: rest)))
      = '{' :: ('\n' :: (printElems (e1 :: e2 :: es) d ++ tabs d ++ '}' :: rest)) :=
    skipWs_cons_of_other (by decide) (by decide) _
  have hlit : parseLit '{'
      ('{' :: ('\n' :: (printElems (e1 :: e2 :: es) d ++ tabs d ++ '}' :: rest)))
      = some ('\n' :: (printElems (e1 :: e2 :: es) d ++ tabs d ++ '}' :: rest)) := by
    rw [parseLit_eval '{' hsk1]
    simp
  have hfirst : parseListElem ('\n' :: (printElems (e1 :: e2 :: es) d ++ tabs d ++ '}' :: rest))
      = some (e1, '\n' :: (printElems (e2 :: es) d ++ tabs d ++ '}' :: rest)) := by
    have hshape2 : ('\n' :: (printElems (e1 :: e2 :: es) d ++ tabs d ++ '}' :: rest) : List Char)
        = ('\n' :: tabs (d + 1)) ++ (e1.print_pdx_script ++
            '\n' :: (printElems (e2 :: es) d ++ tabs d ++ '}' :: rest)) := by
      rw [printElems]
      simp
    rw [hshape2, parseListElem_congr_ws (by
      intro x hx
      rcases List.mem_cons.mp hx with rfl | hx
      · rfl
      · exact tabs_ws _ x hx)]
    exact parseListElem_print (hwf e1 (by simp)) (by decide)
  obtain ⟨rem, hrem, hlit2⟩ := parseListElemsAux_print (e2 :: es) d
    ('\n' :: (printElems (e2 :: es) d ++ tabs d ++ '}' :: rest)).length ['\n'] rest
    (by
      have h := @printElems_ne_short (e2 :: es) d
      simp only [List.length_cons, List.length_append] at h ⊢
      omega)
    (by intro x hx; simp at hx; subst hx; rfl)
    (fun x hx => hwf x (by simp [hx]))
  rw [List.singleton_append] at hrem
  rw [hshape, parseListing]
  simp only [hlit, hfirst, hrem, hlit2]

theorem elem_head {e : ListElem} (he : wfElem e = true) :
    ∃ h t, e.print_pdx_script = h :: t ∧ isWs h = false ∧ h ≠ '#' ∧ h ≠ '}' ∧
      h ≠ '=' ∧ h ≠ '{' := by
  cases e with
  | ident s =>
      have hwf : wfWord s = true := by simpa [wfElem] using he
      rcases hdata : s.data with _ | ⟨d, cs⟩
      · exact absurd hdata (wfWord_ne_nil hwf)
      · obtain ⟨hd, _⟩ := wfWord_parts hwf hdata
        obtain ⟨h1, h2, h3, h4, _, h5⟩ := wordInit_facts hd
        exact ⟨d, cs, by rw [ListElem.print_pdx_script, hdata], h1, h2, h4, h5, h3⟩
  | str s =>
      have hwf : wfQuoted s = true := by simpa [wfElem] using he
      rcases hdata : s.data with _ | ⟨d, cs⟩
      · exact absurd hdata (wfQuoted_ne_nil hwf)
      · have hd : d = '"' := wfQuoted_head hwf hdata
        subst hd
        exact ⟨'"', cs, by rw [ListElem.print_pdx_script, hdata], by decide, by decide,
          by decide, by decide, by decide⟩

theorem parseWordNums_poison {w : String} {x : Char} {xs s : List Char}
    (h : parseWordNums s = some (w, x :: xs)) (hxw : isWs x = false) (hxh : x ≠ '#')
    (hxd : Char.isDigit x = false) :
    parseWordNums (x :: xs) = none :=
  parseWordNums_fail (skipWs_cons_of_other hxw hxh _) hxd

theorem parseColor_fail_brace {s : List Char} (h : parseLit '{' s = none) :
    parseColor s = none := by
  rw [parseColor, h]

theorem parseListing_fail_brace {s : List Char} (h : parseLit '{' s = none) :
    parseListing s = none := by
  rw [parseListing, h]

theorem parseBlockWith_fail_brace (rhs : List Char → Option (Value × List Char))
    (fuel : Nat) {s : List Char} (h : parseLit '{' s = none) :
    parseBlockWith rhs fuel s = none := by
  rw [parseBlockWith, h]

theorem parseColor_steps {s s1 : List Char} (h1 : parseLit '{' s = some s1) :
    parseColor s = (match parseWordNums s1 with
      | none => none
      | some (r, s2) =>
          match parseWordNums s2 with
          | none => none
          | some (g, s3) =>
              match parseWordNums s3 with
              | none => none
              | some (b, s4) =>
                  match parseLit '}' s4 with
                  | none => none
                  | some s5 => some (.color r g b, s5)) := by
  rw [parseColor, h1]

theorem color_word_step {e : ListElem} {pre : List Char} {c : Char} {rest : List Char}
    (he : wfElem e = true) (hpre : ∀ x ∈ pre, isWs x = true) (hc : isWs c = true) :
    (elemDigits e = true → ∃ s : String,
      parseWordNums (pre ++ (e.print_pdx_script ++ c :: rest)) = some (s, c :: rest)) ∧
    (elemDigits e = false →
      parseWordNums (pre ++ (e.print_pdx_script ++ c :: rest)) = none ∨
      ∃ w x xs, parseWordNums (pre ++ (e.print_pdx_script ++ c :: rest)) = some (w, x :: xs) ∧
        parseWordNums (x :: xs) = none ∧ parseLit '}' (x :: xs) = none) := by
  have hcongr : parseWordNums (pre ++ (e.print_pdx_script ++ c :: rest))
      = parseWordNums (e.print_pdx_script ++ c :: rest) :=
    parseWordNums_congr (skipWs_append_ws hpre _)
  obtain ⟨hyes, hno⟩ := @parseWordNums_elem e c rest he hc
  constructor
  · intro hd
    obtain ⟨s, _, hs⟩ := hyes hd
    exact ⟨s, by rw [hcongr, hs]⟩
  · intro hd
    rcases hno hd with h | ⟨w, x, xs, hw, hxw, hxh, hxd, hxr, _⟩
    · exact Or.inl (by rw [hcongr, h])
    · refine Or.inr ⟨w, x, xs, by rw [hcongr, hw], ?_, ?_⟩
      · exact parseWordNums_fail (skipWs_cons_of_other hxw hxh _) hxd
      · rw [parseLit_eval '}' (skipWs_cons_of_other hxw hxh _), if_neg hxr]

theorem parseColor_listing_single {e : ListElem} {rest : List Char}
    (he : wfElem e = true) (d : Nat) :
    parseColor (Value.print_pdx_script (.listing [e]) d ++ rest) = none := by
  have hshape : Value.print_pdx_script (.listing [e]) d ++ rest
      = '{' :: ([' '] ++ (e.print_pdx_script ++ ' ' :: ('}' :: rest))) := by
    rw [Value.print_pdx_script]
    simp
  have hlit : parseLit '{' ('{' :: ([' '] ++ (e.print_pdx_script ++ ' ' :: ('}' :: rest))))
      = some ([' '] ++ (e.print_pdx_script ++ ' ' :: ('}' :: rest))) := by
    rw [parseLit_eval '{' (skipWs_cons_of_other (by decide) (by decide) _)]
    simp
  rw [hshape, parseColor_steps hlit]
  obtain ⟨hyes, hno⟩ := @color_word_step e [' '] ' ' ('}' :: rest)
    he (by intro x hx; simp at hx; subst hx; rfl) (by decide)
  by_cases hd : elemDigits e
  · obtain ⟨s, hs⟩ := hyes hd
    have h2 : parseWordNums (' ' :: '}' :: rest) = none :=
      parseWordNums_fail (by
        rw [skipWs_cons_of_ws (by decide)]
        exact skipWs_cons_of_other (by decide) (by decide) _) (by decide)
    simp only [hs, h2]
  · rcases hno (by simpa using hd) with h | ⟨w, x, xs, hw, hx1, _⟩
    · simp only [h]
    · simp only [hw, hx1]

theorem parseColor_listing_multi {e1 e2 : ListElem} {es : List ListElem}
    {rest : List Char} (hwf : ∀ e ∈ e1 :: e2 :: es, wfElem e = true)
    (hnc : ((e1 :: e2 :: es).length == 3 && (e1 :: e2 :: es).all elemDigits) = false)
    (d : Nat) :
    parseColor (Value.print_pdx_script (.listing (e1 :: e2 :: es)) d ++ rest) = none := by
  have hwf1 := hwf e1 (by simp)
  have hwf2 := hwf e2 (by simp)
  have hshape : Value.print_pdx_script (.listing (e1 :: e2 :: es)) d ++ rest
      = '{' :: ('\n' :: (printElems (e1 :: e2 :: es) d ++ tabs d ++ '}' :: rest)) := by
    rw [Value.print_pdx_script]
    simp
  have hlit : parseLit '{'
      ('{' :: ('\n' :: (printElems (e1 :: e2 :: es) d ++ tabs d ++ '}' :: rest)))
      = some ('\n' :: (printElems (e1 :: e2 :: es) d ++ tabs d ++ '}' :: rest)) := by
    rw [parseLit_eval '{' (skipWs_cons_of_other (by decide) (by decide) _)]
    simp
  rw [hshape, parseColor_steps hlit]
  have hpre1 : ∀ x ∈ ('\n' :: tabs (d + 1) : List Char), isWs x = true := by
    intro x hx
    rcases List.mem_cons.mp hx with rfl | hx
    · rfl
    · exact tabs_ws _ x hx
  have hT1 : ('\n' :: (printElems (e1 :: e2 :: es) d ++ tabs d ++ '}' :: rest) : List Char)
      = ('\n' :: tabs (d + 1)) ++ (e1.print_pdx_script ++
          '\n' :: (printElems (e2 :: es) d ++ tabs d ++ '}' :: rest)) := by
    rw [printElems]
    simp
  rw [hT1]
  obtain ⟨hyes1, hno1⟩ := @color_word_step e1 ('\n' :: tabs (d + 1)) '\n'
    (printElems (e2 :: es) d ++ tabs d ++ '}' :: rest) hwf1 hpre1 (by decide)
  by_cases hd1 : elemDigits e1
  case neg =>
    rcases hno1 (by simpa using hd1) with h | ⟨w, x, xs, hw, hx1, _⟩
    · simp only [h]
    · simp only [hw, hx1]
  case pos =>
  obtain ⟨s1, hs1⟩ := hyes1 hd1
  simp only [hs1]
  have hT2 : ('\n' :: (printElems (e2 :: es) d ++ tabs d ++ '}' :: rest) : List Char)
      = ('\n' :: tabs (d + 1)) ++ (e2.print_pdx_script ++
          '\n' :: (printElems es d ++ tabs d ++ '}' :: rest)) := by
    rw [printElems]
    simp
  rw [hT2]
  obtain ⟨hyes2, hno2⟩ := @color_word_step e2 ('\n' :: tabs (d + 1)) '\n'
    (printElems es d ++ tabs d ++ '}' :: rest) hwf2 hpre1 (by decide)
  by_cases hd2 : elemDigits e2
  case neg =>
    rcases hno2 (by simpa using hd2) with h | ⟨w, x, xs, hw, hx1, _⟩
    · simp only [h]
    · simp only [hw, hx1]
  case pos =>
  obtain ⟨s2, hs2⟩ := hyes2 hd2
  simp only [hs2]
  cases es with
  | nil =>
      have h3 : parseWordNums
          ('\n' :: (printElems ([] : List ListElem) d ++ tabs d ++ '}' :: rest)) = none := by
        apply parseWordNums_fail (d := '}') (r := rest) ?_ (by decide)
        rw [skipWs_cons_of_ws (by decide), printElems, List.nil_append,
          skipWs_append_ws (tabs_ws d)]
        exact skipWs_cons_of_other (by decide) (by decide) _
      simp only [h3]
  | cons e3 es4 =>
      have hwf3 := hwf e3 (by simp)
      have hT3 : ('\n' :: (printElems (e3 :: es4) d ++ tabs d ++ '}' :: rest) : List Char)
          = ('\n' :: tabs (d + 1)) ++ (e3.print_pdx_script ++
              '\n' :: (printElems es4 d ++ tabs d ++ '}' :: rest)) := by
        rw [printElems]
        simp
      rw [hT3]
      obtain ⟨hyes3, hno3⟩ := @color_word_step e3 ('\n' :: tabs (d + 1))
        '\n' (printElems es4 d ++ tabs d ++ '}' :: rest) hwf3 hpre1 (by decide)
      by_cases hd3 : elemDigits e3
      case neg =>
        rcases hno3 (by simpa using hd3) with h | ⟨w, x, xs, hw, hx1, hx2⟩
        · simp only [h]
        · simp only [hw, hx2]
      case pos =>
      obtain ⟨s3, hs3⟩ := hyes3 hd3
      simp only [hs3]
      cases es4 with
      | nil =>
          exfalso
          have hlen : ((e1 :: e2 :: e3 :: [] : List ListElem).length == 3
              && (e1 :: e2 :: e3 :: []).all elemDigits) = true := by
            simp [hd1, hd2, hd3]
          rw [hlen] at hnc
          cases hnc
      | cons e4 es5 =>
          obtain ⟨h4, t4, hpr4, hw4, hh4, hr4, _, _⟩ := elem_head (hwf e4 (by simp))
          have hT4 : ('\n' :: (printElems (e4 :: es5) d ++ tabs d ++ '}' :: rest) : List Char)
              = ('\n' :: tabs (d + 1)) ++ (e4.print_pdx_script ++
                  '\n' :: (printElems es5 d ++ tabs d ++ '}' :: rest)) := by
            rw [printElems]
            simp
          have hfail : parseLit '}'
              ('\n' :: (printElems (e4 :: es5) d ++ tabs d ++ '}' :: rest)) = none := by
            have hskel : skipWs ('\n' :: (printElems (e4 :: es5) d ++ tabs d ++ '}' :: rest))
                = h4 :: (t4 ++ '\n' :: (printElems es5 d ++ tabs d ++ '}' :: rest)) := by
              rw [hT4, skipWs_append_ws hpre1, hpr4, List.cons_append]
              exact skipWs_cons_of_other hw4 hh4 _
            rw [parseLit_eval '}' hskel, if_neg hr4]
          simp only [hfail]

theorem parseBlockWith_stuck (rhs : List Char → Option (Value × List Char)) (fuel : Nat)
    {s s1 : List Char} (h1 : parseLit '{' s = some s1)
    (h2 : parseExpressionWith rhs s1 = none) (h3 : parseLit '}' s1 = none) :
    parseBlockWith rhs fuel s = none := by
  rw [parseBlockWith, h1]
  simp only [parseExpressionsWith_stop rhs h2 fuel, h3]

theorem parseListing_stuck1 {s s1 : List Char} (h1 : parseLit '{' s = some s1)
    (h2 : parseListElem s1 = none) : parseListing s = none := by
  rw [parseListing, h1]
  simp only [h2]

theorem parseListing_stuck2 {s s1 s2 : List Char} {e : ListElem}
    (h1 : parseLit '{' s = some s1) (h2 : parseListElem s1 = some (e, s2))
    (h3 : parseListElem s2 = none) (h4 : parseLit '}' s2 = none) :
    parseListing s = none := by
  rw [parseListing, h1]
  simp only [h2, parseListElemsAux_stop h3, h4]

theorem parseColor_stuck1 {s s1 : List Char} (h1 : parseLit '{' s = some s1)
    (h2 : parseWordNums s1 = none) : parseColor s = none := by
  rw [parseColor_steps h1]
  simp only [h2]

theorem parseColor_stuck2 {s s1 s2 : List Char} {w : String}
    (h1 : parseLit '{' s = some s1) (h2 : parseWordNums s1 = some (w, s2))
    (h3 : parseWordNums s2 = none) : parseColor s = none := by
  rw [parseColor_steps h1]
  simp only [h2, h3]

theorem parseListElemsAux_two_stop {s s1 s2 : List Char} {e1 e2 : ListElem}
    (h1 : parseListElem s = some (e1, s1)) (h2 : parseListElem s1 = some (e2, s2))
    (h3 : parseListElem s2 = none) :
    ∀ fuel, 2 ≤ fuel → parseListElemsAux fuel s = ([e1, e2], s2) := by
  intro fuel hf
  cases fuel with
  | zero => omega
  | succ f =>
      cases f with
      | zero => omega
      | succ f2 =>
          rw [parseListElemsAux]
          simp only [h1]
          rw [parseListElemsAux]
          simp only [h2, parseListElemsAux_stop h3]

theorem parseIdentRaw_bounded {d : Char} {dt : List Char} {c : Char} {rest : List Char}
    (hd : isWs d = false) (hh : d ≠ '#') (hc : isWordBody c = false) :
    parseIdentRaw ((d :: dt) ++ c :: rest) = none ∨
    ∃ w rem, parseIdentRaw ((d :: dt) ++ c :: rest) = some (w, rem ++ c :: rest) := by
  have hsk : skipWs (d :: (dt ++ c :: rest)) = d :: (dt ++ c :: rest) :=
    skipWs_cons_of_other hd hh _
  rw [List.cons_append, parseIdentRaw_eval hsk]
  by_cases hw : isWordInit d
  · right
    refine ⟨⟨d :: dt.takeWhile isWordBody⟩, dt.dropWhile isWordBody, ?_⟩
    rw [if_pos hw, takeWhile_append_not hc, dropWhile_append_not hc]
  · left
    rw [if_neg hw]

theorem parseExpressionWith_elem_fail (rhs : List Char → Option (Value × List Char))
    {e : ListElem} {pre : List Char} {c : Char} {xs : List Char}
    (he : wfElem e = true) (hpre : ∀ x ∈ pre, isWs x = true) (hc : isWs c = true)
    (hnext : parseLit '=' (c :: xs) = none) :
    parseExpressionWith rhs (pre ++ (e.print_pdx_script ++ c :: xs)) = none := by
  obtain ⟨hwb, _, _, _, _, _, _, _, _, _, _⟩ := ws_facts hc
  cases e with
  | ident s =>
      have hwf : wfWord s = true := by simpa [wfElem] using he
      have hid : parseIdentRaw (pre ++ (ListElem.print_pdx_script (.ident s) ++ c :: xs))
          = some (s, c :: xs) := by
        rw [parseIdentRaw_congr (skipWs_append_ws hpre _), ListElem.print_pdx_script]
        exact parseIdentRaw_print hwf hwb
      exact parseExpressionWith_fail_eq rhs hid hnext
  | str s =>
      have hwf : wfQuoted s = true := by simpa [wfElem] using he
      rcases hdata : s.data with _ | ⟨d, cs⟩
      · exact absurd hdata (wfQuoted_ne_nil hwf)
      · have hd : d = '"' := wfQuoted_head hwf hdata
        subst hd
        apply parseExpressionWith_fail_ident
        apply parseIdentRaw_fail (d := '"') (r := cs ++ c :: xs)
        · rw [skipWs_append_ws hpre, ListElem.print_pdx_script, hdata, List.cons_append]
          exact skipWs_cons_of_other (by decide) (by decide) _
        · decide

theorem parseLit_eq_fail_at {x : Char} {t : List Char} (hx1 : isWs x = false)
    (hx2 : x ≠ '#') (hx3 : x ≠ '=') {pre : List Char} (hpre : ∀ y ∈ pre, isWs y = true) :
    parseLit '=' (pre ++ x :: t) = none := by
  rw [parseLit_eval '=' (by
    rw [skipWs_append_ws hpre]
    exact skipWs_cons_of_other hx1 hx2 _), if_neg hx3]

theorem parseBlockWith_listing_single (rhs : List Char → Option (Value × List Char))
    (fuel : Nat) {e : ListElem} {rest : List Char} (he : wfElem e = true) (d : Nat) :
    parseBlockWith rhs fuel (Value.print_pdx_script (.listing [e]) d ++ rest) = none := by
  obtain ⟨h1, t1, hpr1, hw1, hh1, hr1, _, _⟩ := elem_head he
  have hshape : Value.print_pdx_script (.listing [e]) d ++ rest
      = '{' :: ([' '] ++ (e.print_pdx_script ++ ' ' :: ('}' :: rest))) := by
    rw [Value.print_pdx_script]
    simp
  have hlit : parseLit '{' ('{' :: ([' '] ++ (e.print_pdx_script ++ ' ' :: ('}' :: rest))))
      = some ([' '] ++ (e.print_pdx_script ++ ' ' :: ('}' :: rest))) := by
    rw [parseLit_eval '{' (skipWs_cons_of_other (by decide) (by decide) _)]
    simp
  rw [hshape]
  apply parseBlockWith_stuck rhs fuel hlit
  · apply parseExpressionWith_elem_fail rhs he
      (by intro x hx; simp at hx; subst hx; rfl) (by decide)
    rw [parseLit_eval '=' (by
      rw [skipWs_cons_of_ws (by decide)]
      exact skipWs_cons_of_other (by decide) (by decide) _)]
    rfl
  · rw [parseLit_eval '}' (by
      rw [show ([' '] ++ (e.print_pdx_script ++ ' ' :: ('}' :: rest)) : List Char)
          = ' ' :: (e.print_pdx_script ++ ' ' :: ('}' :: rest)) from rfl,
        skipWs_cons_of_ws (by decide), hpr1, List.cons_append]
      exact skipWs_cons_of_other hw1 hh1 _), if_neg hr1]

theorem parseBlockWith_listing_multi (rhs : List Char → Option (Value × List Char))
    (fuel : Nat) {e1 e2 : ListElem} {es : List ListElem} {rest : List Char}
    (hwf : ∀ e ∈ e1 :: e2 :: es, wfElem e = true) (d : Nat) :
    parseBlockWith rhs fuel
      (Value.print_pdx_script (.listing (e1 :: e2 :: es)) d ++ rest) = none := by
  obtain ⟨h1, t1, hpr1, hw1, hh1, hr1, _, _⟩ := elem_head (hwf e1 (by simp))
  obtain ⟨h2, t2, hpr2, hw2, hh2, _, he2, _⟩ := elem_head (hwf e2 (by simp))
  have hpre1 : ∀ x ∈ ('\n' :: tabs (d + 1) : List Char), isWs x = true := by
    intro x hx
    rcases List.mem_cons.mp hx with rfl | hx
    · rfl
    · exact tabs_ws _ x hx
  have hshape : Value.print_pdx_script (.listing (e1 :: e2 :: es)) d ++ rest
      = '{' :: ('\n' :: (printElems (e1 :: e2 :: es) d ++ tabs d ++ '}' :: rest)) := by
    rw [Value.print_pdx_script]
    simp
  have hlit : parseLit '{'
      ('{' :: ('\n' :: (printElems (e1 :: e2 :: es) d ++ tabs d ++ '}' :: rest)))
      = some ('\n' :: (printElems (e1 :: e2 :: es) d ++ tabs d ++ '}' :: rest)) := by
    rw [parseLit_eval '{' (skipWs_cons_of_other (by decide) (by decide) _)]
    simp
  have hT1 : ('\n' :: (printElems (e1 :: e2 :: es) d ++ tabs d ++ '}' :: rest) : List Char)
      = ('\n' :: tabs (d + 1)) ++ (e1.print_pdx_script ++
          '\n' :: (printElems (e2 :: es) d ++ tabs d ++ '}' :: rest)) := by
    rw [printElems]
    simp
  rw [hshape]
  apply parseBlockWith_stuck rhs fuel hlit
  · rw [hT1]
    apply parseExpressionWith_elem_fail rhs (hwf e1 (by simp)) hpre1 (by decide)
    have hT2 : ('\n' :: (printElems (e2 :: es) d ++ tabs d ++ '}' :: rest) : List Char)
        = ('\n' :: tabs (d + 1)) ++ ((h2 :: t2) ++
            '\n' :: (printElems es d ++ tabs d ++ '}' :: rest)) := by
      rw [printElems, hpr2]
      simp
    rw [hT2, show ((h2 :: t2) ++ '\n' :: (printElems es d ++ tabs d ++ '}' :: rest)
        : List Char) = h2 :: (t2 ++ '\n' :: (printElems es d ++ tabs d ++ '}' :: rest))
        from rfl]
    exact parseLit_eq_fail_at hw2 hh2 he2 hpre1
  · rw [hT1, hpr1, show ((h1 :: t1) ++ '\n' :: (printElems (e2 :: es) d ++ tabs d ++
        '}' :: rest) : List Char) = h1 :: (t1 ++ '\n' :: (printElems (e2 :: es) d ++
        tabs d ++ '}' :: rest)) from rfl]
    rw [parseLit_eval '}' (by
      rw [skipWs_append_ws hpre1]
      exact skipWs_cons_of_other hw1 hh1 _), if_neg hr1]

theorem wfDigits_parts {s : String} {d : Char} {cs : List Char} (h : wfDigits s = true)
    (hdata : s.data = d :: cs) :
    Char.isDigit d = true ∧ cs.all Char.isDigit = true := by
  rw [wfDigits, hdata] at h
  simpa using h

theorem parseColor_at_entry {s : List Char} {lhs : String} {pre T : List Char}
    (hwf : wfWord lhs = true) (hpre : ∀ x ∈ pre, isWs x = true)
    (hs : s = '{' :: (pre ++ (lhs.data ++ ' ' :: ('=' :: T)))) :
    parseColor s = none := by
  subst hs
  have hlit : parseLit '{' ('{' :: (pre ++ (lhs.data ++ ' ' :: ('=' :: T))))
      = some (pre ++ (lhs.data ++ ' ' :: ('=' :: T))) := by
    rw [parseLit_eval '{' (skipWs_cons_of_other (by decide) (by decide) _)]
    simp
  have hstop : skipWs (' ' :: ('=' :: T)) = '=' :: T := by
    rw [skipWs_cons_of_ws (by decide)]
    exact skipWs_cons_of_other (by decide) (by decide) _
  have hwe : wfElem (ListElem.ident lhs) = true := by simpa [wfElem] using hwf
  obtain ⟨hyes, hno⟩ := @color_word_step (ListElem.ident lhs) pre ' ' ('=' :: T)
    hwe hpre (by decide)
  rcases Bool.eq_false_or_eq_true (elemDigits (ListElem.ident lhs)) with hd | hd
  · obtain ⟨w, hw⟩ := hyes hd
    exact parseColor_stuck2 hlit hw (parseWordNums_fail hstop (by decide))
  · rcases hno hd with h | ⟨w, x, xs, hw, hx, _⟩
    · exact parseColor_stuck1 hlit h
    · exact parseColor_stuck2 hlit hw hx

theorem parseListing_at_entry {s : List Char} {lhs : String} {pre T : List Char}
    (hwf : wfWord lhs = true) (hpre : ∀ x ∈ pre, isWs x = true)
    (hs : s = '{' :: (pre ++ (lhs.data ++ ' ' :: ('=' :: T)))) :
    parseListing s = none := by
  subst hs
  have hlit : parseLit '{' ('{' :: (pre ++ (lhs.data ++ ' ' :: ('=' :: T))))
      = some (pre ++ (lhs.data ++ ' ' :: ('=' :: T))) := by
    rw [parseLit_eval '{' (skipWs_cons_of_other (by decide) (by decide) _)]
    simp
  have hstop : skipWs (' ' :: ('=' :: T)) = '=' :: T := by
    rw [skipWs_cons_of_ws (by decide)]
    exact skipWs_cons_of_other (by decide) (by decide) _
  have hwe : wfElem (ListElem.ident lhs) = true := by simpa [wfElem] using hwf
  have he : parseListElem (pre ++ (lhs.data ++ ' ' :: ('=' :: T)))
      = some (.ident lhs, ' ' :: ('=' :: T)) := by
    rw [parseListElem_congr_ws hpre]
    exact parseListElem_print hwe (by decide)
  exact parseListing_stuck2 hlit he (parseListElem_fail hstop (by decide) (by decide))
    (by rw [parseLit_eval '}' hstop, if_neg (by decide)])

theorem parseColor_empty_braces (rest : List Char) :
    parseColor ('{' :: (' ' :: ('}' :: rest))) = none := by
  have hlit : parseLit '{' ('{' :: (' ' :: ('}' :: rest))) = some (' ' :: ('}' :: rest)) := by
    rw [parseLit_eval '{' (skipWs_cons_of_other (by decide) (by decide) _)]
    simp
  have hsk : skipWs (' ' :: ('}' :: rest)) = '}' :: rest := by
    rw [skipWs_cons_of_ws (by decide)]
    exact skipWs_cons_of_other (by decide) (by decide) _
  exact parseColor_stuck1 hlit (parseWordNums_fail hsk (by decide))

theorem parseListing_empty_braces (rest : List Char) :
    parseListing ('{' :: (' ' :: ('}' :: rest))) = none := by
  have hlit : parseLit '{' ('{' :: (' ' :: ('}' :: rest))) = some (' ' :: ('}' :: rest)) := by
    rw [parseLit_eval '{' (skipWs_cons_of_other (by decide) (by decide) _)]
    simp
  have hsk : skipWs (' ' :: ('}' :: rest)) = '}' :: rest := by
    rw [skipWs_cons_of_ws (by decide)]
    exact skipWs_cons_of_other (by decide) (by decide) _
  exact parseListing_stuck1 hlit (parseListElem_fail hsk (by decide) (by decide))

theorem nl_tabs_ws (d : Nat) : ∀ x ∈ ('\n' :: tabs d : List Char), isWs x = true := by
  intro x hx
  rcases List.mem_cons.mp hx with rfl | hx
  · rfl
  · exact tabs_ws _ x hx

theorem parseColor_inline_entry {lhs : String} {T : List Char} (hl : wfWord lhs = true) :
    parseColor ('{' :: (' ' :: (lhs.data ++ ' ' :: ('=' :: T)))) = none :=
  @parseColor_at_entry _ lhs [' '] T hl (by intro x hx; simp at hx; subst hx; rfl) rfl

theorem parseListing_inline_entry {lhs : String} {T : List Char} (hl : wfWord lhs = true) :
    parseListing ('{' :: (' ' :: (lhs.data ++ ' ' :: ('=' :: T)))) = none :=
  @parseListing_at_entry _ lhs [' '] T hl (by intro x hx; simp at hx; subst hx; rfl) rfl

theorem parseColor_entries {lhs : String} {rhs : Value} {Es : List Expression} {d : Nat}
    {rest : List Char} (hl : wfWord lhs = true) :
    parseColor ('{' :: ('\n' :: (printEntries (.mk lhs rhs :: Es) d ++ tabs d ++ '}' :: rest)))
      = none := by
  have hshape : ('{' :: ('\n' :: (printEntries (Expression.mk lhs rhs :: Es) d ++ tabs d
        ++ '}' :: rest)) : List Char)
      = '{' :: (('\n' :: tabs (d + 1)) ++ (lhs.data ++ ' ' :: ('=' :: (' ' ::
          (Value.print_pdx_script rhs (d + 1) ++ '\n' ::
            (printEntries Es d ++ tabs d ++ '}' :: rest)))))) := by
    rw [printEntries, Expression.print_pdx_script]
    simp
  exact parseColor_at_entry hl (nl_tabs_ws (d + 1)) hshape

theorem parseListing_entries {lhs : String} {rhs : Value} {Es : List Expression} {d : Nat}
    {rest : List Char} (hl : wfWord lhs = true) :
    parseListing ('{' :: ('\n' :: (printEntries (.mk lhs rhs :: Es) d ++ tabs d ++ '}' :: rest)))
      = none := by
  have hshape : ('{' :: ('\n' :: (printEntries (Expression.mk lhs rhs :: Es) d ++ tabs d
        ++ '}' :: rest)) : List Char)
      = '{' :: (('\n' :: tabs (d + 1)) ++ (lhs.data ++ ' ' :: ('=' :: (' ' ::
          (Value.print_pdx_script rhs (d + 1) ++ '\n' ::
            (printEntries Es d ++ tabs d ++ '}' :: rest)))))) := by
    rw [printEntries, Expression.print_pdx_script]
    simp
  exact parseListing_at_entry hl (nl_tabs_ws (d + 1)) hshape

theorem wfDigits_ne_nil {s : String} (h : wfDigits s = true) : s.data ≠ [] := by
  intro hnil
  rw [wfDigits, hnil] at h
  simp at h

theorem parseWordNums_ws_print {s : String} {c : Char} {rest : List Char}
    (hs : wfDigits s = true) (hc : isWs c = true) :
    parseWordNums (' ' :: (s.data ++ c :: rest)) = some (s, c :: rest) := by
  rw [parseWordNums_congr (skipWs_cons_of_ws (by decide) _)]
  obtain ⟨_, hcd, _, _, _, _, _, _, _, _, _⟩ := ws_facts hc
  exact parseWordNums_print hs hcd

theorem parseListElem_ws_print {e : ListElem} {c : Char} {rest : List Char}
    (he : wfElem e = true) (hc : isWs c = true) :
    parseListElem (' ' :: (e.print_pdx_script ++ c :: rest)) = some (e, c :: rest) := by
  rw [show (' ' :: (e.print_pdx_script ++ c :: rest) : List Char)
      = [' '] ++ (e.print_pdx_script ++ c :: rest) from rfl,
    parseListElem_congr_ws (by intro x hx; simp at hx; subst hx; rfl)]
  exact parseListElem_print he hc

theorem parseColor_print {r g b : String} {rest : List Char} (hr : wfDigits r = true)
    (hg : wfDigits g = true) (hb : wfDigits b = true) (d : Nat) :
    parseColor (Value.print_pdx_script (.color r g b) d ++ rest)
      = some (.color r g b, rest) := by
  have hshape : Value.print_pdx_script (.color r g b) d ++ rest
      = '{' :: (' ' :: (r.data ++ ' ' :: (g.data ++ ' ' :: (b.data ++ ' ' :: ('}' :: rest))))) := by
    rw [Value.print_pdx_script]
    simp
  have hlit1 : parseLit '{'
      ('{' :: (' ' :: (r.data ++ ' ' :: (g.data ++ ' ' :: (b.data ++ ' ' :: ('}' :: rest))))))
      = some (' ' :: (r.data ++ ' ' :: (g.data ++ ' ' :: (b.data ++ ' ' :: ('}' :: rest))))) := by
    rw [parseLit_eval '{' (skipWs_cons_of_other (by decide) (by decide) _)]
    simp
  have hw1 : parseWordNums
      (' ' :: (r.data ++ ' ' :: (g.data ++ ' ' :: (b.data ++ ' ' :: ('}' :: rest)))))
      = some (r, ' ' :: (g.data ++ ' ' :: (b.data ++ ' ' :: ('}' :: rest)))) :=
    parseWordNums_ws_print hr (by decide)
  have hw2 : parseWordNums (' ' :: (g.data ++ ' ' :: (b.data ++ ' ' :: ('}' :: rest))))
      = some (g, ' ' :: (b.data ++ ' ' :: ('}' :: rest))) :=
    parseWordNums_ws_print hg (by decide)
  have hw3 : parseWordNums (' ' :: (b.data ++ ' ' :: ('}' :: rest)))
      = some (b, ' ' :: ('}' :: rest)) :=
    parseWordNums_ws_print hb (by decide)
  have hlit2 : parseLit '}' (' ' :: ('}' :: rest)) = some rest := by
    rw [parseLit_eval '}' (by
      rw [skipWs_cons_of_ws (by decide)]
      exact skipWs_cons_of_other (by decide) (by decide) _)]
    simp
  rw [hshape, parseColor_steps hlit1]
  simp only [hw1, hw2, hw3, hlit2]

theorem parseListing_color_print {r g b : String} {rest : List Char} (hr : wfDigits r = true)
    (hg : wfDigits g = true) (hb : wfDigits b = true) (d : Nat) :
    parseListing (Value.print_pdx_script (.color r g b) d ++ rest)
      = some (.listing [.ident r, .ident g, .ident b], rest) := by
  have hshape : Value.print_pdx_script (.color r g b) d ++ rest
      = '{' :: (' ' :: (r.data ++ ' ' :: (g.data ++ ' ' :: (b.data ++ ' ' :: ('}' :: rest))))) := by
    rw [Value.print_pdx_script]
    simp
  have hlit1 : parseLit '{'
      ('{' :: (' ' :: (r.data ++ ' ' :: (g.data ++ ' ' :: (b.data ++ ' ' :: ('}' :: rest))))))
      = some (' ' :: (r.data ++ ' ' :: (g.data ++ ' ' :: (b.data ++ ' ' :: ('}' :: rest))))) := by
    rw [parseLit_eval '{' (skipWs_cons_of_other (by decide) (by decide) _)]
    simp
  have he1 : parseListElem
      (' ' :: (r.data ++ ' ' :: (g.data ++ ' ' :: (b.data ++ ' ' :: ('}' :: rest)))))
      = some (.ident r, ' ' :: (g.data ++ ' ' :: (b.data ++ ' ' :: ('}' :: rest)))) :=
    @parseListElem_ws_print (ListElem.ident r) ' '
      (g.data ++ ' ' :: (b.data ++ ' ' :: ('}' :: rest)))
      (by simpa [wfElem] using wfDigits_wfWord hr) (by decide)
  have he2 : parseListElem (' ' :: (g.data ++ ' ' :: (b.data ++ ' ' :: ('}' :: rest))))
      = some (.ident g, ' ' :: (b.data ++ ' ' :: ('}' :: rest))) :=
    @parseListElem_ws_print (ListElem.ident g) ' ' (b.data ++ ' ' :: ('}' :: rest))
      (by simpa [wfElem] using wfDigits_wfWord hg) (by decide)
  have he3 : parseListElem (' ' :: (b.data ++ ' ' :: ('}' :: rest)))
      = some (.ident b, ' ' :: ('}' :: rest)) :=
    @parseListElem_ws_print (ListElem.ident b) ' ' ('}' :: rest)
      (by simpa [wfElem] using wfDigits_wfWord hb) (by decide)
  have hsk2 : skipWs (' ' :: ('}' :: rest)) = '}' :: rest := by
    rw [skipWs_cons_of_ws (by decide)]
    exact skipWs_cons_of_other (by decide) (by decide) _
  have he4 : parseListElem (' ' :: ('}' :: rest)) = none :=
    parseListElem_fail hsk2 (by decide) (by decide)
  have hlit2 : parseLit '}' (' ' :: ('}' :: rest)) = some rest := by
    rw [parseLit_eval '}' hsk2]
    simp
  have haux : parseListElemsAux
      (' ' :: (g.data ++ ' ' :: (b.data ++ ' ' :: ('}' :: rest)))).length
      (' ' :: (g.data ++ ' ' :: (b.data ++ ' ' :: ('}' :: rest))))
      = ([.ident g, .ident b], ' ' :: ('}' :: rest)) :=
    parseListElemsAux_two_stop he2 he3 he4 _ (by simp; omega)
  rw [hshape, parseListing]
  simp only [hlit1, he1, haux, hlit2]

theorem parseBlockWith_color_print (rhs : List Char → Option (Value × List Char))
    (fuel : Nat) {r g b : String} {rest : List Char} (hr : wfDigits r = true)
    (hg : wfDigits g = true) (d : Nat) :
    parseBlockWith rhs fuel (Value.print_pdx_script (.color r g b) d ++ rest) = none := by
  have hshape : Value.print_pdx_script (.color r g b) d ++ rest
      = '{' :: (' ' :: (r.data ++ ' ' :: (g.data ++ ' ' :: (b.data ++ ' ' :: ('}' :: rest))))) := by
    rw [Value.print_pdx_script]
    simp
  have hlit1 : parseLit '{'
      ('{' :: (' ' :: (r.data ++ ' ' :: (g.data ++ ' ' :: (b.data ++ ' ' :: ('}' :: rest))))))
      = some (' ' :: (r.data ++ ' ' :: (g.data ++ ' ' :: (b.data ++ ' ' :: ('}' :: rest))))) := by
    rw [parseLit_eval '{' (skipWs_cons_of_other (by decide) (by decide) _)]
    simp
  rcases hrd : r.data with _ | ⟨rh, rt⟩
  · exact absurd hrd (wfDigits_ne_nil hr)
  obtain ⟨hrhd, _⟩ := wfDigits_parts hr hrd
  obtain ⟨hrw, hrh2, _, _⟩ := digit_facts hrhd
  obtain ⟨_, _, _, _, _, hrr, _⟩ := digit_ne hrhd
  have hnext : parseLit '=' (' ' :: (g.data ++ ' ' :: (b.data ++ ' ' :: ('}' :: rest))))
      = none := by
    rcases hgd : g.data with _ | ⟨gh, gt⟩
    · exact absurd hgd (wfDigits_ne_nil hg)
    obtain ⟨hghd, _⟩ := wfDigits_parts hg hgd
    obtain ⟨hgw, hgh2, _, _⟩ := digit_facts hghd
    obtain ⟨_, _, _, _, _, _, hge⟩ := digit_ne hghd
    rw [show (' ' :: ((gh :: gt) ++ ' ' :: (b.data ++ ' ' :: ('}' :: rest))) : List Char)
        = [' '] ++ (gh :: (gt ++ ' ' :: (b.data ++ ' ' :: ('}' :: rest)))) from rfl]
    exact parseLit_eq_fail_at hgw hgh2 hge (by intro x hx; simp at hx; subst hx; rfl)
  rw [hshape]
  apply parseBlockWith_stuck rhs fuel hlit1
  · rw [hrd]
    rw [show (' ' :: ((rh :: rt) ++ ' ' :: (g.data ++ ' ' :: (b.data ++ ' '
        :: ('}' :: rest)))) : List Char)
        = [' '] ++ ((rh :: rt) ++ ' ' :: (g.data ++ ' ' :: (b.data ++ ' '
          :: ('}' :: rest)))) from rfl]
    have hwe : wfElem (ListElem.ident r) = true := by
      simpa [wfElem] using wfDigits_wfWord hr
    have hprint : ListElem.print_pdx_script (ListElem.ident r) = rh :: rt := by
      rw [ListElem.print_pdx_script, hrd]
    rw [show ((rh :: rt) ++ ' ' :: (g.data ++ ' ' :: (b.data ++ ' ' :: ('}' :: rest)))
        : List Char) = ListElem.print_pdx_script (ListElem.ident r)
          ++ ' ' :: (g.data ++ ' ' :: (b.data ++ ' ' :: ('}' :: rest))) from by rw [hprint]]
    exact parseExpressionWith_elem_fail rhs hwe
      (by intro x hx; simp at hx; subst hx; rfl) (by decide) hnext
  · rw [hrd]
    rw [show (' ' :: ((rh :: rt) ++ ' ' :: (g.data ++ ' ' :: (b.data ++ ' '
        :: ('}' :: rest)))) : List Char)
        = [' '] ++ (rh :: (rt ++ ' ' :: (g.data ++ ' ' :: (b.data ++ ' '
          :: ('}' :: rest))))) from rfl]
    rw [parseLit_eval '}' (by
      rw [skipWs_append_ws (by intro x hx; simp at hx; subst hx; rfl)]
      exact skipWs_cons_of_other hrw hrh2 _), if_neg hrr]

theorem orLongest_none_left {α : Type} (b : Option (α × List Char)) :
    orLongest none b = b := rfl

theorem orLongest_none_right {α : Type} (a : Option (α × List Char)) :
    orLongest a none = a := by
  cases a <;> rfl

theorem orLongest_keep {α : Type} {v : α} {r : List Char} {b : Option (α × List Char)}
    (h : b = none ∨ ∃ w rem, b = some (w, rem ++ r)) :
    orLongest (some (v, r)) b = some (v, r) := by
  rcases h with rfl | ⟨w, rem, rfl⟩
  · rfl
  · have hn : ¬((rem ++ r).length < r.length) := by
      rw [List.length_append]
      omega
    simp only [orLongest, if_neg hn]

theorem orLongest_better {α : Type} {v : α} {r : List Char} {a : Option (α × List Char)}
    (h : a = none ∨ ∃ w x xs, a = some (w, (x :: xs) ++ r)) :
    orLongest a (some (v, r)) = some (v, r) := by
  rcases h with rfl | ⟨w, x, xs, rfl⟩
  · rfl
  · have hlt : r.length < ((x :: xs) ++ r).length := by
      rw [List.length_append, List.length_cons]
      omega
    simp only [orLongest, if_pos hlt]

theorem printNat_head {n : Nat} : ∃ h t, printNat n = h :: t ∧ Char.isDigit h = true := by
  rcases hpr : printNat n with _ | ⟨h, t⟩
  · exact absurd hpr (printNat_ne_nil n)
  · exact ⟨h, t, rfl, printNat_all_digits n h (by rw [hpr]; simp)⟩

theorem printFloatFixed_chars {q : Rat} : ∀ x ∈ printFloatFixed q,
    Char.isDigit x = true ∨ x = '-' ∨ x = '.' ∨ x = '0' ∨ x = 'e' ∨ x = '+' := by
  intro x hx
  rw [printFloatFixed] at hx
  set k := decExp q.den with hk
  set m := q.num * ((10 ^ k : Nat) / q.den) with hm
  set digits0 := printNat m.natAbs with hd0
  set digits := List.replicate (k + 1 - digits0.length) '0' ++ digits0 with hd1
  have hdigits : ∀ y ∈ digits,
      Char.isDigit y = true ∨ y = '-' ∨ y = '.' ∨ y = '0' ∨ y = 'e' ∨ y = '+' := by
    intro y hy
    rcases List.mem_append.mp hy with hy | hy
    · exact Or.inr (Or.inr (Or.inr (Or.inl (List.eq_of_mem_replicate hy))))
    · exact Or.inl (printNat_all_digits _ y hy)
  have hbody : ∀ y ∈ (if k = 0 then digits ++ ['.', '0']
      else digits.take (digits.length - k) ++ '.' :: digits.drop (digits.length - k)),
      Char.isDigit y = true ∨ y = '-' ∨ y = '.' ∨ y = '0' ∨ y = 'e' ∨ y = '+' := by
    intro y hy
    split at hy
    · rcases List.mem_append.mp hy with hy | hy
      · exact hdigits y hy
      · simp at hy
        rcases hy with rfl | rfl
        · exact Or.inr (Or.inr (Or.inl rfl))
        · exact Or.inr (Or.inr (Or.inr (Or.inl rfl)))
    · rcases List.mem_append.mp hy with hy | hy
      · exact hdigits y (List.mem_of_mem_take hy)
      · rcases List.mem_cons.mp hy with rfl | hy
        · exact Or.inr (Or.inr (Or.inl rfl))
        · exact hdigits y (List.mem_of_mem_drop hy)
  split at hx
  · rcases List.mem_cons.mp hx with rfl | hx
    · exact Or.inr (Or.inl rfl)
    · exact hbody x hx
  · exact hbody x hx

theorem printFloatSci_chars {q : Rat} : ∀ x ∈ printFloatSci q,
    Char.isDigit x = true ∨ x = '-' ∨ x = '.' ∨ x = '0' ∨ x = 'e' ∨ x = '+' := by
  intro x hx
  rw [printFloatSci] at hx
  set k := decExp q.den with hk
  set m := q.num * ((10 ^ k : Nat) / q.den) with hm
  set digits := printNat m.natAbs with hd0
  set mant := (digits.reverse.dropWhile (fun c => c = '0')).reverse with hmant
  have hmantd : ∀ y ∈ mant, Char.isDigit y = true := by
    intro y hy
    rw [hmant, List.mem_reverse] at hy
    have hy2 := List.dropWhile_subset _ hy
    rw [List.mem_reverse] at hy2
    exact printNat_all_digits _ y hy2
  have hmb : ∀ y ∈ (match mant with
      | [] => ['0']
      | [d] => [d]
      | d :: ds => d :: '.' :: ds),
      Char.isDigit y = true ∨ y = '-' ∨ y = '.' ∨ y = '0' ∨ y = 'e' ∨ y = '+' := by
    intro y hy
    match mant, hmantd, hy with
    | [], _, hy =>
        simp at hy
        exact Or.inr (Or.inr (Or.inr (Or.inl hy)))
    | [d], hmantd, hy =>
        have hyd : y = d := by simpa using hy
        rw [hyd]
        exact Or.inl (hmantd d (by simp))
    | d :: d2 :: ds, hmantd, hy =>
        rcases List.mem_cons.mp hy with rfl | hy
        · exact Or.inl (hmantd y (by simp))
        · rcases List.mem_cons.mp hy with rfl | hy
          · exact Or.inr (Or.inr (Or.inl rfl))
          · exact Or.inl (hmantd y (by simp [hy]))
  set e : Int := (digits.length : Int) - 1 - (k : Int) with he
  have hed : ∀ y ∈ (if (printNat e.natAbs).length < 2
      then '0' :: printNat e.natAbs else printNat e.natAbs),
      Char.isDigit y = true ∨ y = '-' ∨ y = '.' ∨ y = '0' ∨ y = 'e' ∨ y = '+' := by
    intro y hy
    split at hy
    · rcases List.mem_cons.mp hy with rfl | hy
      · exact Or.inr (Or.inr (Or.inr (Or.inl rfl)))
      · exact Or.inl (printNat_all_digits _ y hy)
    · exact Or.inl (printNat_all_digits _ y hy)
  have hbody : ∀ y ∈ ((match mant with
      | [] => ['0']
      | [d] => [d]
      | d :: ds => d :: '.' :: ds) ++ 'e' :: (if e < 0 then '-' else '+')
        :: (if (printNat e.natAbs).length < 2
            then '0' :: printNat e.natAbs else printNat e.natAbs)),
      Char.isDigit y = true ∨ y = '-' ∨ y = '.' ∨ y = '0' ∨ y = 'e' ∨ y = '+' := by
    intro y hy
    rcases List.mem_append.mp hy with hy | hy
    · exact hmb y hy
    · rcases List.mem_cons.mp hy with rfl | hy
      · exact Or.inr (Or.inr (Or.inr (Or.inr (Or.inl rfl))))
      · rcases List.mem_cons.mp hy with rfl | hy
        · split
          · exact Or.inr (Or.inl rfl)
          · exact Or.inr (Or.inr (Or.inr (Or.inr (Or.inr rfl))))
        · exact hed y hy
  split at hx
  · rcases List.mem_cons.mp hx with rfl | hx
    · exact Or.inr (Or.inl rfl)
    · exact hbody x hx
  · exact hbody x hx

theorem printFloat_chars {q : Rat} : ∀ x ∈ printFloat q,
    Char.isDigit x = true ∨ x = '-' ∨ x = '.' ∨ x = '0' ∨ x = 'e' ∨ x = '+' := by
  intro x hx
  rw [printFloat] at hx
  split at hx
  · exact printFloatFixed_chars x hx
  · exact printFloatSci_chars x hx

theorem printFloatFixed_ne_nil (q : Rat) : printFloatFixed q ≠ [] := by
  rw [printFloatFixed]
  obtain ⟨h, t, hpr, _⟩ := @printNat_head (q.num * ((10 ^ decExp q.den : Nat) / q.den)).natAbs
  split
  · simp
  · split
    · simp
    · intro hnil
      have := List.append_eq_nil.mp hnil
      simp at this

theorem printFloatSci_ne_nil (q : Rat) : printFloatSci q ≠ [] := by
  rw [printFloatSci]
  split
  · simp
  · intro hnil
    have := List.append_eq_nil.mp hnil
    simp at this

theorem printFloat_ne_nil (q : Rat) : printFloat q ≠ [] := by
  rw [printFloat]
  split
  · exact printFloatFixed_ne_nil q
  · exact printFloatSci_ne_nil q

theorem printNumber_ne_nil (n : PdxNumber) : n.print_pdx_script ≠ [] := by
  cases n with
  | int m =>
      rw [PdxNumber.print_pdx_script, printInt]
      split
      · simp
      · exact printNat_ne_nil _
  | float q =>
      rw [PdxNumber.print_pdx_script]
      exact printFloat_ne_nil q

theorem printNumber_chars (n : PdxNumber) : ∀ x ∈ n.print_pdx_script,
    Char.isDigit x = true ∨ x = '-' ∨ x = '.' ∨ x = '0' ∨ x = 'e' ∨ x = '+' := by
  cases n with
  | int m =>
      intro x hx
      rw [PdxNumber.print_pdx_script, printInt] at hx
      split at hx
      · rcases List.mem_cons.mp hx with rfl | hx
        · exact Or.inr (Or.inl rfl)
        · exact Or.inl (printNat_all_digits _ x hx)
      · exact Or.inl (printNat_all_digits _ x hx)
  | float q =>
      intro x hx
      rw [PdxNumber.print_pdx_script] at hx
      exact printFloat_chars x hx

theorem printNumber_head {n : PdxNumber} : ∃ h t, n.print_pdx_script = h :: t ∧
    isWs h = false ∧ h ≠ '#' ∧ h ≠ '{' ∧ h ≠ '"' := by
  rcases hpr : n.print_pdx_script with _ | ⟨h, t⟩
  · exact absurd hpr (printNumber_ne_nil n)
  · have hmem : h ∈ n.print_pdx_script := by rw [hpr]; simp
    rcases printNumber_chars n h hmem with hd | rfl | rfl | rfl | rfl | rfl
    · obtain ⟨h1, h2, _, _⟩ := digit_facts hd
      obtain ⟨_, _, _, h4, h5, _, _⟩ := digit_ne hd
      exact ⟨h, t, rfl, h1, h2, h5, h4⟩
    · exact ⟨'-', t, rfl, rfl, by decide, by decide, by decide⟩
    · exact ⟨'.', t, rfl, rfl, by decide, by decide, by decide⟩
    · exact ⟨'0', t, rfl, rfl, by decide, by decide, by decide⟩
    · exact ⟨'e', t, rfl, rfl, by decide, by decide, by decide⟩
    · exact ⟨'+', t, rfl, rfl, by decide, by decide, by decide⟩

theorem parseValue_print_num (fuel : Nat) {n : PdxNumber} {c : Char} {rest : List Char}
    (hv : wfNumber n = true) (hc : isWs c = true) (d : Nat) :
    parseValue (fuel + 1) (Value.print_pdx_script (.num n) d ++ c :: rest)
      = some (.num n, c :: rest) := by
  obtain ⟨hwb, _, _, _, _, _, _, _, _, _, _⟩ := ws_facts hc
  obtain ⟨h, t, hpr, hhw, hhh, hhb, hhq⟩ := @printNumber_head n
  obtain ⟨hp1, hp2⟩ := parse_print_number n hv hc
  have hsk : skipWs (PdxNumber.print_pdx_script n ++ c :: rest) = h :: (t ++ c :: rest) := by
    rw [hpr, List.cons_append]
    exact skipWs_cons_of_other hhw hhh _
  have ho1 : parseNumber (PdxNumber.print_pdx_script n ++ c :: rest)
      = some (.num n, c :: rest) := by
    rw [parseNumber, hp1]
    simp [hp2]
  have hbfail : parseLit '{' (PdxNumber.print_pdx_script n ++ c :: rest) = none := by
    rw [parseLit_eval '{' hsk, if_neg hhb]
  have ho2 : parseColor (PdxNumber.print_pdx_script n ++ c :: rest) = none :=
    parseColor_fail_brace hbfail
  have ho3 : parseListing (PdxNumber.print_pdx_script n ++ c :: rest) = none :=
    parseListing_fail_brace hbfail
  have ho4 : parseBlockWith (parseValue fuel) fuel
      (PdxNumber.print_pdx_script n ++ c :: rest) = none :=
    parseBlockWith_fail_brace (parseValue fuel) fuel hbfail
  have ho6 : parseStringValue (PdxNumber.print_pdx_script n ++ c :: rest) = none := by
    rw [parseStringValue, parseStringRaw_fail hsk hhq]
    rfl
  have hkeep : parseIdentValue (PdxNumber.print_pdx_script n ++ c :: rest) = none ∨
      ∃ (w : Value) (rem : List Char),
        parseIdentValue (PdxNumber.print_pdx_script n ++ c :: rest)
          = some (w, rem ++ c :: rest) := by
    rcases @parseIdentRaw_bounded h t c rest hhw hhh hwb with hnone | ⟨w, rem, hsome⟩
    · left
      rw [parseIdentValue, hpr, hnone]
      rfl
    · right
      exact ⟨.ident w, rem, by rw [parseIdentValue, hpr, hsome]; rfl⟩
  rw [show Value.print_pdx_script (.num n) d ++ c :: rest
      = PdxNumber.print_pdx_script n ++ c :: rest from rfl]
  rw [parseValue]
  simp only [pickLongest, List.foldl_cons, List.foldl_nil]
  rw [ho1, ho2, ho3, ho4, ho6]
  rw [orLongest_none_left, orLongest_none_right, orLongest_none_right,
    orLongest_none_right, orLongest_none_right, orLongest_keep hkeep]

theorem parseValue_print_str (fuel : Nat) {s : String} {c : Char} {rest : List Char}
    (hv : wfQuoted s = true) (hc : isWs c = true) (d : Nat) :
    parseValue (fuel + 1) (Value.print_pdx_script (.str s) d ++ c :: rest)
      = some (.str s, c :: rest) := by
  rcases hdata : s.data with _ | ⟨h, cs⟩
  · exact absurd hdata (wfQuoted_ne_nil hv)
  have hh : h = '"' := wfQuoted_head hv hdata
  subst hh
  have hsk : skipWs (s.data ++ c :: rest) = '"' :: (cs ++ c :: rest) := by
    rw [hdata, List.cons_append]
    exact skipWs_cons_of_other (by decide) (by decide) _
  have ho1 : parseNumber (s.data ++ c :: rest) = none := by
    rw [parseNumber, parseNumberRaw_fail hsk (by decide) (by decide) (by decide)]
    rfl
  have hbfail : parseLit '{' (s.data ++ c :: rest) = none := by
    rw [parseLit_eval '{' hsk, if_neg (by decide)]
  have ho5 : parseIdentValue (s.data ++ c :: rest) = none := by
    rw [parseIdentValue, parseIdentRaw_fail hsk (by decide)]
    rfl
  have ho6 : parseStringValue (s.data ++ c :: rest) = some (.str s, c :: rest) := by
    rw [parseStringValue, parseStringRaw_print hv]
    rfl
  rw [show Value.print_pdx_script (.str s) d ++ c :: rest = s.data ++ c :: rest from rfl]
  rw [parseValue]
  simp only [pickLongest, List.foldl_cons, List.foldl_nil]
  rw [ho1, parseColor_fail_brace hbfail, parseListing_fail_brace hbfail,
    parseBlockWith_fail_brace (parseValue fuel) fuel hbfail, ho5, ho6]
  rfl

theorem parseValue_print_ident (fuel : Nat) {s : String} {c : Char} {rest : List Char}
    (hw : wfWord s = true) (hfn : fullNumberShape s.data = false) (hc : isWs c = true)
    (d : Nat) :
    parseValue (fuel + 1) (Value.print_pdx_script (.ident s) d ++ c :: rest)
      = some (.ident s, c :: rest) := by
  obtain ⟨hwb, hcd, _, hcdot, _, _, _, _, _, _, _⟩ := ws_facts hc
  rcases hdata : s.data with _ | ⟨h, t⟩
  · exact absurd hdata (wfWord_ne_nil hw)
  obtain ⟨hhi, _⟩ := wfWord_parts hw hdata
  obtain ⟨hhw, hhh, hhb, _, hhq, _⟩ := wordInit_facts hhi
  have hsk : skipWs (s.data ++ c :: rest) = h :: (t ++ c :: rest) := by
    rw [hdata, List.cons_append]
    exact skipWs_cons_of_other hhw hhh _
  have ho5 : parseIdentValue (s.data ++ c :: rest) = some (.ident s, c :: rest) := by
    rw [parseIdentValue, parseIdentRaw_print hw hwb]
    rfl
  have hbfail : parseLit '{' (s.data ++ c :: rest) = none := by
    rw [parseLit_eval '{' hsk, if_neg hhb]
  have ho6 : parseStringValue (s.data ++ c :: rest) = none := by
    rw [parseStringValue, parseStringRaw_fail hsk hhq]
    rfl
  have hbetter : parseNumber (s.data ++ c :: rest) = none ∨
      ∃ (w : Value) (x : Char) (xs : List Char),
        parseNumber (s.data ++ c :: rest) = some (w, (x :: xs) ++ c :: rest) := by
    have happ := @parseNumberRaw_append h t c rest hhw hhh hcd hcdot
    rcases hnr : parseNumberRaw (h :: t) with _ | ⟨tok, rem⟩
    · left
      rw [parseNumber, hdata, happ, hnr]
      rfl
    · have hrem : rem ≠ [] := by
        intro hnil
        rw [fullNumberShape, hdata, hnr, hnil] at hfn
        simp at hfn
      rcases hremc : rem with _ | ⟨x, xs⟩
      · exact absurd hremc hrem
      · right
        refine ⟨.num (numberOfToken tok), x, xs, ?_⟩
        rw [parseNumber, hdata, happ, hnr, hremc]
        rfl
  rw [show Value.print_pdx_script (.ident s) d ++ c :: rest = s.data ++ c :: rest from rfl]
  rw [parseValue]
  simp only [pickLongest, List.foldl_cons, List.foldl_nil]
  rw [parseColor_fail_brace hbfail, parseListing_fail_brace hbfail,
    parseBlockWith_fail_brace (parseValue fuel) fuel hbfail, ho5, ho6]
  rw [orLongest_none_right, orLongest_none_right, orLongest_none_right,
    orLongest_none_right, orLongest_none_left, orLongest_better hbetter]

theorem valueAlts_fail_brace {S X : List Char} (hS : S = '{' :: X) :
    parseNumber S = none ∧ parseIdentValue S = none ∧ parseStringValue S = none := by
  subst hS
  have hsk : skipWs ('{' :: X) = '{' :: X := skipWs_cons_of_other (by decide) (by decide) _
  refine ⟨?_, ?_, ?_⟩
  · rw [parseNumber, parseNumberRaw_fail hsk (by decide) (by decide) (by decide)]
    rfl
  · rw [parseIdentValue, parseIdentRaw_fail hsk (by decide)]
    rfl
  · rw [parseStringValue, parseStringRaw_fail hsk (by decide)]
    rfl

theorem parseValue_print_color (fuel : Nat) {r g b : String} {c : Char} {rest : List Char}
    (hr : wfDigits r = true) (hg : wfDigits g = true) (hb : wfDigits b = true)
    (hc : isWs c = true) (d : Nat) :
    parseValue (fuel + 1) (Value.print_pdx_script (.color r g b) d ++ c :: rest)
      = some (.color r g b, c :: rest) := by
  have hshape : Value.print_pdx_script (.color r g b) d ++ c :: rest
      = '{' :: (' ' :: (r.data ++ ' ' :: (g.data ++ ' '
          :: (b.data ++ ' ' :: ('}' :: (c :: rest)))))) := by
    rw [Value.print_pdx_script]
    simp
  obtain ⟨ho1, ho5, ho6⟩ := valueAlts_fail_brace hshape
  have ho2 : parseColor (Value.print_pdx_script (.color r g b) d ++ c :: rest)
      = some (.color r g b, c :: rest) := parseColor_print hr hg hb d
  have ho3 : parseListing (Value.print_pdx_script (.color r g b) d ++ c :: rest)
      = some (.listing [.ident r, .ident g, .ident b], c :: rest) :=
    parseListing_color_print hr hg hb d
  have ho4 : parseBlockWith (parseValue fuel) fuel
      (Value.print_pdx_script (.color r g b) d ++ c :: rest) = none :=
    parseBlockWith_color_print (parseValue fuel) fuel hr hg d
  have hkeep : (some (Value.listing [.ident r, .ident g, .ident b], c :: rest)
        : Option (Value × List Char)) = none ∨
      ∃ w rem, (some (Value.listing [.ident r, .ident g, .ident b], c :: rest)
        : Option (Value × List Char)) = some (w, rem ++ c :: rest) :=
    Or.inr ⟨Value.listing [.ident r, .ident g, .ident b], [], rfl⟩
  rw [parseValue]
  simp only [pickLongest, List.foldl_cons, List.foldl_nil]
  rw [ho1, ho2, ho3, ho4, ho5, ho6]
  rw [orLongest_none_right, orLongest_none_right, orLongest_none_right,
    orLongest_none_left, orLongest_none_left, orLongest_keep hkeep]

theorem parseValue_print_listing (fuel : Nat) {es : List ListElem} {c : Char}
    {rest : List Char} (hwf : wfValue (.listing es) = true) (hc : isWs c = true) (d : Nat) :
    parseValue (fuel + 1) (Value.print_pdx_script (.listing es) d ++ c :: rest)
      = some (.listing es, c :: rest) := by
  have hwf2 : (!es.isEmpty && es.all wfElem
      && !(es.length == 3 && es.all elemDigits)) = true := by
    simpa [wfValue] using hwf
  simp only [Bool.and_eq_true] at hwf2
  obtain ⟨⟨hne0, hall⟩, hnc0⟩ := hwf2
  have hne : es.isEmpty = false := by simpa using hne0
  have hnc : (es.length == 3 && es.all elemDigits) = false := by
    cases hx : (es.length == 3 && es.all elemDigits) with
    | false => rfl
    | true => rw [hx] at hnc0; simp at hnc0
  match es, hne, hall, hnc with
  | [e], _, hall, _ =>
      have he : wfElem e = true := by simpa using hall
      have hshape : Value.print_pdx_script (.listing [e]) d ++ c :: rest
          = '{' :: (' ' :: (e.print_pdx_script ++ ' ' :: '}' :: (c :: rest))) := by
        rw [Value.print_pdx_script]
        simp
      obtain ⟨ho1, ho5, ho6⟩ := valueAlts_fail_brace hshape
      rw [parseValue]
      simp only [pickLongest, List.foldl_cons, List.foldl_nil]
      rw [ho1, parseColor_listing_single he d, parseListing_print_single he d,
        parseBlockWith_listing_single (parseValue fuel) fuel he d, ho5, ho6]
      rw [orLongest_none_right, orLongest_none_right, orLongest_none_right,
        orLongest_none_right, orLongest_none_left, orLongest_none_left]
  | e1 :: e2 :: es2, _, hall, hnc =>
      have hwall : ∀ e ∈ e1 :: e2 :: es2, wfElem e = true := by
        intro e hee
        exact List.all_eq_true.mp hall e hee
      have hnc2 : ((e1 :: e2 :: es2).length == 3
          && (e1 :: e2 :: es2).all elemDigits) = false := hnc
      have hshape : Value.print_pdx_script (.listing (e1 :: e2 :: es2)) d ++ c :: rest
          = '{' :: ('\n' :: (printElems (e1 :: e2 :: es2) d ++ tabs d
              ++ '}' :: (c :: rest))) := by
        rw [Value.print_pdx_script]
        simp
      obtain ⟨ho1, ho5, ho6⟩ := valueAlts_fail_brace hshape
      rw [parseValue]
      simp only [pickLongest, List.foldl_cons, List.foldl_nil]
      rw [ho1, parseColor_listing_multi hwall hnc2 d, parseListing_print_multi hwall d,
        parseBlockWith_listing_multi (parseValue fuel) fuel hwall d, ho5, ho6]
      rw [orLongest_none_right, orLongest_none_right, orLongest_none_right,
        orLongest_none_right, orLongest_none_left, orLongest_none_left]

theorem band_true_elim {a b : Bool} (h : (a && b) = true) : a = true ∧ b = true := by
  cases a <;> cases b <;> simp_all

theorem one_le_neededV (v : Value) : 1 ≤ neededV v := by
  cases v <;> simp [neededV]

theorem length_le_neededEs (es : List Expression) : es.length ≤ neededEs es := by
  induction es with
  | nil => simp [neededEs]
  | cons e es ih =>
      obtain ⟨lhs, rhs⟩ := e
      rw [neededEs]
      simp only [List.length_cons]
      have := one_le_neededV rhs
      omega

theorem printEntries_eq_printsAt (es : List Expression) (d : Nat) :
    printEntries es d = printsAt es (d + 1) := by
  induction es with
  | nil => rfl
  | cons e es ih => rw [printEntries, printsAt, ih]

theorem parseExpressionWith_fail_rbrace (P : List Char → Option (Value × List Char))
    {s r : List Char} (h : skipWs s = '}' :: r) :
    parseExpressionWith P s = none :=
  parseExpressionWith_fail_ident P (parseIdentRaw_fail h (by decide))

theorem parseExpressionWith_print_step (P : List Char → Option (Value × List Char))
    {lhs : String} {rhs v : Value} {pre REST : List Char} {D : Nat}
    (hl : wfWord lhs = true) (hpre : ∀ x ∈ pre, isWs x = true)
    (hP : P (' ' :: (Value.print_pdx_script rhs D ++ '\n' :: REST)) = some (v, '\n' :: REST)) :
    parseExpressionWith P (pre ++ (Expression.print_pdx_script (.mk lhs rhs) D ++ REST))
      = some (.mk lhs v, '\n' :: REST) := by
  have hshape : pre ++ (Expression.print_pdx_script (.mk lhs rhs) D ++ REST)
      = (pre ++ tabs D) ++ (lhs.data ++ ' ' :: ('=' :: (' ' ::
          (Value.print_pdx_script rhs D ++ '\n' :: REST)))) := by
    rw [Expression.print_pdx_script]
    simp
  have hpre2 : ∀ x ∈ pre ++ tabs D, isWs x = true := by
    intro x hx
    rcases List.mem_append.mp hx with hx | hx
    · exact hpre x hx
    · exact tabs_ws _ x hx
  have hid : parseIdentRaw ((pre ++ tabs D) ++ (lhs.data ++ ' ' :: ('=' :: (' ' ::
      (Value.print_pdx_script rhs D ++ '\n' :: REST)))))
      = some (lhs, ' ' :: ('=' :: (' ' ::
          (Value.print_pdx_script rhs D ++ '\n' :: REST)))) := by
    rw [parseIdentRaw_congr (skipWs_append_ws hpre2 _)]
    exact parseIdentRaw_print hl (by decide)
  have hlit : parseLit '='
      (' ' :: ('=' :: (' ' :: (Value.print_pdx_script rhs D ++ '\n' :: REST))))
      = some (' ' :: (Value.print_pdx_script rhs D ++ '\n' :: REST)) := by
    rw [parseLit_eval '=' (by
      rw [skipWs_cons_of_ws (by decide)]
      exact skipWs_cons_of_other (by decide) (by decide) _)]
    simp
  rw [hshape, parseExpressionWith, hid]
  simp only [hlit, hP]

theorem parseValue_block_empty (f : Nat) {c : Char} {rest : List Char} (hc : isWs c = true)
    (d : Nat) :
    parseValue (f + 1) (Value.print_pdx_script (.block []) d ++ c :: rest)
      = some (.block [], c :: rest) := by
  have hshape : Value.print_pdx_script (.block []) d ++ c :: rest
      = '{' :: (' ' :: ('}' :: (c :: rest))) := by
    rw [Value.print_pdx_script]
    rfl
  obtain ⟨ho1, ho5, ho6⟩ := @valueAlts_fail_brace ('{' :: (' ' :: ('}' :: (c :: rest))))
    (' ' :: ('}' :: (c :: rest))) rfl
  have hlit : parseLit '{' ('{' :: (' ' :: ('}' :: (c :: rest))))
      = some (' ' :: ('}' :: (c :: rest))) := by
    rw [parseLit_eval '{' (skipWs_cons_of_other (by decide) (by decide) _)]
    simp
  have hsk : skipWs (' ' :: ('}' :: (c :: rest))) = '}' :: (c :: rest) := by
    rw [skipWs_cons_of_ws (by decide)]
    exact skipWs_cons_of_other (by decide) (by decide) _
  have ho4 : parseBlockWith (parseValue f) f ('{' :: (' ' :: ('}' :: (c :: rest))))
      = some (.block [], c :: rest) := by
    rw [parseBlockWith, hlit]
    simp only [parseExpressionsWith_stop (parseValue f)
      (parseExpressionWith_fail_rbrace (parseValue f) hsk) f]
    rw [parseLit_eval '}' hsk]
    simp
  rw [hshape, parseValue]
  simp only [pickLongest, List.foldl_cons, List.foldl_nil]
  rw [ho1, parseColor_empty_braces (c :: rest), parseListing_empty_braces (c :: rest),
    ho4, ho5, ho6]
  rw [orLongest_none_right, orLongest_none_right, orLongest_none_right,
    orLongest_none_right, orLongest_none_left, orLongest_none_left]

theorem parseValue_block_single (f : Nat) {lhs : String} {rhs : Value} {c : Char}
    {rest : List Char} {d : Nat}
    (hl : wfWord lhs = true) (hc : isWs c = true) (hf : 1 ≤ f)
    (hshape : Value.print_pdx_script (.block [.mk lhs rhs]) d ++ c :: rest
        = '{' :: (' ' :: (lhs.data ++ ' ' :: ('=' :: (' ' ::
            (Value.print_pdx_script rhs 0 ++ ' ' :: ('}' :: (c :: rest))))))))
    (hP : parseValue f (Value.print_pdx_script rhs 0 ++ ' ' :: ('}' :: (c :: rest)))
        = some (rhs, ' ' :: ('}' :: (c :: rest)))) :
    parseValue (f + 1) (Value.print_pdx_script (.block [.mk lhs rhs]) d ++ c :: rest)
      = some (.block [.mk lhs rhs], c :: rest) := by
  obtain ⟨ho1, ho5, ho6⟩ := @valueAlts_fail_brace
    ('{' :: (' ' :: (lhs.data ++ ' ' :: ('=' :: (' ' ::
      (Value.print_pdx_script rhs 0 ++ ' ' :: ('}' :: (c :: rest))))))))
    (' ' :: (lhs.data ++ ' ' :: ('=' :: (' ' ::
      (Value.print_pdx_script rhs 0 ++ ' ' :: ('}' :: (c :: rest))))))) rfl
  have ho2 : parseColor ('{' :: (' ' :: (lhs.data ++ ' ' :: ('=' :: (' ' ::
      (Value.print_pdx_script rhs 0 ++ ' ' :: ('}' :: (c :: rest)))))))) = none :=
    parseColor_inline_entry hl
  have ho3 : parseListing ('{' :: (' ' :: (lhs.data ++ ' ' :: ('=' :: (' ' ::
      (Value.print_pdx_script rhs 0 ++ ' ' :: ('}' :: (c :: rest)))))))) = none :=
    parseListing_inline_entry hl
  have hlit : parseLit '{' ('{' :: (' ' :: (lhs.data ++ ' ' :: ('=' :: (' ' ::
      (Value.print_pdx_script rhs 0 ++ ' ' :: ('}' :: (c :: rest))))))))
      = some (' ' :: (lhs.data ++ ' ' :: ('=' :: (' ' ::
          (Value.print_pdx_script rhs 0 ++ ' ' :: ('}' :: (c :: rest))))))) := by
    rw [parseLit_eval '{' (skipWs_cons_of_other (by decide) (by decide) _)]
    simp
  have hid : parseIdentRaw (' ' :: (lhs.data ++ ' ' :: ('=' :: (' ' ::
      (Value.print_pdx_script rhs 0 ++ ' ' :: ('}' :: (c :: rest)))))))
      = some (lhs, ' ' :: ('=' :: (' ' ::
          (Value.print_pdx_script rhs 0 ++ ' ' :: ('}' :: (c :: rest)))))) := by
    rw [parseIdentRaw_congr (skipWs_cons_of_ws (by decide) _)]
    exact parseIdentRaw_print hl (by decide)
  have hlit2 : parseLit '=' (' ' :: ('=' :: (' ' ::
      (Value.print_pdx_script rhs 0 ++ ' ' :: ('}' :: (c :: rest))))))
      = some (' ' :: (Value.print_pdx_script rhs 0 ++ ' ' :: ('}' :: (c :: rest)))) := by
    rw [parseLit_eval '=' (by
      rw [skipWs_cons_of_ws (by decide)]
      exact skipWs_cons_of_other (by decide) (by decide) _)]
    simp
  have hPX : parseValue f
      (' ' :: (Value.print_pdx_script rhs 0 ++ ' ' :: ('}' :: (c :: rest))))
      = some (rhs, ' ' :: ('}' :: (c :: rest))) := by
    rw [parseValue_congr f (skipWs_cons_of_ws (by decide) _)]
    exact hP
  have hstep : parseExpressionWith (parseValue f) (' ' :: (lhs.data ++ ' ' :: ('=' :: (' ' ::
      (Value.print_pdx_script rhs 0 ++ ' ' :: ('}' :: (c :: rest)))))))
      = some (.mk lhs rhs, ' ' :: ('}' :: (c :: rest))) := by
    rw [parseExpressionWith, hid]
    simp only [hlit2, hPX]
  have hsk2 : skipWs (' ' :: ('}' :: (c :: rest))) = '}' :: (c :: rest) := by
    rw [skipWs_cons_of_ws (by decide)]
    exact skipWs_cons_of_other (by decide) (by decide) _
  have ho4 : parseBlockWith (parseValue f) f ('{' :: (' ' :: (lhs.data ++ ' ' :: ('=' :: (' ' ::
      (Value.print_pdx_script rhs 0 ++ ' ' :: ('}' :: (c :: rest))))))))
      = some (.block [.mk lhs rhs], c :: rest) := by
    cases f with
    | zero => omega
    | succ lf =>
        have hloop1 : parseExpressionsWith (parseValue (lf + 1)) (lf + 1)
            (' ' :: (lhs.data ++ ' ' :: ('=' :: (' ' ::
              (Value.print_pdx_script rhs 0 ++ ' ' :: ('}' :: (c :: rest)))))))
            = ([.mk lhs rhs], ' ' :: ('}' :: (c :: rest))) := by
          rw [parseExpressionsWith]
          simp only [hstep]
          simp only [parseExpressionsWith_stop (parseValue (lf + 1))
            (parseExpressionWith_fail_rbrace (parseValue (lf + 1)) hsk2) lf]
        rw [parseBlockWith, hlit]
        simp only [hloop1]
        rw [parseLit_eval '}' hsk2]
        simp
  rw [hshape, parseValue]
  simp only [pickLongest, List.foldl_cons, List.foldl_nil]
  rw [ho1, ho2, ho3, ho4, ho5, ho6]
  rw [orLongest_none_right, orLongest_none_right, orLongest_none_right,
    orLongest_none_right, orLongest_none_left, orLongest_none_left]

theorem parseValue_block_multiline (f : Nat) {lhs : String} {rhs : Value}
    {es2 : List Expression} {c : Char} {rest : List Char} {d : Nat}
    (hl : wfWord lhs = true) (hc : isWs c = true)
    (hshape : Value.print_pdx_script (.block (.mk lhs rhs :: es2)) d ++ c :: rest
        = '{' :: ('\n' :: (printEntries (.mk lhs rhs :: es2) d ++ tabs d
            ++ '}' :: (c :: rest))))
    (hloop : ∃ rem, parseExpressionsWith (parseValue f) f
          ('\n' :: (printEntries (.mk lhs rhs :: es2) d ++ tabs d ++ '}' :: (c :: rest)))
          = (.mk lhs rhs :: es2, rem)
        ∧ skipWs rem = skipWs (tabs d ++ '}' :: (c :: rest))) :
    parseValue (f + 1) (Value.print_pdx_script (.block (.mk lhs rhs :: es2)) d ++ c :: rest)
      = some (.block (.mk lhs rhs :: es2), c :: rest) := by
  obtain ⟨rem, hrec, hskrem⟩ := hloop
  obtain ⟨ho1, ho5, ho6⟩ := @valueAlts_fail_brace
    ('{' :: ('\n' :: (printEntries (.mk lhs rhs :: es2) d ++ tabs d ++ '}' :: (c :: rest))))
    ('\n' :: (printEntries (.mk lhs rhs :: es2) d ++ tabs d ++ '}' :: (c :: rest))) rfl
  have ho2 : parseColor ('{' :: ('\n' :: (printEntries (.mk lhs rhs :: es2) d ++ tabs d
      ++ '}' :: (c :: rest)))) = none := parseColor_entries hl
  have ho3 : parseListing ('{' :: ('\n' :: (printEntries (.mk lhs rhs :: es2) d ++ tabs d
      ++ '}' :: (c :: rest)))) = none := parseListing_entries hl
  have hsuf : skipWs (tabs d ++ '}' :: (c :: rest)) = '}' :: (c :: rest) := by
    rw [skipWs_append_ws (tabs_ws d)]
    exact skipWs_cons_of_other (by decide) (by decide) _
  have hlit : parseLit '{' ('{' :: ('\n' :: (printEntries (.mk lhs rhs :: es2) d ++ tabs d
      ++ '}' :: (c :: rest))))
      = some ('\n' :: (printEntries (.mk lhs rhs :: es2) d ++ tabs d
          ++ '}' :: (c :: rest))) := by
    rw [parseLit_eval '{' (skipWs_cons_of_other (by decide) (by decide) _)]
    simp
  have ho4 : parseBlockWith (parseValue f) f ('{' :: ('\n' ::
      (printEntries (.mk lhs rhs :: es2) d ++ tabs d ++ '}' :: (c :: rest))))
      = some (.block (.mk lhs rhs :: es2), c :: rest) := by
    rw [parseBlockWith, hlit]
    simp only [hrec]
    rw [parseLit_eval '}' (hskrem.trans hsuf)]
    simp
  rw [hshape, parseValue]
  simp only [pickLongest, List.foldl_cons, List.foldl_nil]
  rw [ho1, ho2, ho3, ho4, ho5, ho6]
  rw [orLongest_none_right, orLongest_none_right, orLongest_none_right,
    orLongest_none_right, orLongest_none_left, orLongest_none_left]

mutual

/-- Round trip for a single printed value followed by a whitespace
character: every alternative of `_RHS` either fails or consumes no more
than the original production, which wins the tie by priority. -/
theorem parseValue_rt (v : Value) : ∀ (fuel d : Nat) (c : Char) (rest : List Char),
    wfValue v = true → isWs c = true → neededV v ≤ fuel →
    parseValue fuel (Value.print_pdx_script v d ++ c :: rest) = some (v, c :: rest) := by
  intro fuel d c rest hwf hc hfuel
  cases fuel with
  | zero =>
      have := one_le_neededV v
      omega
  | succ f =>
      match v, hwf with
      | .ident s, hwf =>
          have h2 : wfWord s = true ∧ fullNumberShape s.data = false := by
            have := hwf
            rw [wfValue] at this
            rcases band_true_elim this with ⟨h1, h2⟩
            exact ⟨h1, by simpa using h2⟩
          exact parseValue_print_ident f h2.1 h2.2 hc d
      | .str s, hwf => exact parseValue_print_str f (by simpa [wfValue] using hwf) hc d
      | .num n, hwf => exact parseValue_print_num f (by simpa [wfValue] using hwf) hc d
      | .listing ls, hwf => exact parseValue_print_listing f hwf hc d
      | .color r g b, hwf =>
          have h3 : wfDigits r = true ∧ wfDigits g = true ∧ wfDigits b = true := by
            have := hwf
            rw [wfValue] at this
            rcases band_true_elim this with ⟨h1, hb⟩
            rcases band_true_elim h1 with ⟨hr, hg⟩
            exact ⟨hr, hg, hb⟩
          exact parseValue_print_color f h3.1 h3.2.1 h3.2.2 hc d
      | .block es, hwf =>
          have hwfE : wfEntries es = true := by simpa [wfValue] using hwf
          have hneed : neededEs es ≤ f := by
            rw [neededV] at hfuel
            omega
          have hlen : es.length ≤ f :=
            le_trans (length_le_neededEs es) hneed
          have hsuf : skipWs (tabs d ++ '}' :: (c :: rest)) = '}' :: (c :: rest) := by
            rw [skipWs_append_ws (tabs_ws d)]
            exact skipWs_cons_of_other (by decide) (by decide) _
          have hloop : ∃ rem, parseExpressionsWith (parseValue f) f
                ('\n' :: (printEntries es d ++ tabs d ++ '}' :: (c :: rest))) = (es, rem)
              ∧ skipWs rem = skipWs (tabs d ++ '}' :: (c :: rest)) := by
            obtain ⟨rem, h1, h2⟩ := parseEntries_rt es f f (d + 1) ['\n']
              (tabs d ++ '}' :: (c :: rest)) hwfE hneed hlen
              (by intro x hx; simp at hx; subst hx; rfl)
              (parseExpressionWith_fail_rbrace (parseValue f) hsuf)
            refine ⟨rem, ?_, h2⟩
            rw [show ('\n' :: (printEntries es d ++ tabs d ++ '}' :: (c :: rest)) : List Char)
                = ['\n'] ++ (printsAt es (d + 1) ++ (tabs d ++ '}' :: (c :: rest))) from by
              rw [printEntries_eq_printsAt]
              simp]
            exact h1
          match es, hwfE, hneed, hlen, hloop with
          | [], _, _, _, _ => exact parseValue_block_empty f hc d
          | [.mk lhs rhs], hwfE, hneed, hlen, hloop =>
              have hwx : wfWord lhs = true ∧ wfValue rhs = true := by
                rw [wfEntries, wfExpression] at hwfE
                rcases band_true_elim hwfE with ⟨h1, _⟩
                exact band_true_elim h1
              have hneedV : neededV rhs ≤ f := by
                rw [neededEs, neededEs] at hneed
                omega
              have hf1 : 1 ≤ f := by
                rw [neededEs, neededEs] at hneed
                omega
              match rhs, hwx, hneedV, hloop with
              | .ident w, hwx, hneedV, _ =>
                  exact parseValue_block_single f hwx.1 hc hf1
                    (by
                      rw [show Value.print_pdx_script (.block [.mk lhs (.ident w)]) d
                          = '{' :: ' ' :: lhs.data ++ ' ' :: '=' :: ' ' ::
                            Value.print_pdx_script (.ident w) 0 ++ [' ', '}'] from rfl]
                      simp)
                    (parseValue_rt (.ident w) f 0 ' ' ('}' :: (c :: rest)) hwx.2
                      (by decide) hneedV)
              | .str w, hwx, hneedV, _ =>
                  exact parseValue_block_single f hwx.1 hc hf1
                    (by
                      rw [show Value.print_pdx_script (.block [.mk lhs (.str w)]) d
                          = '{' :: ' ' :: lhs.data ++ ' ' :: '=' :: ' ' ::
                            Value.print_pdx_script (.str w) 0 ++ [' ', '}'] from rfl]
                      simp)
                    (parseValue_rt (.str w) f 0 ' ' ('}' :: (c :: rest)) hwx.2
                      (by decide) hneedV)
              | .num w, hwx, hneedV, _ =>
                  exact parseValue_block_single f hwx.1 hc hf1
                    (by
                      rw [show Value.print_pdx_script (.block [.mk lhs (.num w)]) d
                          = '{' :: ' ' :: lhs.data ++ ' ' :: '=' :: ' ' ::
                            Value.print_pdx_script (.num w) 0 ++ [' ', '}'] from rfl]
                      simp)
                    (parseValue_rt (.num w) f 0 ' ' ('}' :: (c :: rest)) hwx.2
                      (by decide) hneedV)
              | .color r2 g2 b2, hwx, hneedV, _ =>
                  exact parseValue_block_single f hwx.1 hc hf1
                    (by
                      rw [show Value.print_pdx_script (.block [.mk lhs (.color r2 g2 b2)]) d
                          = '{' :: ' ' :: lhs.data ++ ' ' :: '=' :: ' ' ::
                            Value.print_pdx_script (.color r2 g2 b2) 0 ++ [' ', '}'] from rfl]
                      simp)
                    (parseValue_rt (.color r2 g2 b2) f 0 ' ' ('}' :: (c :: rest)) hwx.2
                      (by decide) hneedV)
              | .listing ws, hwx, _, hloop =>
                  exact parseValue_block_multiline f hwx.1 hc
                    (by rw [Value.print_pdx_script]; simp) hloop
              | .block bs, hwx, _, hloop =>
                  exact parseValue_block_multiline f hwx.1 hc
                    (by rw [Value.print_pdx_script]; simp) hloop
          | .mk lhs rhs :: e2 :: es3, hwfE, _, _, hloop =>
              have hwx : wfWord lhs = true := by
                rw [wfEntries, wfExpression] at hwfE
                rcases band_true_elim hwfE with ⟨h1, _⟩
                exact (band_true_elim h1).1
              exact parseValue_block_multiline f hwx hc
                (by rw [Value.print_pdx_script]; simp) hloop

/-- Round trip for the expression loop over a printed entry list:
each printed entry is re-parsed as itself and the loop stops exactly at
the suffix. -/
theorem parseEntries_rt (es : List Expression) :
    ∀ (fuel lfuel D : Nat) (pre suffix : List Char),
    wfEntries es = true → neededEs es ≤ fuel → es.length ≤ lfuel →
    (∀ x ∈ pre, isWs x = true) →
    parseExpressionWith (parseValue fuel) suffix = none →
    ∃ rem, parseExpressionsWith (parseValue fuel) lfuel (pre ++ (printsAt es D ++ suffix))
      = (es, rem) ∧ skipWs rem = skipWs suffix := by
  intro fuel lfuel D pre suffix hwf hfe hlen hpre hfail
  match es, hwf, hfe, hlen with
  | [], _, _, _ =>
      refine ⟨pre ++ suffix, ?_, skipWs_append_ws hpre _⟩
      have hfail2 : parseExpressionWith (parseValue fuel) (pre ++ suffix) = none := by
        rw [parseExpressionWith_congr (parseValue fuel) (skipWs_append_ws hpre _)]
        exact hfail
      rw [show (pre ++ (printsAt [] D ++ suffix) : List Char) = pre ++ suffix from by
        rw [printsAt]
        simp]
      exact parseExpressionsWith_stop (parseValue fuel) hfail2 lfuel
  | .mk lhs rhs :: es2, hwf, hfe, hlen =>
      have hwx : wfWord lhs = true ∧ wfValue rhs = true := by
        rw [wfEntries, wfExpression] at hwf
        rcases band_true_elim hwf with ⟨h1, _⟩
        exact band_true_elim h1
      have hwfE2 : wfEntries es2 = true := by
        rw [wfEntries] at hwf
        exact (band_true_elim hwf).2
      have hneedV : neededV rhs ≤ fuel := by
        rw [neededEs] at hfe
        omega
      have hfe2 : neededEs es2 ≤ fuel := by
        rw [neededEs] at hfe
        omega
      cases lfuel with
      | zero => simp at hlen
      | succ lf =>
          have hlen2 : es2.length ≤ lf := by
            simp only [List.length_cons] at hlen
            omega
          have hPv : parseValue fuel
              (' ' :: (Value.print_pdx_script rhs D ++ '\n' :: (printsAt es2 D ++ suffix)))
              = some (rhs, '\n' :: (printsAt es2 D ++ suffix)) := by
            rw [parseValue_congr fuel (skipWs_cons_of_ws (by decide) _)]
            exact parseValue_rt rhs fuel D '\n' (printsAt es2 D ++ suffix) hwx.2
              (by decide) hneedV
          have hstep := parseExpressionWith_print_step (parseValue fuel) hwx.1 hpre hPv
          have hin : (pre ++ (printsAt (.mk lhs rhs :: es2) D ++ suffix) : List Char)
              = pre ++ (Expression.print_pdx_script (.mk lhs rhs) D
                  ++ (printsAt es2 D ++ suffix)) := by
            rw [printsAt]
            simp
          obtain ⟨rem, hrec, hskrem⟩ := parseEntries_rt es2 fuel lf D ['\n'] suffix
            hwfE2 hfe2 hlen2 (by intro x hx; simp at hx; subst hx; rfl) hfail
          have hrec2 : parseExpressionsWith (parseValue fuel) lf
              ('\n' :: (printsAt es2 D ++ suffix)) = (es2, rem) := hrec
          refine ⟨rem, ?_, hskrem⟩
          rw [hin, parseExpressionsWith]
          simp only [hstep, hrec2]

end

mutual

/-- The fuel the re-parse needs is bounded by the printed length. -/
theorem neededV_le_print (v : Value) : ∀ (d : Nat), wfValue v = true →
    neededV v ≤ (Value.print_pdx_script v d).length := by
  intro d hwf
  match v, hwf with
  | .ident s, hwf =>
      have h1 : wfWord s = true := by
        rw [wfValue] at hwf
        exact (band_true_elim hwf).1
      rcases hdata : s.data with _ | ⟨h, t⟩
      · exact absurd hdata (wfWord_ne_nil h1)
      · rw [show neededV (.ident s) = 1 from rfl,
          show Value.print_pdx_script (.ident s) d = s.data from rfl, hdata]
        simp
  | .str s, hwf =>
      have h1 : wfQuoted s = true := by simpa [wfValue] using hwf
      rcases hdata : s.data with _ | ⟨h, t⟩
      · exact absurd hdata (wfQuoted_ne_nil h1)
      · rw [show neededV (.str s) = 1 from rfl,
          show Value.print_pdx_script (.str s) d = s.data from rfl, hdata]
        simp
  | .num n, _ =>
      rcases hpr : n.print_pdx_script with _ | ⟨h, t⟩
      · exact absurd hpr (printNumber_ne_nil n)
      · rw [show neededV (.num n) = 1 from rfl,
          show Value.print_pdx_script (.num n) d = n.print_pdx_script from rfl, hpr]
        simp
  | .color r g b, _ =>
      rw [show neededV (.color r g b) = 1 from rfl,
        show Value.print_pdx_script (.color r g b) d
          = '{' :: ((' ' :: r.data) ++ ' ' :: g.data ++ ' ' :: b.data ++ [' ', '}']) from rfl]
      simp
  | .listing ls, _ =>
      match ls with
      | [] =>
          rw [show neededV (.listing []) = 1 from rfl,
            show Value.print_pdx_script (.listing []) d = ['{', ' ', '}'] from rfl]
          simp
      | [e] =>
          rw [show neededV (.listing [e]) = 1 from rfl,
            show Value.print_pdx_script (.listing [e]) d
              = '{' :: ((' ' :: e.print_pdx_script) ++ [' ', '}']) from rfl]
          simp
      | e1 :: e2 :: ls2 =>
          rw [show neededV (.listing (e1 :: e2 :: ls2)) = 1 from rfl,
            show Value.print_pdx_script (.listing (e1 :: e2 :: ls2)) d
              = '{' :: (('\n' :: printElems (e1 :: e2 :: ls2) d) ++ tabs d ++ ['}'])
              from rfl]
          simp
  | .block es, hwf =>
      have hwfE : wfEntries es = true := by simpa [wfValue] using hwf
      match es, hwfE with
      | [], _ =>
          rw [show neededV (.block []) = 1 + neededEs [] from rfl,
            show neededEs [] = 0 from rfl,
            show Value.print_pdx_script (.block []) d = ['{', ' ', '}'] from rfl]
          simp
      | [.mk lhs rhs], hwfE =>
          have hwx : wfWord lhs = true ∧ wfValue rhs = true := by
            rw [wfEntries, wfExpression] at hwfE
            exact band_true_elim (band_true_elim hwfE).1
          have hlpos : 1 ≤ lhs.data.length := by
            rcases hdata : lhs.data with _ | ⟨h, t⟩
            · exact absurd hdata (wfWord_ne_nil hwx.1)
            · simp
          match rhs, hwx with
          | .ident w, hwx =>
              rw [show neededV (.block [.mk lhs (.ident w)]) = 3 from rfl,
                show Value.print_pdx_script (.block [.mk lhs (.ident w)]) d
                  = '{' :: ((' ' :: lhs.data) ++ ' ' :: '=' :: ' ' ::
                      Value.print_pdx_script (.ident w) 0 ++ [' ', '}']) from rfl]
              simp
              omega
          | .str w, hwx =>
              rw [show neededV (.block [.mk lhs (.str w)]) = 3 from rfl,
                show Value.print_pdx_script (.block [.mk lhs (.str w)]) d
                  = '{' :: ((' ' :: lhs.data) ++ ' ' :: '=' :: ' ' ::
                      Value.print_pdx_script (.str w) 0 ++ [' ', '}']) from rfl]
              simp
              omega
          | .num w, hwx =>
              rw [show neededV (.block [.mk lhs (.num w)]) = 3 from rfl,
                show Value.print_pdx_script (.block [.mk lhs (.num w)]) d
                  = '{' :: ((' ' :: lhs.data) ++ ' ' :: '=' :: ' ' ::
                      Value.print_pdx_script (.num w) 0 ++ [' ', '}']) from rfl]
              simp
              omega
          | .color r2 g2 b2, hwx =>
              rw [show neededV (.block [.mk lhs (.color r2 g2 b2)]) = 3 from rfl,
                show Value.print_pdx_script (.block [.mk lhs (.color r2 g2 b2)]) d
                  = '{' :: ((' ' :: lhs.data) ++ ' ' :: '=' :: ' ' ::
                      Value.print_pdx_script (.color r2 g2 b2) 0 ++ [' ', '}']) from rfl]
              simp
              omega
          | .listing ws, hwx =>
              have hrec := neededEs_le_print [.mk lhs (.listing ws)] (d + 1) hwfE
              rw [show neededV (.block [.mk lhs (.listing ws)])
                  = 1 + neededEs [.mk lhs (.listing ws)] from rfl,
                show Value.print_pdx_script (.block [.mk lhs (.listing ws)]) d
                  = '{' :: (('\n' :: printEntries [.mk lhs (Value.listing ws)] d)
                      ++ tabs d ++ ['}']) from rfl,
                printEntries_eq_printsAt]
              simp only [List.length_cons, List.length_append]
              omega
          | .block bs, hwx =>
              have hrec := neededEs_le_print [.mk lhs (.block bs)] (d + 1) hwfE
              rw [show neededV (.block [.mk lhs (.block bs)])
                  = 1 + neededEs [.mk lhs (.block bs)] from rfl,
                show Value.print_pdx_script (.block [.mk lhs (.block bs)]) d
                  = '{' :: (('\n' :: printEntries [.mk lhs (Value.block bs)] d)
                      ++ tabs d ++ ['}']) from rfl,
                printEntries_eq_printsAt]
              simp only [List.length_cons, List.length_append]
              omega
      | e1 :: e2 :: es3, hwfE =>
          have hrec := neededEs_le_print (e1 :: e2 :: es3) (d + 1) hwfE
          rw [show neededV (.block (e1 :: e2 :: es3))
              = 1 + neededEs (e1 :: e2 :: es3) from rfl,
            Value.print_pdx_script, printEntries_eq_printsAt]
          simp only [List.length_cons, List.length_append]
          omega

/-- Companion bound for entry lists. -/
theorem neededEs_le_print (es : List Expression) : ∀ (d : Nat), wfEntries es = true →
    neededEs es ≤ (printsAt es d).length := by
  intro d hwf
  match es, hwf with
  | [], _ => simp [neededEs, printsAt]
  | .mk lhs rhs :: es2, hwf =>
      have hwx : wfWord lhs = true ∧ wfValue rhs = true := by
        rw [wfEntries, wfExpression] at hwf
        exact band_true_elim (band_true_elim hwf).1
      have hwfE2 : wfEntries es2 = true := by
        rw [wfEntries] at hwf
        exact (band_true_elim hwf).2
      have hlpos : 1 ≤ lhs.data.length := by
        rcases hdata : lhs.data with _ | ⟨h, t⟩
        · exact absurd hdata (wfWord_ne_nil hwx.1)
        · simp
      have h1 := neededV_le_print rhs d hwx.2
      have h2 := neededEs_le_print es2 d hwfE2
      rw [neededEs, printsAt, Expression.print_pdx_script]
      simp only [List.length_append, List.length_cons]
      omega

end

/-- `printForest` is `printsAt` at depth `0`. -/
theorem printForest_eq_printsAt (es : List Expression) : printForest es = printsAt es 0 := by
  induction es with
  | nil => rfl
  | cons e es ih => rw [printForest, printsAt, ih]

/-- Full-file round trip: re-parsing a printed well-formed forest yields
the same forest (`parse_all=True` is satisfied: nothing is left over). -/
theorem parse_print_forest (es : List Expression) (hwf : wfEntries es = true) :
    parse_file (printForest es) = some es := by
  have hfail : parseExpressionWith (parseValue ((printForest es).length + 1)) [] = none :=
    parseExpressionWith_fail_ident _ (parseIdentRaw_fail_nil rfl)
  have hneed : neededEs es ≤ (printForest es).length + 1 := by
    have := neededEs_le_print es 0 hwf
    rw [printForest_eq_printsAt]
    omega
  have hlen : es.length ≤ (printForest es).length + 1 := by
    have h1 := length_le_neededEs es
    omega
  obtain ⟨rem, hrec, hskrem⟩ := parseEntries_rt es ((printForest es).length + 1)
    ((printForest es).length + 1) 0 [] [] hwf hneed hlen (by intro x hx; simp at hx) hfail
  have hrec2 : parseExpressionsWith (parseValue ((printForest es).length + 1))
      ((printForest es).length + 1) (printForest es) = (es, rem) := by
    rw [show ([] ++ (printsAt es 0 ++ []) : List Char) = printForest es from by
      rw [printForest_eq_printsAt]
      simp] at hrec
    exact hrec
  rw [parse_file]
  simp only [hrec2]
  rw [hskrem]
  rfl

end Pdx

namespace EU4

open Pdx

/-! ## Transformer facts -/

theorem process_children_length (m : List (String × PdxNumber)) :
    ∀ es : List Expression, ((process_children m es).1).length = es.length := by
  intro es
  induction es with
  | nil => rfl
  | cons e es ih =>
      rw [process_children]
      rcases hpe : process_expression m e with ⟨e2, d, logs⟩
      rcases hpc : process_children m es with ⟨es2, d2, logs2⟩
      rw [hpc] at ih
      simp only [hpe, hpc, List.length_cons]
      simpa using ih

theorem process_children_nil_dirty (m : List (String × PdxNumber)) :
    (process_children m []).2.1 = false := rfl

theorem process_expression_ignore (m : List (String × PdxNumber)) {lhs : String}
    (rhs : Value) (h : lhs ∈ IGNORE_BLOCKS) :
    process_expression m (.mk lhs rhs) = (.mk lhs rhs, false, []) := by
  rw [process_expression.eq_def]
  simp [h]

theorem process_expression_block (m : List (String × PdxNumber)) {lhs : String}
    (entries : List Expression) (h : lhs ∉ IGNORE_BLOCKS) :
    process_expression m (.mk lhs (.block entries))
      = (.mk lhs (.block (process_children m entries).1),
         (process_children m entries).2.1, (process_children m entries).2.2) := by
  rw [process_expression.eq_def]
  rcases hpc : process_children m entries with ⟨a, b, c⟩
  simp [h, hpc]

theorem process_expression_num (m : List (String × PdxNumber)) {lhs : String}
    (v mult : PdxNumber) (h : lhs ∉ IGNORE_BLOCKS)
    (hm : lookupMod m lhs = some mult) :
    process_expression m (.mk lhs (.num v)) = (.mk lhs (.num (pyMul v mult)), true, []) := by
  rw [process_expression.eq_def]
  simp [h, hm]

theorem process_expression_nomatch (m : List (String × PdxNumber)) {lhs : String}
    (rhs : Value) (h : lhs ∉ IGNORE_BLOCKS) (hm : lookupMod m lhs = none)
    (hnb : ∀ es, rhs ≠ Value.block es) :
    process_expression m (.mk lhs rhs) = (.mk lhs rhs, false, []) := by
  rw [process_expression.eq_def]
  match rhs, hnb with
  | .ident s, _ => simp [h, hm]
  | .str s, _ => simp [h, hm]
  | .num v, _ => simp [h, hm]
  | .color r g b, _ => simp [h, hm]
  | .listing ls, _ => simp [h, hm]
  | .block es, hnb => exact absurd rfl (hnb es)

theorem process_expression_diag (m : List (String × PdxNumber)) {lhs : String}
    (rhs : Value) (mult : PdxNumber) (h : lhs ∉ IGNORE_BLOCKS)
    (hm : lookupMod m lhs = some mult) (hnb : ∀ es, rhs ≠ Value.block es)
    (hnn : ∀ v, rhs ≠ Value.num v) :
    process_expression m (.mk lhs rhs) = (.mk lhs rhs, false, [.mk lhs rhs]) := by
  rw [process_expression.eq_def]
  match rhs, hnb, hnn with
  | .ident s, _, _ => simp [h, hm]
  | .str s, _, _ => simp [h, hm]
  | .color r g b, _, _ => simp [h, hm]
  | .listing ls, _, _ => simp [h, hm]
  | .block es, hnb, _ => exact absurd rfl (hnb es)
  | .num v, _, hnn => exact absurd rfl (hnn v)

mutual

/-- The transformer preserves the numeric-erased skeleton of a single
expression. -/
theorem eraseNums_process_expression (m : List (String × PdxNumber)) (e : Expression) :
    eraseNumsEs [(process_expression m e).1] = eraseNumsEs [e] := by
  obtain ⟨lhs, rhs⟩ := e
  by_cases hign : lhs ∈ IGNORE_BLOCKS
  · rw [process_expression_ignore m rhs hign]
  · match rhs with
    | .block entries =>
        rcases hpc : process_children m entries with ⟨es2, d, logs⟩
        have ih : eraseNumsEs es2 = eraseNumsEs entries := by
          have h0 := eraseNums_process_children m entries
          rw [hpc] at h0
          exact h0
        rw [process_expression_block m entries hign, hpc]
        simp only [eraseNumsEs, eraseNumsV]
        rw [ih]
    | .num v =>
        rcases hm : lookupMod m lhs with _ | mult
        · rw [process_expression_nomatch m (.num v) hign hm
            (fun es h => Value.noConfusion h)]
        · rw [process_expression_num m v mult hign hm]
          simp only [eraseNumsEs, eraseNumsV]
    | .ident s =>
        rcases hm : lookupMod m lhs with _ | mult
        · rw [process_expression_nomatch m (.ident s) hign hm
            (fun es h => Value.noConfusion h)]
        · rw [process_expression_diag m (.ident s) mult hign hm
            (fun es h => Value.noConfusion h) (fun v h => Value.noConfusion h)]
    | .str s =>
        rcases hm : lookupMod m lhs with _ | mult
        · rw [process_expression_nomatch m (.str s) hign hm
            (fun es h => Value.noConfusion h)]
        · rw [process_expression_diag m (.str s) mult hign hm
            (fun es h => Value.noConfusion h) (fun v h => Value.noConfusion h)]
    | .color r g b =>
        rcases hm : lookupMod m lhs with _ | mult
        · rw [process_expression_nomatch m (.color r g b) hign hm
            (fun es h => Value.noConfusion h)]
        · rw [process_expression_diag m (.color r g b) mult hign hm
            (fun es h => Value.noConfusion h) (fun v h => Value.noConfusion h)]
    | .listing ls =>
        rcases hm : lookupMod m lhs with _ | mult
        · rw [process_expression_nomatch m (.listing ls) hign hm
            (fun es h => Value.noConfusion h)]
        · rw [process_expression_diag m (.listing ls) mult hign hm
            (fun es h => Value.noConfusion h) (fun v h => Value.noConfusion h)]

/-- The transformer preserves the numeric-erased skeleton of a list. -/
theorem eraseNums_process_children (m : List (String × PdxNumber)) (es : List Expression) :
    eraseNumsEs ((process_children m es).1) = eraseNumsEs es := by
  match es with
  | [] => rfl
  | e :: es2 =>
      rcases hpe : process_expression m e with ⟨e2, d, logs⟩
      rcases hpc : process_children m es2 with ⟨es3, d2, logs2⟩
      have ih1 : eraseNumsEs [e2] = eraseNumsEs [e] := by
        have h0 := eraseNums_process_expression m e
        rw [hpe] at h0
        exact h0
      have ih2 : eraseNumsEs es3 = eraseNumsEs es2 := by
        have h0 := eraseNums_process_children m es2
        rw [hpc] at h0
        exact h0
      rw [process_children]
      simp only [hpe, hpc]
      obtain ⟨l1, r1⟩ := e2
      obtain ⟨l0, r0⟩ := e
      simp only [eraseNumsEs] at ih1 ⊢
      injection ih1 with h1 _
      rw [h1, ih2]

end

theorem writes_output_iff (m : List (String × PdxNumber)) (tree : List Expression) :
    writes_output m tree = (process_children m tree).2.1 := by
  rw [writes_output, process_file]
  rcases hpc : process_children m tree with ⟨tree2, ch, logs⟩
  simp only []
  cases ch with
  | false => rfl
  | true =>
      cases tree with
      | nil =>
          have h0 : (process_children m ([] : List Expression)).2.1 = false := rfl
          rw [hpc] at h0
          simp at h0
      | cons e ts =>
          have hlen := process_children_length m (e :: ts)
          rw [hpc] at hlen
          cases tree2 with
          | nil => simp at hlen
          | cons a as => rfl

theorem process_static_length (m : List (String × PdxNumber)) (ignore : List String) :
    ∀ (tree tree2 : List Expression) (ch : Bool) (logs : List Expression),
    process_static m ignore tree = some (tree2, ch, logs) → tree2.length = tree.length := by
  intro tree
  induction tree with
  | nil =>
      intro tree2 ch logs h
      rw [process_static] at h
      injection h with h2
      cases h2
      rfl
  | cons e es ih =>
      intro tree2 ch logs h
      rw [process_static] at h
      cases hs : static_step m ignore e with
      | none =>
          rw [hs] at h
          simp at h
      | some r =>
          obtain ⟨e2, d, logs1⟩ := r
          rw [hs] at h
          cases hp : process_static m ignore es with
          | none =>
              rw [hp] at h
              simp at h
          | some r2 =>
              obtain ⟨es2, d2, logs3⟩ := r2
              rw [hp] at h
              injection h with h2
              cases h2
              simp only [List.length_cons]
              rw [ih es2 d2 logs3 hp]

theorem static_writes_iff (m : List (String × PdxNumber)) (ignore : List String)
    {tree tree2 : List Expression} {ch : Bool} {logs : List Expression}
    (hps : process_static m ignore tree = some (tree2, ch, logs)) :
    writes_output_full "static_modifiers" m ignore tree = some ch := by
  rw [writes_output_full, process_file_full, if_pos rfl, process_static_file, hps]
  cases ch with
  | false => simp
  | true =>
      cases tree with
      | nil =>
          rw [show process_static m ignore [] = some ([], false, []) from rfl] at hps
          injection hps with h2
          injection h2 with ha hb
          injection hb with hb1 hb2
          exact absurd hb1 (by simp)
      | cons e ts =>
          have hlen := process_static_length m ignore (e :: ts) tree2 true logs hps
          cases tree2 with
          | nil => simp at hlen
          | cons a as => rfl

theorem static_step_ignored (m : List (String × PdxNumber)) (ignore : List String)
    {lhs : String} (entries : List Expression) (h : lhs ∈ ignore) :
    static_step m ignore (.mk lhs (.block entries))
      = some (.mk lhs (.block entries), false, []) := by
  rw [static_step.eq_def]
  simp [h]

theorem static_step_processed (m : List (String × PdxNumber)) (ignore : List String)
    {lhs : String} (entries : List Expression) (h : lhs ∉ ignore) :
    static_step m ignore (.mk lhs (.block entries))
      = some (.mk lhs (.block (process_children m entries).1),
          (process_children m entries).2.1, (process_children m entries).2.2) := by
  rw [static_step.eq_def]
  rcases hpc : process_children m entries with ⟨a, b, c⟩
  simp [h, hpc]

theorem static_step_nonblock (m : List (String × PdxNumber)) (ignore : List String)
    {lhs : String} (rhs : Value) (hnb : ∀ es, rhs ≠ Value.block es) :
    static_step m ignore (.mk lhs rhs) = none := by
  rw [static_step.eq_def]
  match rhs, hnb with
  | .ident s, _ => rfl
  | .str s, _ => rfl
  | .num v, _ => rfl
  | .color r g b, _ => rfl
  | .listing ls, _ => rfl
  | .block es, hnb => exact absurd rfl (hnb es)

end EU4

open Pdx EU4

/-- C10: an rhs of `{` and `}` with only whitespace between them parses as
the empty `Block` (zero entries) and never as a `Listing`: the `Listing`
production, requiring at least one element, fails on such input. -/
theorem C10_empty_braces_block (fuel : Nat) {w rest : List Char}
    (hw : ∀ x ∈ w, isWs x = true) :
    parseValue (fuel + 1) ('{' :: (w ++ '}' :: rest)) = some (.block [], rest) ∧
    parseListing ('{' :: (w ++ '}' :: rest)) = none := by
  have hsk : skipWs (w ++ '}' :: rest) = '}' :: rest := by
    rw [skipWs_append_ws hw]
    exact skipWs_cons_of_other (by decide) (by decide) _
  have hlit : parseLit '{' ('{' :: (w ++ '}' :: rest)) = some (w ++ '}' :: rest) := by
    rw [parseLit_eval '{' (skipWs_cons_of_other (by decide) (by decide) _)]
    simp
  have ho3 : parseListing ('{' :: (w ++ '}' :: rest)) = none :=
    parseListing_stuck1 hlit (parseListElem_fail hsk (by decide) (by decide))
  refine ⟨?_, ho3⟩
  have ho2 : parseColor ('{' :: (w ++ '}' :: rest)) = none :=
    parseColor_stuck1 hlit (parseWordNums_fail hsk (by decide))
  have ho4 : parseBlockWith (parseValue fuel) fuel ('{' :: (w ++ '}' :: rest))
      = some (.block [], rest) := by
    rw [parseBlockWith, hlit]
    simp only [parseExpressionsWith_stop (parseValue fuel)
      (parseExpressionWith_fail_rbrace (parseValue fuel) hsk) fuel]
    rw [parseLit_eval '}' hsk]
    simp
  obtain ⟨ho1, ho5, ho6⟩ := @valueAlts_fail_brace ('{' :: (w ++ '}' :: rest))
    (w ++ '}' :: rest) rfl
  rw [parseValue]
  simp only [pickLongest, List.foldl_cons, List.foldl_nil]
  rw [ho1, ho2, ho3, ho4, ho5, ho6]
  rw [orLongest_none_right, orLongest_none_right, orLongest_none_right,
    orLongest_none_right, orLongest_none_left, orLongest_none_left]

/-- Witness for C10 at the concrete rhs text `{ }` (a single blank between
the braces). -/
theorem C10_empty_braces_block_witness :
    parseValue 1 ('{' :: ([' '] ++ '}' :: [])) = some (.block [], []) ∧
    parseListing ('{' :: ([' '] ++ '}' :: [])) = none :=
  C10_empty_braces_block 0 (by intro x hx; simp at hx; subst hx; rfl)

/-- C1 (counterexample): the forest `[a = Listing []]` serializes to
`a = { }\n`, which re-parses as `[a = Block []]` — a different tree, with
no `Number` node involved, so the claimed reformatting exception does not
cover it.  A second divergence outside the reformatting exception:
`Number(1e-05)` serializes in scientific notation (`str(1e-05)` is
`1e-05`), and that literal is not a `_NUMBER` token, so it re-parses as an
`Identifier` — a change of node kind. -/
theorem C1_round_trip_counterexample :
    (printForest [.mk "a" (.listing [])] = "a = { }\n".data ∧
      parse_file (printForest [.mk "a" (.listing [])]) = some [.mk "a" (.block [])] ∧
      (Expression.mk "a" (.block []) : Expression) ≠ .mk "a" (.listing [])) ∧
    (printForest [.mk "x" (.num (.float (mkRat 1 100000)))] = "x = 1e-05\n".data ∧
      parse_file (printForest [.mk "x" (.num (.float (mkRat 1 100000)))])
        = some [.mk "x" (.ident "1e-05")] ∧
      (Expression.mk "x" (.ident "1e-05") : Expression)
        ≠ .mk "x" (.num (.float (mkRat 1 100000)))) := by
  refine ⟨⟨rfl, rfl, ?_⟩, rfl, rfl, ?_⟩
  · intro h
    injection h with h1 h2
    exact Value.noConfusion h2
  · intro h
    injection h with h1 h2
    exact Value.noConfusion h2

/-- C1 (amended): the round trip `parse_file (printForest es) = some es`
holds for every grammatically well-formed forest (`wfEntries`): lexically
valid words and strings, no empty or all-digit-triple `Listing`, no rhs
identifier that is a complete `_NUMBER` match, and floats that are
decimal-finite and inside `str()`'s fixed-notation range (zero or
magnitude in `[1e-4, 1e16)` — outside it the serialized scientific
literal re-parses as an `Identifier`).  The embedding prints such
rationals exactly, so no reformatting slack is needed. -/
theorem C1_round_trip_wf (es : List Expression) (hwf : wfEntries es = true) :
    parse_file (printForest es) = some es :=
  parse_print_forest es hwf

/-- Witness for C1 on a forest exercising every `Value` shape: nested
blocks, a multi-element listing, a color, a string, an identifier, an
integer and a float. -/
theorem C1_round_trip_wf_witness :
    wfEntries
      [.mk "a" (.block [.mk "b" (.num (.float (mkRat 3 2))),
          .mk "c" (.listing [.ident "x", .str "\"y z\""])]),
        .mk "d" (.color "1" "22" "3"),
        .mk "e" (.block []),
        .mk "f" (.ident "yes"),
        .mk "g" (.num (.int (-7)))] = true ∧
    parse_file (printForest
      [.mk "a" (.block [.mk "b" (.num (.float (mkRat 3 2))),
          .mk "c" (.listing [.ident "x", .str "\"y z\""])]),
        .mk "d" (.color "1" "22" "3"),
        .mk "e" (.block []),
        .mk "f" (.ident "yes"),
        .mk "g" (.num (.int (-7)))])
      = some
      [.mk "a" (.block [.mk "b" (.num (.float (mkRat 3 2))),
          .mk "c" (.listing [.ident "x", .str "\"y z\""])]),
        .mk "d" (.color "1" "22" "3"),
        .mk "e" (.block []),
        .mk "f" (.ident "yes"),
        .mk "g" (.num (.int (-7)))] :=
  ⟨by decide, C1_round_trip_wf _ (by decide)⟩

/-- C3: the rhs choice is longest-match with ties to the earlier
alternative, over the six productions in the order Number, Color, Listing,
Block, Identifier, String; `10` parses as `Number 10`, `1.5.2` (which
`_NUMBER` cannot consume entirely) as an `Identifier`. -/
theorem C3_longest_match_priority :
    (∀ (v w : Value) (r1 r2 : List Char),
        orLongest (some (v, r1)) (some (w, r2))
          = if r2.length < r1.length then some (w, r2) else some (v, r1)) ∧
    (∀ (fuel : Nat) (s : List Char),
        parseValue (fuel + 1) s
          = pickLongest [parseNumber s, parseColor s, parseListing s,
              parseBlockWith (parseValue fuel) fuel s,
              parseIdentValue s, parseStringValue s]) ∧
    parse_file "a = 10\n".data = some [.mk "a" (.num (.int 10))] ∧
    parse_file "a = 1.5.2\n".data = some [.mk "a" (.ident "1.5.2")] :=
  ⟨fun _ _ _ _ => rfl, fun _ _ => rfl, rfl, rfl⟩

/-- C2: an expression whose lhs is in `IGNORE_BLOCKS` is returned exactly
as it was — the transformer does not descend into the rhs subtree, reports
no dirty flag and prints nothing, whatever the rhs contains. -/
theorem C2_ignore_block_no_descend (m : List (String × PdxNumber)) (lhs : String)
    (rhs : Value) (h : lhs ∈ IGNORE_BLOCKS) :
    process_expression m (.mk lhs rhs) = (.mk lhs rhs, false, []) :=
  process_expression_ignore m rhs h

/-- Witness for C2 at the spec's example: `trigger = { always = yes
some_modifier = 5 }` with `some_modifier ↦ 10` keeps the 5. -/
theorem C2_ignore_block_no_descend_witness :
    "trigger" ∈ IGNORE_BLOCKS ∧
    process_expression [("some_modifier", PdxNumber.int 10)]
        (.mk "trigger" (.block [.mk "always" (.ident "yes"),
          .mk "some_modifier" (.num (.int 5))]))
      = (.mk "trigger" (.block [.mk "always" (.ident "yes"),
          .mk "some_modifier" (.num (.int 5))]), false, []) :=
  ⟨by decide, C2_ignore_block_no_descend _ _ _ (by decide)⟩

/-- C4 (counterexample): with the override table keyed by the
post-expansion concrete name `estate_church_influence`, the emitted entry
still carries the global default — `load_modifiers` consults
`alternatives` only under the pre-expansion template `ident`. -/
theorem C4_override_counterexample :
    lookupMod [("estate_church_influence", PdxNumber.int 7)] "estate_church_influence"
      = some (.int 7) ∧
    load_modifiers ["estate_<estate>_influence"] (.int 2) []
        [("estate_church_influence", .int 7)] [] ["church", "nobility"] [] []
      = [("estate_church_influence", .int 2), ("estate_nobility_influence", .int 2)] :=
  ⟨rfl, rfl⟩

/-- C4 (amended): a placeholder line emits exactly one entry per element
of the matching discovered set, substituting the element into the
surrounding text; a line with no placeholder emits a single entry; the
multiplier of every emitted entry is the override looked up under the
pre-expansion template only (not under the concrete expanded key), else
the global default. -/
theorem C4_placeholder_expansion :
    (∀ (mult : PdxNumber) (alts : List (String × PdxNumber))
        (tech est fac pow : List String) (ident b a : String),
        regexSplit "<estate>" ident = some (b, a) →
        expandLine mult alts tech est fac pow ident
          = est.map (fun e => (b ++ e ++ a, (lookupMod alts ident).getD mult))) ∧
    (∀ (mult : PdxNumber) (alts : List (String × PdxNumber))
        (tech est fac pow : List String) (ident b a : String),
        regexSplit "<estate>" ident = none →
        regexSplit "<faction>" ident = some (b, a) →
        expandLine mult alts tech est fac pow ident
          = fac.map (fun f => (b ++ f ++ a, (lookupMod alts ident).getD mult))) ∧
    (∀ (mult : PdxNumber) (alts : List (String × PdxNumber))
        (tech est fac pow : List String) (ident b a : String),
        regexSplit "<estate>" ident = none →
        regexSplit "<faction>" ident = none →
        regexSplit "<government_power_type_id>" ident = some (b, a) →
        expandLine mult alts tech est fac pow ident
          = pow.map (fun p => (b ++ p ++ a, (lookupMod alts ident).getD mult))) ∧
    (∀ (mult : PdxNumber) (alts : List (String × PdxNumber))
        (tech est fac pow : List String) (ident b a : String),
        regexSplit "<estate>" ident = none →
        regexSplit "<faction>" ident = none →
        regexSplit "<government_power_type_id>" ident = none →
        regexSplit "<tech>" ident = some (b, a) →
        expandLine mult alts tech est fac pow ident
          = tech.map (fun t => (b ++ t ++ a, (lookupMod alts ident).getD mult))) ∧
    (∀ (mult : PdxNumber) (alts : List (String × PdxNumber))
        (tech est fac pow : List String) (ident : String),
        regexSplit "<estate>" ident = none →
        regexSplit "<faction>" ident = none →
        regexSplit "<government_power_type_id>" ident = none →
        regexSplit "<tech>" ident = none →
        expandLine mult alts tech est fac pow ident
          = [(ident, (lookupMod alts ident).getD mult)]) ∧
    load_modifiers ["estate_<estate>_influence"] (.int 2) [] [] []
        ["church", "nobility"] [] []
      = [("estate_church_influence", .int 2), ("estate_nobility_influence", .int 2)] ∧
    load_modifiers ["estate_<estate>_influence"] (.int 2) []
        [("estate_<estate>_influence", .int 7)] [] ["church", "nobility"] [] []
      = [("estate_church_influence", .int 7), ("estate_nobility_influence", .int 7)] := by
  refine ⟨?_, ?_, ?_, ?_, ?_, rfl, rfl⟩
  · intro mult alts tech est fac pow ident b a h
    rw [expandLine, h]
  · intro mult alts tech est fac pow ident b a h1 h2
    rw [expandLine, h1, h2]
  · intro mult alts tech est fac pow ident b a h1 h2 h3
    rw [expandLine, h1, h2, h3]
  · intro mult alts tech est fac pow ident b a h1 h2 h3 h4
    rw [expandLine, h1, h2, h3, h4]
  · intro mult alts tech est fac pow ident h1 h2 h3 h4
    rw [expandLine, h1, h2, h3, h4]

/-- Witness for C4 at one concrete line per branch: the spec's estate
template, a faction template, a government-power template, a tech
template, and a plain line. -/
theorem C4_placeholder_expansion_witness :
    expandLine (.int 2) [] [] ["church", "nobility"] [] [] "estate_<estate>_influence"
      = [("estate_church_influence", .int 2), ("estate_nobility_influence", .int 2)] ∧
    expandLine (.int 2) [] [] [] ["guilds"] [] "<faction>_influence"
      = [("guilds_influence", .int 2)] ∧
    expandLine (.int 2) [] [] [] [] ["adm"] "monarch_<government_power_type_id>"
      = [("monarch_adm", .int 2)] ∧
    expandLine (.int 2) [] ["adm_tech"] [] [] [] "<tech>_cost_modifier"
      = [("adm_tech_cost_modifier", .int 2)] ∧
    expandLine (.int 2) [] [] [] [] [] "army_tradition" = [("army_tradition", .int 2)] := by
  refine ⟨?_, ?_, ?_, ?_, ?_⟩
  · rw [C4_placeholder_expansion.1 (.int 2) [] [] ["church", "nobility"] [] []
      "estate_<estate>_influence" "estate_" "_influence" (by rfl)]
    rfl
  · rw [C4_placeholder_expansion.2.1 (.int 2) [] [] [] ["guilds"] []
      "<faction>_influence" "" "_influence" (by rfl) (by rfl)]
    rfl
  · rw [C4_placeholder_expansion.2.2.1 (.int 2) [] [] [] [] ["adm"]
      "monarch_<government_power_type_id>" "monarch_" "" (by rfl) (by rfl) (by rfl)]
    rfl
  · rw [C4_placeholder_expansion.2.2.2.1 (.int 2) [] ["adm_tech"] [] [] []
      "<tech>_cost_modifier" "" "_cost_modifier" (by rfl) (by rfl) (by rfl) (by rfl)]
    rfl
  · rw [C4_placeholder_expansion.2.2.2.2.1 (.int 2) [] [] [] [] [] "army_tradition"
      (by rfl) (by rfl) (by rfl) (by rfl)]
    rfl

/-- C5 (counterexample): `x = { x = 5 }` with table `x ↦ 10`: the lhs
matches a table key and the rhs is not a `Number`, yet the transformer
mutates the subtree (the inner 5 becomes 50), reports dirty and prints no
diagnostic — the `Block` branch runs before the table lookup. -/
theorem C5_non_number_counterexample :
    lookupMod [("x", PdxNumber.int 10)] "x" = some (.int 10) ∧
    process_expression [("x", PdxNumber.int 10)]
        (.mk "x" (.block [.mk "x" (.num (.int 5))]))
      = (.mk "x" (.block [.mk "x" (.num (.int 50))]), true, []) :=
  ⟨rfl, rfl⟩

/-- C5 (amended): for an lhs that matches a table key, is not in
`IGNORE_BLOCKS`, and whose rhs is neither a `Number` nor a `Block`, the
transformer leaves the expression exactly as it was, reports no dirty
flag, and prints the expression as a diagnostic. -/
theorem C5_non_number_diagnostic (m : List (String × PdxNumber)) (lhs : String)
    (rhs : Value) (mult : PdxNumber) (hign : lhs ∉ IGNORE_BLOCKS)
    (hm : lookupMod m lhs = some mult) (hnb : ∀ es, rhs ≠ Value.block es)
    (hnn : ∀ v, rhs ≠ Value.num v) :
    process_expression m (.mk lhs rhs) = (.mk lhs rhs, false, [.mk lhs rhs]) :=
  process_expression_diag m rhs mult hign hm hnb hnn

/-- Witness for C5 at `merchants = yes` with `merchants` in the table
(the spec's own example of a reused modifier name). -/
theorem C5_non_number_diagnostic_witness :
    process_expression [("merchants", PdxNumber.int 2)] (.mk "merchants" (.ident "yes"))
      = (.mk "merchants" (.ident "yes"), false, [.mk "merchants" (.ident "yes")]) :=
  C5_non_number_diagnostic _ _ _ (.int 2) (by decide) (by rfl)
    (fun es h => Value.noConfusion h) (fun v h => Value.noConfusion h)

/-- C6: in static-file mode the per-file ignore set acts one level
shallower: an ignored top-level key keeps its whole entry unchanged
(children skipped, nothing dirty, nothing printed), a non-ignored
top-level key has exactly its immediate children processed, a non-`Block`
top-level rhs trips the assert, and each top-level sibling is handled
independently by the loop. -/
theorem C6_static_ignore_shallow (m : List (String × PdxNumber))
    (ignore : List String) (lhs : String) (entries : List Expression) :
    (lhs ∈ ignore → static_step m ignore (.mk lhs (.block entries))
        = some (.mk lhs (.block entries), false, [])) ∧
    (lhs ∉ ignore → static_step m ignore (.mk lhs (.block entries))
        = some (.mk lhs (.block (process_children m entries).1),
            (process_children m entries).2.1, (process_children m entries).2.2)) ∧
    (∀ rhs : Value, (∀ es, rhs ≠ Value.block es) →
        static_step m ignore (.mk lhs rhs) = none) ∧
    (∀ (e : Expression) (es : List Expression),
        process_static m ignore (e :: es)
          = match static_step m ignore e with
            | none => none
            | some (e2, d, logs) =>
                match process_static m ignore es with
                | none => none
                | some (es2, d2, logs2) => some (e2 :: es2, d || d2, logs ++ logs2)) :=
  ⟨fun h => static_step_ignored m ignore entries h,
   fun h => static_step_processed m ignore entries h,
   fun rhs hnb => static_step_nonblock m ignore rhs hnb,
   fun _ _ => rfl⟩

/-- Witness for C6: an ignored static key keeps its children, a
non-ignored sibling with the same contents is multiplied. -/
theorem C6_static_ignore_shallow_witness :
    static_step [("x", PdxNumber.int 2)] ["locked"]
        (.mk "locked" (.block [.mk "x" (.num (.int 5))]))
      = some (.mk "locked" (.block [.mk "x" (.num (.int 5))]), false, []) ∧
    static_step [("x", PdxNumber.int 2)] ["locked"]
        (.mk "open" (.block [.mk "x" (.num (.int 5))]))
      = some (.mk "open" (.block [.mk "x" (.num (.int 10))]), true, []) := by
  constructor
  · exact (C6_static_ignore_shallow [("x", PdxNumber.int 2)] ["locked"] "locked"
      [.mk "x" (.num (.int 5))]).1 (by decide)
  · rw [(C6_static_ignore_shallow [("x", PdxNumber.int 2)] ["locked"] "open"
      [.mk "x" (.num (.int 5))]).2.1 (by decide)]
    rfl

/-- C7 (counterexample): `base_tax = 1.5` under table `base_tax ↦ 10`
becomes the float `15.0` (Python `1.5 * 10` stays a float), so the
serialized output line is `base_tax = 15.0`, not the claimed
`base_tax = 15`. -/
theorem C7_end_to_end_counterexample :
    parse_file "base_tax = 1.5\n".data
      = some [.mk "base_tax" (.num (.float (mkRat 3 2)))] ∧
    printForest (process_file [("base_tax", PdxNumber.int 10)]
        [.mk "base_tax" (.num (.float (mkRat 3 2)))])
      = "base_tax = 15.0\n".data ∧
    "base_tax = 15.0\n".data ≠ "base_tax = 15\n".data :=
  ⟨rfl, rfl, by decide⟩

/-- C7 (amended): parsing `base_tax = 1.5`, transforming under
`base_tax ↦ 10`, and serializing yields exactly `base_tax = 15.0` (a
reformatted float literal, as the round-trip contract's numeric exception
anticipates). -/
theorem C7_end_to_end :
    printForest (process_file [("base_tax", PdxNumber.int 10)]
        [.mk "base_tax" (.num (.float (mkRat 3 2)))])
      = "base_tax = 15.0\n".data := rfl

/-- C8: the walker writes a destination file exactly when the transformer
reported at least one mutation, in both dispatch modes of `process_file`:
a generic file's write condition equals the dirty flag of the top-level
loop (and an unchanged file yields the empty, falsy tree that suppresses
the write); a file inside `static_modifiers` goes through
`process_static_file`, and its write condition equals the static loop's
dirty flag (an unchanged static file likewise yields the empty tree). -/
theorem C8_write_iff_mutation (parent : String) (m : List (String × PdxNumber))
    (ignore_static : List String) (tree : List Expression) :
    (parent ≠ "static_modifiers" →
        writes_output_full parent m ignore_static tree
          = some ((process_children m tree).2.1)) ∧
    writes_output m tree = (process_children m tree).2.1 ∧
    ((process_children m tree).2.1 = false → process_file m tree = []) ∧
    (∀ (tree2 : List Expression) (ch : Bool) (logs : List Expression),
        process_static m ignore_static tree = some (tree2, ch, logs) →
        writes_output_full "static_modifiers" m ignore_static tree = some ch) ∧
    (∀ (tree2 : List Expression) (logs : List Expression),
        process_static m ignore_static tree = some (tree2, false, logs) →
        process_static_file m ignore_static tree = some []) := by
  refine ⟨?_, writes_output_iff m tree, fun h => ?_, ?_, ?_⟩
  · intro hp
    rw [writes_output_full, process_file_full, if_neg hp]
    rw [show ((some (process_file m tree)).map (fun t => !t.isEmpty)
        : Option Bool) = some (writes_output m tree) from rfl]
    rw [writes_output_iff m tree]
  · rw [process_file]
    rcases hpc : process_children m tree with ⟨a, b, c⟩
    rw [hpc] at h
    simp only [] at h
    simp [h]
  · intro tree2 ch logs hps
    exact static_writes_iff m ignore_static hps
  · intro tree2 logs hps
    rw [process_static_file, hps]
    simp

/-- Witness for C8: generically, an untouched file is not written and a
mutated one is; in static mode, an untouched file is likewise not
written and a mutated one is. -/
theorem C8_write_iff_mutation_witness :
    writes_output_full "countries" [("base_tax", PdxNumber.int 10)] []
      [.mk "a" (.ident "yes")] = some false ∧
    process_file [("base_tax", PdxNumber.int 10)] [.mk "a" (.ident "yes")] = [] ∧
    writes_output [("base_tax", PdxNumber.int 10)]
      [.mk "base_tax" (.num (.int 3))] = true ∧
    writes_output_full "static_modifiers" [("base_tax", PdxNumber.int 10)] []
      [.mk "city" (.block [.mk "x" (.ident "yes")])] = some false ∧
    process_static_file [("base_tax", PdxNumber.int 10)] []
      [.mk "city" (.block [.mk "x" (.ident "yes")])] = some [] ∧
    writes_output_full "static_modifiers" [("base_tax", PdxNumber.int 10)] []
      [.mk "city" (.block [.mk "base_tax" (.num (.int 3))])] = some true := by
  have h1 := C8_write_iff_mutation "countries" [("base_tax", PdxNumber.int 10)] []
    [.mk "a" (.ident "yes")]
  have h2 := C8_write_iff_mutation "countries" [("base_tax", PdxNumber.int 10)] []
    [.mk "base_tax" (.num (.int 3))]
  have h3 := C8_write_iff_mutation "static_modifiers" [("base_tax", PdxNumber.int 10)] []
    [.mk "city" (.block [.mk "x" (.ident "yes")])]
  have h4 := C8_write_iff_mutation "static_modifiers" [("base_tax", PdxNumber.int 10)] []
    [.mk "city" (.block [.mk "base_tax" (.num (.int 3))])]
  refine ⟨?_, h1.2.2.1 (by rfl), by rw [h2.2.1]; rfl, ?_, ?_, ?_⟩
  · rw [h1.1 (by decide)]
    rfl
  · rw [h3.2.2.2.1 [.mk "city" (.block [.mk "x" (.ident "yes")])] false [] (by rfl)]
  · exact h3.2.2.2.2 [.mk "city" (.block [.mk "x" (.ident "yes")])] [] (by rfl)
  · rw [h4.2.2.2.1 [.mk "city" (.block [.mk "base_tax" (.num (.int 30))])] true [] (by rfl)]

/-- C9: the transformer only multiplies numeric payloads: erasing every
number from the output tree gives the erasure of the input tree, so node
count, order, kinds, every lhs, and the contents of every `Identifier`,
`String`, `Color` and `Listing` node are untouched. -/
theorem C9_value_multiplication_only (m : List (String × PdxNumber))
    (es : List Expression) :
    eraseNumsEs ((process_children m es).1) = eraseNumsEs es ∧
    ((process_children m es).1).length = es.length :=
  ⟨eraseNums_process_children m es, process_children_length m es⟩
